import Mathlib

/-!
# QED-Cascade: a shallow embedding of the drivers, the photon and the histogram

C++ `double` values are embedded as rationals (`ℚ`), `unsigned int` counters
as `Nat` (with an explicit `% 2^32` where a wrap-around can occur), heap
arrays as lists, and an object that is mutated in place as a value that is
passed in and returned.  The sums that repeat, where rounding adds up, are
computed by an addition that is a parameter: the elapsed time of the drivers
(`time += timeStep`, `Engine.plus`) and the bin values that `Merge` adds
(`Histogram.MergeWith`); `binary64Add` is the addition of IEEE 754 `double`
values.  Classes whose sources are not part of the repository snapshot
(`ThreeVector`, `ParticleList`, the pushers, processes and field classes,
`SourceGenerator`, `UnitsSystem`, `Numerics`) enter as parameters.
-/

namespace QEDCascade

/-! ## ThreeVector and Particle (`Particle.hh`) -/

/-- Three real components. -/
structure ThreeVector where
  x : ℚ
  y : ℚ
  z : ℚ
  deriving DecidableEq, Repr

/-- Component access `v[i]`, as used by `GetPosition()[0]`, `[1]`, `[2]`. -/
def ThreeVector.get (v : ThreeVector) (i : Nat) : ℚ :=
  match i with
  | 0 => v.x
  | 1 => v.y
  | _ => v.z

/-- Modelled from the spec: `ThreeVector.hh` is absent; scaling of a vector by a
scalar (`energy * direction.Norm()`, `position / RefLength()`) is taken
componentwise. -/
def ThreeVector.scale (a : ℚ) (v : ThreeVector) : ThreeVector :=
  ⟨a * v.x, a * v.y, a * v.z⟩

/-- The two `ThreeVector` members used by `Photon` whose bodies are absent:
`Mag()` (the magnitude) and `Norm()` (the argument of the energy constructor). -/
structure VectorOps where
  Mag : ThreeVector → ℚ
  Norm : ThreeVector → ThreeVector

/-- The dynamic type of a `Particle*`.  `Photon` is the only subclass whose
source is present; every other subclass is kept by the name that its
`GetName()` override returns. -/
inductive DynType where
  | Photon
  | Other (name : String)
  deriving DecidableEq, Repr

/-- The data members of `Particle` (`Particle.hh`, private section), with the
dynamic type of the object. -/
structure Particle where
  dyn : DynType
  m_mass : ℚ
  m_charge : ℚ
  m_time : ℚ
  m_opticalDepth : ℚ
  m_tracking : Bool
  m_position : ThreeVector
  m_momentum : ThreeVector
  m_posHistory : List ThreeVector
  m_momHistory : List ThreeVector
  m_timeHistory : List ℚ
  m_gammaHistory : List ℚ
  deriving DecidableEq, Repr

namespace Particle

/-- Modelled from the spec: `Particle.cpp` is absent.  The six-argument base
constructor `Particle(mass, charge, position, momentum, time, tracking)` stores
its arguments in the like-named members; the optical depth it starts with is
the argument `tau0` (in the source a random draw), the histories start empty. -/
def ctor (dyn : DynType) (tau0 : ℚ) (mass charge : ℚ) (position momentum : ThreeVector)
    (time : ℚ) (tracking : Bool) : Particle :=
  { dyn := dyn, m_mass := mass, m_charge := charge, m_time := time,
    m_opticalDepth := tau0, m_tracking := tracking, m_position := position,
    m_momentum := momentum, m_posHistory := [], m_momHistory := [],
    m_timeHistory := [], m_gammaHistory := [] }

/-- `GetPosition() const {return m_position;}` -/
def GetPosition (p : Particle) : ThreeVector := p.m_position

/-- `GetMomentum() const {return m_momentum;}` -/
def GetMomentum (p : Particle) : ThreeVector := p.m_momentum

/-- `GetMass() const {return m_mass;}` -/
def GetMass (p : Particle) : ℚ := p.m_mass

/-- `GetCharge() const {return m_charge;}` -/
def GetCharge (p : Particle) : ℚ := p.m_charge

/-- `GetTime() const {return m_time;}` -/
def GetTime (p : Particle) : ℚ := p.m_time

end Particle

/-! ## Photon (`Photon.hh`, `Photon.cpp`) -/

namespace Photon

/-- `Photon(position, momentum, time, tracking)`:
`Particle(0.0, 0.0, position, momentum, time, tracking)`. -/
def ctorMomentum (tau0 : ℚ) (position momentum : ThreeVector) (time : ℚ)
    (tracking : Bool) : Particle :=
  Particle.ctor DynType.Photon tau0 0 0 position momentum time tracking

/-- `Photon(energy, position, direction, time, tracking)`:
`Particle(0.0, 0.0, position, energy * direction.Norm(), time, tracking)`. -/
def ctorEnergy (ops : VectorOps) (tau0 : ℚ) (energy : ℚ) (position direction : ThreeVector)
    (time : ℚ) (tracking : Bool) : Particle :=
  Particle.ctor DynType.Photon tau0 0 0 position
    (ThreeVector.scale energy (ops.Norm direction)) time tracking

/-- `Photon::GetEnergy`: `return m_momentum.Mag();` -/
def GetEnergy (ops : VectorOps) (p : Particle) : ℚ := ops.Mag p.m_momentum

/-- `Photon::GetGamma`: `return m_momentum.Mag();` -/
def GetGamma (ops : VectorOps) (p : Particle) : ℚ := ops.Mag p.m_momentum

/-- `Photon::GetBeta`: `return 1.0;` -/
def GetBeta (_p : Particle) : ℚ := 1

/-- `Photon::GetType`: `return "Phton";` -/
def GetType (_p : Particle) : String := "Phton"

/-- `Photon::GetName`: `return "Phton";` -/
def GetName (_p : Particle) : String := "Phton"

end Photon

/-- The virtual call `particle->GetName()`: the `Photon` override for a photon,
the (absent) override of the other subclasses otherwise. -/
def Particle.GetName (p : Particle) : String :=
  match p.dyn with
  | DynType.Photon => Photon.GetName p
  | DynType.Other name => name

/-- A `ParticleList`: the particles in insertion order. `GetNPart()` is the
length, `GetParticle(k)` the entry at position `k`. -/
abbrev ParticleList := List Particle

/-! ## Histogram (`Histogram.cpp`)

`Histogram.hh` is absent.  The members are taken from their uses in
`Histogram.cpp`: `m_name`, the bin count `m_nBins` (`unsigned int`), the two
heap arrays `m_binCentres` and `m_binValues` (both allocated with `m_nBins`
cells by `Initialise`), and the entry counter `m_entries`, which is only ever
incremented and added, and is kept as an unbounded `Nat`. -/

/-- How a call can end other than by returning: `exit(code)`; a read or write
outside an array (or through a null array pointer), whose behaviour the
language leaves undefined; a `delete` of an object that has been deleted
before, whose behaviour is undefined too; an exception that nothing catches;
and `unfinished`, which is not an outcome of the program: it says that a loop
was still running when the iteration bound given to its embedding was used
up. -/
inductive Fault where
  | exit (code : Nat)
  | outOfBounds
  | doubleDelete
  | uncaughtException
  | unfinished
  deriving DecidableEq, Repr

/-- The data members of `Histogram`. -/
structure Histogram where
  m_name : String
  m_nBins : Nat
  m_binCentres : List ℚ
  m_binValues : List ℚ
  m_entries : Nat
  deriving DecidableEq, Repr

/-- The one function of the absent `Numerics` that `Histogram` calls:
`Numerics::ArrayIndex(array, length, value)`. -/
structure Numerics where
  ArrayIndex : List ℚ → Nat → ℚ → Nat

/-- In C++ a string literal used as an operand of `||` is a non-null pointer
and converts to `true`; this is the value of `"energy"`, `"x"`, `"y"`, `"z"`
in the conditions of `Histogram::Fill`. -/
def literalAsCondition (_literal : String) : Bool := true

/-- The index `m_nBins - 1` in `unsigned int` arithmetic. -/
def lastIndex (nBins : Nat) : Nat := (nBins + 2 ^ 32 - 1) % 2 ^ 32

namespace Histogram

/-- `Histogram::Histogram()`: no arrays, `m_nBins(0)`, `m_entries(0)`. -/
def ctorDefault : Histogram :=
  { m_name := "", m_nBins := 0, m_binCentres := [], m_binValues := [], m_entries := 0 }

/-- `Histogram::Initialise(name, minBin, maxBin, nBins)`: sets the name and the
bin count, allocates both arrays, and fills the bin centres
`minBin + i * detla` with `detla = (maxBin - minBin) / (m_nBins - 1.0)` and the
bin values with 0.  `m_entries` is not assigned.  (The quotient is a `ℚ`
quotient.  For `nBins = 1` the source divides by zero and the one bin centre
is not a number; `ℚ` has no such value and evaluates the quotient to 0, so
what is said below about bin centres is said for at least two bins.) -/
def Initialise (h : Histogram) (name : String) (minBin maxBin : ℚ) (nBins : Nat) : Histogram :=
  let detla : ℚ := (maxBin - minBin) / ((nBins : ℚ) - 1)
  { h with
    m_name := name
    m_nBins := nBins
    m_binCentres := (List.range nBins).map (fun (i : Nat) => minBin + (i : ℚ) * detla)
    m_binValues := (List.range nBins).map (fun _ => (0 : ℚ)) }

/-- `Histogram::Histogram(name, minBin, maxBin, nBins)`: calls `Initialise` on
an object none of whose members has been initialised; `entries0` is the
indeterminate value that `m_entries` holds. -/
def ctor (entries0 : Nat) (name : String) (minBin maxBin : ℚ) (nBins : Nat) : Histogram :=
  Initialise { ctorDefault with m_entries := entries0 } name minBin maxBin nBins

/-- `Histogram::Normalise`: `m_binValues[i] /= m_entries` for every bin.  (A
`ℚ` quotient: for `m_entries = 0` the source produces a non-finite `double`,
which `ℚ` does not represent.) -/
def Normalise (h : Histogram) : Histogram :=
  { h with m_binValues := h.m_binValues.map (fun v => v / (h.m_entries : ℚ)) }

/-- One iteration of a loop of `Fill` for the sampled value `v`:
`m_entries++`, and if `v > m_binCentres[0] && v < m_binCentres[m_nBins-1]`
then `m_binValues[ArrayIndex(m_binCentres, m_nBins, v)]++`. -/
def fillOne (num : Numerics) (h : Histogram) (v : ℚ) : Except Fault Histogram :=
  let h1 := { h with m_entries := h.m_entries + 1 }
  match h1.m_binCentres[0]? with
  | none => Except.error Fault.outOfBounds
  | some lo =>
    if v > lo then
      match h1.m_binCentres[lastIndex h1.m_nBins]? with
      | none => Except.error Fault.outOfBounds
      | some hi =>
        if v < hi then
          let index := num.ArrayIndex h1.m_binCentres h1.m_nBins v
          match h1.m_binValues[index]? with
          | none => Except.error Fault.outOfBounds
          | some c => Except.ok { h1 with m_binValues := h1.m_binValues.set index (c + 1) }
        else Except.ok h1
    else Except.ok h1

/-- A loop `for (i = 0; i < partList->GetNPart(); i++)` of `Fill`, sampling
`sample` from each particle. -/
def fillLoop (num : Numerics) (sample : Particle → ℚ) :
    Histogram → ParticleList → Except Fault Histogram
  | h, [] => Except.ok h
  | h, p :: rest =>
    match fillOne num h (sample p) with
    | Except.error e => Except.error e
    | Except.ok h1 => fillLoop num sample h1 rest

/-- `Histogram::Fill(partList, dataType)`.  `GetEnergy` is the virtual call
`GetParticle(i)->GetEnergy()`.  The conditions are those of the source:
`dataType == "Energy" || "energy"` and so on. -/
def Fill (num : Numerics) (GetEnergy : Particle → ℚ) (h : Histogram) (partList : ParticleList)
    (dataType : String) : Except Fault Histogram :=
  if h.m_nBins = 0 then Except.error (Fault.exit 1)
  else
    let filled :=
      if dataType = "Energy" ∨ literalAsCondition "energy" = true then
        fillLoop num GetEnergy h partList
      else if dataType = "X" ∨ literalAsCondition "x" = true then
        fillLoop num (fun p => p.GetPosition.get 0) h partList
      else if dataType = "Y" ∨ literalAsCondition "y" = true then
        fillLoop num (fun p => p.GetPosition.get 1) h partList
      else if dataType = "Z" ∨ literalAsCondition "z" = true then
        fillLoop num (fun p => p.GetPosition.get 2) h partList
      else Except.error (Fault.exit 1)
    match filled with
    | Except.error e => Except.error e
    | Except.ok h1 => Except.ok (Normalise h1)

/-- The loop of `Merge`: `m_binValues[i] += hist.m_binValues[i]` for
`i < m_nBins` (both arrays have `m_nBins` cells).  The sum is the exact sum;
`addBinValuesWith` is the same loop with the sum as the machine rounds it. -/
def addBinValues (a b : List ℚ) : List ℚ := List.zipWith (fun x y => x + y) a b

/-- `Histogram::Merge(hist)` on the receiver `h`.  The three parts of the
compatibility check are evaluated left to right and stop at the first that
fails; an incompatible `hist` only produces a message on `std::cerr`. -/
def Merge (h hist : Histogram) : Except Fault Histogram :=
  if h.m_nBins = hist.m_nBins then
    match h.m_binCentres[0]?, hist.m_binCentres[0]? with
    | some a0, some b0 =>
      if a0 = b0 then
        match h.m_binCentres[lastIndex h.m_nBins]?, hist.m_binCentres[lastIndex h.m_nBins]? with
        | some a1, some b1 =>
          if a1 = b1 then
            Except.ok { h with
              m_entries := h.m_entries + hist.m_entries
              m_binValues := addBinValues h.m_binValues hist.m_binValues }
          else Except.ok h
        | _, _ => Except.error Fault.outOfBounds
      else Except.ok h
    | _, _ => Except.error Fault.outOfBounds
  else Except.ok h

/-- Both arrays of a histogram have `m_nBins` cells, as `Initialise` allocates
them. -/
def WellFormed (h : Histogram) : Prop :=
  h.m_binCentres.length = h.m_nBins ∧ h.m_binValues.length = h.m_nBins ∧ h.m_nBins < 2 ^ 32

/-- The two histograms have identical bin edges: the same number of bins and
the same bin centres. -/
def SameBins (a b : Histogram) : Prop :=
  a.m_nBins = b.m_nBins ∧ a.m_binCentres = b.m_binCentres

/-- The loop of `Merge`, `m_binValues[i] += hist.m_binValues[i]` for
`i < m_nBins`, where `add x y` is the `double` that `x += y` leaves in
`x`. -/
def addBinValuesWith (add : ℚ → ℚ → ℚ) (a b : List ℚ) : List ℚ := List.zipWith add a b

/-- `Histogram::Merge(hist)` on the receiver `h`, as `Merge`, with the sum of
line 109 computed by `add`. -/
def MergeWith (add : ℚ → ℚ → ℚ) (h hist : Histogram) : Except Fault Histogram :=
  if h.m_nBins = hist.m_nBins then
    match h.m_binCentres[0]?, hist.m_binCentres[0]? with
    | some a0, some b0 =>
      if a0 = b0 then
        match h.m_binCentres[lastIndex h.m_nBins]?, hist.m_binCentres[lastIndex h.m_nBins]? with
        | some a1, some b1 =>
          if a1 = b1 then
            Except.ok { h with
              m_entries := h.m_entries + hist.m_entries
              m_binValues := addBinValuesWith add h.m_binValues hist.m_binValues }
          else Except.ok h
        | _, _ => Except.error Fault.outOfBounds
      else Except.ok h
    | _, _ => Except.error Fault.outOfBounds
  else Except.ok h

end Histogram

/-- The virtual call `particle->GetEnergy()`: the `Photon` override for a
photon; `otherEnergy` stands for `Particle::GetEnergy` and the overrides of the
other subclasses, whose sources are absent. -/
def Particle.GetEnergy (ops : VectorOps) (otherEnergy : Particle → ℚ) (p : Particle) : ℚ :=
  match p.dyn with
  | DynType.Photon => Photon.GetEnergy ops p
  | DynType.Other _ => otherEnergy p

/-! ## The collaborators that are configured at setup

The classes below are constructed in `main` and in `RunManager::beamOn`; their
sources are absent.  An object is kept as the constructor call that built it,
and its behaviour is a field of `Engine`. -/

/-- An `EMField*`: which field class was constructed, with its constructor
arguments in the order of the call. -/
inductive EMField where
  | StaticEMField (E B : ThreeVector)
  | PlaneEMField (maxE wavelength polarisation : ℚ) (direction : ThreeVector)
  | GaussianEMField (maxE wavelength duration waist polarisation : ℚ)
      (start focus : ThreeVector)
  | FocusingField (maxE wavelength duration waist polarisation : ℚ)
      (start focus : ThreeVector)
  deriving DecidableEq, Repr

/-- A `ParticlePusher*`: which pusher class was constructed (field, timestep). -/
inductive ParticlePusher where
  | LorentzPusher (field : EMField) (timeStep : ℚ)
  | LandauPusher (field : EMField) (timeStep : ℚ)
  | ModifiedLandauPusher (field : EMField) (timeStep : ℚ)
  deriving DecidableEq, Repr

/-- A `Process*`: which process class was constructed, with its constructor
arguments in the order of the call. -/
inductive Process where
  | NonLinearCompton (field : EMField) (timeStep : ℚ) (tracking : Bool)
  | NonLinearBreitWheeler (field : EMField) (timeStep : ℚ) (tracking : Bool)
  | ContinuousEmission (field : EMField) (timeStep : ℚ) (a3 : Bool) (sampleFrac : ℚ)
      (a5 : Bool) (a6 : ℚ)
  | StochasticEmission (field : EMField) (timeStep : ℚ) (sampleFrac : ℚ)
      (a4 : Bool) (a5 : ℚ)
  deriving DecidableEq, Repr

/-- A `SourceGenerator*`, by the constructor call that built it: the ten
arguments of the call in `main`, or the ten arguments of the call in
`RunManager::beamOn`. -/
inductive SourceGenerator where
  | ofInput (type distro : String) (number : Nat) (energyMin energyMax radius duration : ℚ)
      (position direction : ThreeVector) (tracking : Bool)
  | ofRunManager (particleType energyDist : String) (events : Int)
      (energyParam1 energyParam2 radius duration divergence : ℚ)
      (position direction : ThreeVector)
  deriving DecidableEq, Repr

/-- What the drivers take as given: the behaviour of the absent classes, and
the machine addition of the elapsed time.
* `PushParticle pusher p` is the particle after `pusher->PushParticle(&p)`;
* `Interact proc k event` is the particle list after
  `proc->Interact(event->GetParticle(k), event)`;
* `GenerateList gen n` is the list returned by the call of
  `gen->GenerateList()` that follows `n` earlier calls (the index stands for the
  state of the random source);
* `GetSourceNumber gen` is `gen->GetSourceNumber()`;
* `GetWeight p` is `p->GetWeight()`;
* `plus time timeStep` is the value that `time += timeStep` leaves in the
  `double` variable `time`: the sum as the machine rounds it.  Nothing is
  assumed of it; it is the exact sum where no rounding occurs. -/
structure Engine where
  PushParticle : ParticlePusher → Particle → Particle
  Interact : Process → Nat → ParticleList → ParticleList
  GenerateList : SourceGenerator → Nat → ParticleList
  GetSourceNumber : SourceGenerator → Nat
  GetWeight : Particle → ℚ
  plus : ℚ → ℚ → ℚ

/-! ## One timestep: push every particle and offer it to every process

`QEDCASC.cpp` lines 213-220 and `RunManager.cpp` lines 232-239 are the same
loop. -/

/-- What the particle loop did, in order: `Push k` is the call
`pusher->PushParticle(event->GetParticle(k))`, `Offer proc k` the call
`processList[proc]->Interact(event->GetParticle(k), event)`. -/
inductive Action where
  | Push (k : Nat)
  | Offer (proc : Nat) (k : Nat)
  deriving DecidableEq, Repr

/-- The particle list together with the record of the calls made so far. -/
structure Sweep where
  event : ParticleList
  trace : List Action
  deriving DecidableEq, Repr

/-- `pusher->PushParticle(event->GetParticle(k))`: the particle at position `k`
is replaced by the pushed particle; the list is otherwise untouched. -/
def pushAt (eng : Engine) (pusher : ParticlePusher) (k : Nat) (event : ParticleList) :
    ParticleList :=
  match event[k]? with
  | some p => event.set k (eng.PushParticle pusher p)
  | none => event

/-- The loop `for (proc = 0; proc < processList.size(); proc++)` for particle
`k`; the first argument is the part of the process list from `proc` on. -/
def processLoop (eng : Engine) (k : Nat) : List Process → Nat → Sweep → Sweep
  | [], _, s => s
  | p :: rest, proc, s =>
    processLoop eng k rest (proc + 1)
      { event := eng.Interact p k s.event, trace := s.trace ++ [Action.Offer proc k] }

/-- The body of the particle loop for position `k`: push, then the process
loop. -/
def particleBody (eng : Engine) (pusher : ParticlePusher) (processList : List Process)
    (k : Nat) (s : Sweep) : Sweep :=
  processLoop eng k processList 0
    { event := pushAt eng pusher k s.event, trace := s.trace ++ [Action.Push k] }

/-- The loop `for (k = 0; k < event->GetNPart(); k++)`, from position `k` on.
The bound is read again at every iteration, so particles appended by a process
are reached by the same loop.  `fuel` bounds the number of iterations; `none`
means that the bound was reached before the loop ended. -/
def particleLoop (eng : Engine) (pusher : ParticlePusher) (processList : List Process) :
    Nat → Nat → Sweep → Option Sweep
  | 0, k, s => if k < s.event.length then none else some s
  | fuel + 1, k, s =>
    if k < s.event.length then
      particleLoop eng pusher processList fuel (k + 1)
        (particleBody eng pusher processList k s)
    else some s

/-- One timestep of either driver: the particle loop from position 0 with an
empty record. -/
def timestep (eng : Engine) (pusher : ParticlePusher) (processList : List Process)
    (fuel : Nat) (event : ParticleList) : Option Sweep :=
  particleLoop eng pusher processList fuel 0 { event := event, trace := [] }

/-- The record of a finished timestep over `n` particles with `m` processes:
particle 0 pushed and offered to processes `0 .. m-1`, then particle 1, and so
on up to particle `n-1`. -/
def fullTrace (m n : Nat) : List Action :=
  (List.range n).flatMap (fun k => Action.Push k :: (List.range m).map (fun proc => Action.Offer proc k))

/-- Following the words of the specification, "a particle is pushed and
offered to all processes": the particle at position `k` of the list is pushed
once, and the pushed particle is then offered once to every configured
process, in the configured order. -/
def pushedThenOffered (eng : Engine) (pusher : ParticlePusher) (processList : List Process)
    (k : Nat) (event : ParticleList) : ParticleList :=
  processList.foldl (fun list proc => eng.Interact proc k list)
    (match event[k]? with
     | some p => event.set k (eng.PushParticle pusher p)
     | none => event)

/-- Following the words of the specification: the particle list after the
particles at the positions `0 .. n-1` have had their turn, one after the
other, each pushed once and then offered once to every process. -/
def turnsUpTo (eng : Engine) (pusher : ParticlePusher) (processList : List Process)
    (n : Nat) (event : ParticleList) : ParticleList :=
  (List.range n).foldl (fun list k => pushedThenOffered eng pusher processList k list) event

/-! ## The time loop shared by the two drivers -/

/-- The elapsed time after `n` timesteps: `double time(0)` followed by `n`
executions of `time += timeStep`, each of which leaves `plus time timeStep`. -/
def elapsed (plus : ℚ → ℚ → ℚ) (timeStep : ℚ) : Nat → ℚ
  | 0 => 0
  | n + 1 => plus (elapsed plus timeStep n) timeStep

/-- The record of one timestep of the time loop: the elapsed time at which it
started, the particle list as it stood when its particle loop started, and the
calls that the particle loop made. -/
structure StepRecord where
  time : ℚ
  start : ParticleList
  trace : List Action
  deriving DecidableEq, Repr

/-- The state of the time loop of `RunManager::beamOn`: the elapsed `time`,
the event's particle list, and (for the record) the timesteps made so far. -/
structure Stepping where
  time : ℚ
  event : ParticleList
  steps : List StepRecord
  deriving DecidableEq, Repr

/-- The particle list as it stands when timestep `j` starts, read from the
record of an event whose timesteps are `steps` and whose final particle list
is `final`: the start list of the recorded timestep `j`, and the final list
when the event has no timestep `j`. -/
def startOf (steps : List StepRecord) (final : ParticleList) (j : Nat) : ParticleList :=
  match steps[j]? with
  | some rec => rec.start
  | none => final

/-- The record `steps` is the record of the timesteps of an event that started
from the particle list `event` and left the list `final`: the first timestep
started from `event` (with no timestep, `final` is `event`); timestep `j`
started when the elapsed time was the time accumulated over `j` additions of
the timestep; its particle loop ran on the list recorded as its start, made
the recorded calls, and left the list from which the next timestep started
(after the last timestep, `final`). -/
def StepsOf (eng : Engine) (pusher : ParticlePusher) (processList : List Process)
    (timeStep : ℚ) (event final : ParticleList) (steps : List StepRecord) : Prop :=
  startOf steps final 0 = event ∧
  ∀ (j : Nat) (rec : StepRecord), steps[j]? = some rec →
    rec.time = elapsed eng.plus timeStep j ∧
    ∃ fuel sw, timestep eng pusher processList fuel rec.start = some sw ∧
      rec.trace = sw.trace ∧ startOf steps final (j + 1) = sw.event

/-- `RunManager.cpp` lines 229-241: `while (time < m_timeEnd) { particle loop;
time += m_timeStep; }`.  `fuelT` bounds the number of timesteps, `fuelP` the
iterations of each particle loop. -/
def beamOnTimeLoop (eng : Engine) (pusher : ParticlePusher) (processList : List Process)
    (timeStep timeEnd : ℚ) (fuelP : Nat) : Nat → Stepping → Except Fault Stepping
  | 0, st => if st.time < timeEnd then Except.error Fault.unfinished else Except.ok st
  | fuelT + 1, st =>
    if st.time < timeEnd then
      match timestep eng pusher processList fuelP st.event with
      | none => Except.error Fault.unfinished
      | some sw =>
        beamOnTimeLoop eng pusher processList timeStep timeEnd fuelP fuelT
          { time := eng.plus st.time timeStep, event := sw.event,
            steps := st.steps ++ [{ time := st.time, start := st.event, trace := sw.trace }] }
    else Except.ok st

/-! ## The command-line driver (`QEDCASC.cpp`)

`FileParser`, `OutputManager` and the seven-argument `Histogram` class that
`main` uses are absent.  The parsed input enters as the five parameter
structs; a histogram of the driver is kept as its parameters (`GetTime()` is
`Time`, `GetParticle()` is `Particle`), and every call of `AppParticle` is
recorded. -/

/-- `GeneralParameters`, the members that `main` reads. -/
structure GeneralParameters where
  pusher : String
  timeStep : ℚ
  timeEnd : ℚ
  tracking : Bool
  fileName : String
  deriving DecidableEq, Repr

/-- `FieldParameters`, the members that `main` reads (`Type_` is the member
`Type`). -/
structure FieldParameters where
  Type_ : String
  E : ThreeVector
  B : ThreeVector
  MaxE : ℚ
  Wavelength : ℚ
  Polerisation : ℚ
  Direction : ThreeVector
  Duration : ℚ
  Waist : ℚ
  Start : ThreeVector
  Focus : ThreeVector
  deriving DecidableEq, Repr

/-- `ProcessParameters`, the members that `main` reads. -/
structure ProcessParameters where
  NonLinearCompton : Bool
  NonLinearBreitWheeler : Bool
  deriving DecidableEq, Repr

/-- `ParticleParameters`, the members that `main` reads (`Type_` is the member
`Type`). -/
structure ParticleParameters where
  Type_ : String
  Distro : String
  Number : Nat
  EnergyMin : ℚ
  EnergyMax : ℚ
  Radius : ℚ
  Duration : ℚ
  Position : ThreeVector
  Direction : ThreeVector
  Output : Bool
  deriving DecidableEq, Repr

/-- `HistogramParameters`, the members that `main` reads (`Type_` is the member
`Type`). -/
structure HistogramParameters where
  Name : String
  Particle : String
  Type_ : String
  Time : ℚ
  MinBin : ℚ
  MaxBin : ℚ
  Bins : Nat
  deriving DecidableEq, Repr

/-- What `FileParser` hands to `main`. -/
structure InputFile where
  inGeneral : GeneralParameters
  inField : FieldParameters
  inProcess : ProcessParameters
  inParticles : List ParticleParameters
  inHistogram : List HistogramParameters
  deriving DecidableEq, Repr

/-- One pass of a histogram over the particle list (lines 201-208 and 226-233):
the particles handed to `AppParticle`, in order, are those whose `GetName()`
equals the histogram's `GetParticle()`. -/
def histogramPass (h : HistogramParameters) (event : ParticleList) : List Particle :=
  event.filter (fun p => decide (h.Particle = p.GetName))

/-- The record of one histogram pass: the index of the histogram, the number
of timesteps completed before the pass (a pass made inside the time loop is
made at the start of the timestep with this index), the particle list the pass
went over, and the particles handed to `AppParticle`. -/
structure Pass where
  hist : Nat
  step : Nat
  offered : ParticleList
  appended : List Particle
  deriving DecidableEq, Repr

/-- The state of one event of `main`: the elapsed `time`, the particle list,
`histCount`, and for the record the calls made in each timestep (`steps`) and
the histogram passes made so far (`fills`). -/
structure EventRun where
  time : ℚ
  event : ParticleList
  histCount : Nat
  steps : List StepRecord
  fills : List Pass
  deriving DecidableEq, Repr

/-- Lines 196-211, "Check if time for histogram". -/
def histogramCheck (histograms : List HistogramParameters) (st : EventRun) : EventRun :=
  match histograms[st.histCount]? with
  | some h =>
    if st.time ≥ h.Time then
      { st with
        fills := st.fills ++
          [{ hist := st.histCount, step := st.steps.length, offered := st.event,
             appended := histogramPass h st.event }]
        histCount := st.histCount + 1 }
    else st
  | none => st

/-- Lines 194-222: `while (time < inGeneral.timeEnd) { histogram check;
particle loop; time += inGeneral.timeStep; }`.  `fuelT` bounds the number of
timesteps, `fuelP` the iterations of each particle loop. -/
def mainTimeLoop (eng : Engine) (pusher : ParticlePusher) (processList : List Process)
    (histograms : List HistogramParameters) (timeStep timeEnd : ℚ) (fuelP : Nat) :
    Nat → EventRun → Except Fault EventRun
  | 0, st => if st.time < timeEnd then Except.error Fault.unfinished else Except.ok st
  | fuelT + 1, st =>
    if st.time < timeEnd then
      let st1 := histogramCheck histograms st
      match timestep eng pusher processList fuelP st1.event with
      | none => Except.error Fault.unfinished
      | some sw =>
        mainTimeLoop eng pusher processList histograms timeStep timeEnd fuelP fuelT
          { st1 with
            time := eng.plus st1.time timeStep, event := sw.event
            steps := st1.steps ++ [{ time := st1.time, start := st1.event, trace := sw.trace }] }
    else Except.ok st

/-- The loop `for (k = histCount; k < histograms.size(); k++)` of lines
224-234; the first argument is the part of the histogram list from `k` on. -/
def flushFrom (step : Nat) (event : ParticleList) : List HistogramParameters → Nat → List Pass
  | [], _ => []
  | h :: rest, k =>
    { hist := k, step := step, offered := event, appended := histogramPass h event } ::
      flushFrom step event rest (k + 1)

/-- Lines 223-234, "fill any non filled histograms": one pass for each
histogram from `histCount` on. -/
def flushHistograms (histograms : List HistogramParameters) (st : EventRun) : EventRun :=
  { st with
    fills := st.fills ++
      flushFrom st.steps.length st.event (histograms.drop st.histCount) st.histCount }

/-- The body of the event loop of `main` (lines 186-241) for an event that
starts from the particle list `event`. -/
def mainEvent (eng : Engine) (pusher : ParticlePusher) (processList : List Process)
    (histograms : List HistogramParameters) (timeStep timeEnd : ℚ) (fuelT fuelP : Nat)
    (event : ParticleList) : Except Fault EventRun :=
  match mainTimeLoop eng pusher processList histograms timeStep timeEnd fuelP fuelT
      { time := 0, event := event, histCount := 0, steps := [], fills := [] } with
  | Except.error e => Except.error e
  | Except.ok st => Except.ok (flushHistograms histograms st)

/-- The loop over the events of one source (line 184), from event `j` on with
`n` events left. -/
def mainEvents (eng : Engine) (pusher : ParticlePusher) (processList : List Process)
    (histograms : List HistogramParameters) (timeStep timeEnd : ℚ) (fuelT fuelP : Nat)
    (generator : SourceGenerator) : Nat → Nat → List EventRun → Except Fault (List EventRun)
  | 0, _, done => Except.ok done
  | n + 1, j, done =>
    match mainEvent eng pusher processList histograms timeStep timeEnd fuelT fuelP
        (eng.GenerateList generator j) with
    | Except.error e => Except.error e
    | Except.ok run =>
      mainEvents eng pusher processList histograms timeStep timeEnd fuelT fuelP generator
        n (j + 1) (done ++ [run])

/-- The loop over the sources (line 175). -/
def mainSources (eng : Engine) (pusher : ParticlePusher) (processList : List Process)
    (histograms : List HistogramParameters) (timeStep timeEnd : ℚ) (fuelT fuelP : Nat) :
    List SourceGenerator → List EventRun → Except Fault (List EventRun)
  | [], done => Except.ok done
  | generator :: rest, done =>
    match mainEvents eng pusher processList histograms timeStep timeEnd fuelT fuelP generator
        (eng.GetSourceNumber generator) 0 done with
    | Except.error e => Except.error e
    | Except.ok done1 =>
      mainSources eng pusher processList histograms timeStep timeEnd fuelT fuelP rest done1

/-- What a run of `main` leaves: its return value, the field and the pusher it
constructed (if it got that far), and the events it generated and simulated,
in order. -/
structure MainRun where
  status : Nat
  field : Option EMField
  pusher : Option ParticlePusher
  simulated : List EventRun
  deriving DecidableEq, Repr

/-- Lines 33-64, the check of the command line; `argv` includes the program
name, `argc` is its length.  The result is the input file name when the check
passes and the return value of `main` otherwise.
`argument.substr(argument.size() - 4)` throws `std::out_of_range` for an
argument shorter than four characters, and is otherwise the last four
characters of the argument. -/
def checkCommandLine (argv : List String) : Except Fault (String ⊕ Nat) :=
  if argv.length = 1 then Except.ok (Sum.inr 1)
  else if argv.length > 2 then Except.ok (Sum.inr 1)
  else
    match argv[1]? with
    | none => Except.error Fault.outOfBounds
    | some argument =>
      if argument = "-h" then Except.ok (Sum.inr 1)
      else if argument.length < 4 then Except.error Fault.uncaughtException
      else if argument.toList.drop (argument.length - 4) = ".ini".toList then
        Except.ok (Sum.inl argument)
      else Except.ok (Sum.inr 1)

/-- Lines 81-104, "Set up the fields"; `none` is the branch that prints
"Error: unknown field type." and returns 1. -/
def setupField (inField : FieldParameters) : Option EMField :=
  if inField.Type_ = "static" then
    some (EMField.StaticEMField inField.E inField.B)
  else if inField.Type_ = "plane" then
    some (EMField.PlaneEMField inField.MaxE inField.Wavelength inField.Polerisation
      inField.Direction)
  else if inField.Type_ = "gaussian" then
    some (EMField.GaussianEMField inField.MaxE inField.Wavelength inField.Duration
      inField.Waist inField.Polerisation inField.Start inField.Focus)
  else if inField.Type_ = "focusing" then
    some (EMField.FocusingField inField.MaxE inField.Wavelength inField.Duration
      inField.Waist inField.Polerisation inField.Start inField.Focus)
  else none

/-- Lines 106-118, "Set up the physics pusher"; `none` is the branch that
prints "Error: Unkown Pusher Type" and returns 1. -/
def setupPusher (inGeneral : GeneralParameters) (field : EMField) : Option ParticlePusher :=
  if inGeneral.pusher = "Lorentz" then
    some (ParticlePusher.LorentzPusher field inGeneral.timeStep)
  else if inGeneral.pusher = "Landau" then
    some (ParticlePusher.LandauPusher field inGeneral.timeStep)
  else none

/-- Lines 120-134, "Set up the Physics list". -/
def setupProcessList (inGeneral : GeneralParameters) (inProcess : ProcessParameters)
    (field : EMField) : List Process :=
  let processList : List Process := []
  let processList :=
    if inProcess.NonLinearCompton = true then
      processList ++ [Process.NonLinearCompton field inGeneral.timeStep inGeneral.tracking]
    else processList
  if inProcess.NonLinearBreitWheeler = true then
    processList ++ [Process.NonLinearBreitWheeler field inGeneral.timeStep inGeneral.tracking]
  else processList

/-- Lines 136-147, "set up the particle sources". -/
def setupGenerators (inGeneral : GeneralParameters) (inParticles : List ParticleParameters) :
    List SourceGenerator :=
  inParticles.map (fun q =>
    SourceGenerator.ofInput q.Type_ q.Distro q.Number q.EnergyMin q.EnergyMax q.Radius
      q.Duration q.Position q.Direction inGeneral.tracking)

/-- `main(argc, argv)`.  `parse file` is what `FileParser` reads from `file`. -/
def main (eng : Engine) (parse : String → InputFile) (fuelT fuelP : Nat) (argv : List String) :
    Except Fault MainRun :=
  match checkCommandLine argv with
  | Except.error e => Except.error e
  | Except.ok (Sum.inr status) =>
    Except.ok { status := status, field := none, pusher := none, simulated := [] }
  | Except.ok (Sum.inl file) =>
    let input := parse file
    match setupField input.inField with
    | none => Except.ok { status := 1, field := none, pusher := none, simulated := [] }
    | some field =>
      match setupPusher input.inGeneral field with
      | none => Except.ok { status := 1, field := some field, pusher := none, simulated := [] }
      | some pusher =>
        match mainSources eng pusher
            (setupProcessList input.inGeneral input.inProcess field) input.inHistogram
            input.inGeneral.timeStep input.inGeneral.timeEnd fuelT fuelP
            (setupGenerators input.inGeneral input.inParticles) [] with
        | Except.error e => Except.error e
        | Except.ok simulated =>
          Except.ok { status := 0, field := some field, pusher := some pusher,
                      simulated := simulated }

/-- The part of the state of an event of `main` that the time loop of `beamOn`
has too. -/
def EventRun.stepping (st : EventRun) : Stepping :=
  { time := st.time, event := st.event, steps := st.steps }

/-- The histogram passes recorded in `fills`, for an event whose timesteps are
`steps` and whose final particle list is `final`:
* they are passes of the histograms `0 .. size-1`, one each and in this order;
* each was made at the start of a recorded timestep (`step` below the number
  of timesteps) or in the final flush (`step` equal to it);
* each went over the event's particle list as it stood then: the list from
  which that timestep started, and the final list in the flush;
* each handed over exactly the particles of that list whose `GetName()` is the
  histogram's particle label. -/
def PassesOf (histograms : List HistogramParameters) (steps : List StepRecord)
    (final : ParticleList) (fills : List Pass) : Prop :=
  fills.map Pass.hist = List.range histograms.length ∧
  ∀ f ∈ fills, f.step ≤ steps.length ∧ f.offered = startOf steps final f.step ∧
    ∃ h, histograms[f.hist]? = some h ∧
      f.appended = f.offered.filter (fun p => decide (h.Particle = p.GetName))

/-- Every particle loop of the event ends: for each particle list there is an
iteration bound within which the particle loop started on it returns. -/
def SweepsFinish (eng : Engine) (pusher : ParticlePusher) (processList : List Process) : Prop :=
  ∀ event : ParticleList, ∃ fuel sw, timestep eng pusher processList fuel event = some sw

/-- What is recorded of the histogram pass `f`, given the timesteps `steps` and
the passes `fills` of the event; `h` is the histogram of the pass and `T` its
configured time:
* `f` handed over exactly the particles of the list it went over whose
  `GetName()` is `h`'s particle label;
* the pass of the histogram just before `h` in the list was made no later, and
  in an earlier timestep if `f` was made inside the time loop;
* no timestep before the one of the pass, and later than the timestep in which
  the histogram just before `h` was filled, started at a time `t ≥ T` (the
  start time of a timestep is the elapsed time recorded for it);
* if the pass was made inside the time loop, the timestep it was made in
  started at a time `t ≥ T`, and the particle loop of that timestep started
  from the list the pass went over. -/
def PassOK (histograms : List HistogramParameters) (steps : List StepRecord)
    (fills : List Pass) (f : Pass) : Prop :=
  ∃ h, histograms[f.hist]? = some h ∧
    f.appended = f.offered.filter (fun p => decide (h.Particle = p.GetName)) ∧
    (∀ g ∈ fills, g.hist + 1 = f.hist →
      g.step ≤ f.step ∧ (f.step < steps.length → g.step < f.step)) ∧
    (∀ (j : Nat) (rec : StepRecord), j < f.step → steps[j]? = some rec →
      (∀ g ∈ fills, g.hist + 1 = f.hist → g.step < j) → rec.time < h.Time) ∧
    (f.step < steps.length → ∃ rec, steps[f.step]? = some rec ∧
      h.Time ≤ rec.time ∧ rec.start = f.offered)

/-- When the histogram pass `f` was made, for an event whose timesteps are
`steps`, whose final particle list is `final` and whose passes are `fills`;
`T` is the configured time of the histogram of the pass:
* the pass was made at the start of a recorded timestep or, with `f.step`
  equal to the number of timesteps, in the final flush, and it went over the
  particle list as it stood then: the list from which that timestep's particle
  loop started (so before that step's push), the final list in the flush;
* the histogram just before it in the list was filled no later, and in an
  earlier timestep if `f` was made inside the time loop;
* no timestep before the one of the pass, and later than the timestep in which
  the histogram just before it was filled, started at a time `t ≥ T`;
* if the pass was made inside the time loop, the timestep it was made in
  started at a time `t ≥ T`. -/
def PassTiming (histograms : List HistogramParameters) (steps : List StepRecord)
    (final : ParticleList) (fills : List Pass) (f : Pass) : Prop :=
  ∃ h, histograms[f.hist]? = some h ∧
    f.step ≤ steps.length ∧ f.offered = startOf steps final f.step ∧
    (∀ g ∈ fills, g.hist + 1 = f.hist →
      g.step ≤ f.step ∧ (f.step < steps.length → g.step < f.step)) ∧
    (∀ (j : Nat) (rec : StepRecord), j < f.step → steps[j]? = some rec →
      (∀ g ∈ fills, g.hist + 1 = f.hist → g.step < j) → rec.time < h.Time) ∧
    (f.step < steps.length → ∃ rec, steps[f.step]? = some rec ∧ h.Time ≤ rec.time)

/-- What holds of the state of an event of `main` that started from the
particle list `event`, each time the condition of the time loop is
evaluated. -/
def LoopInv (eng : Engine) (pusher : ParticlePusher) (processList : List Process)
    (histograms : List HistogramParameters) (dt : ℚ) (event : ParticleList) (st : EventRun) :
    Prop :=
  st.time = elapsed eng.plus dt st.steps.length ∧
  StepsOf eng pusher processList dt event st.event st.steps ∧
  st.fills.map Pass.hist = List.range st.histCount ∧
  (∀ f ∈ st.fills, PassOK histograms st.steps st.fills f ∧ f.step < st.steps.length) ∧
  (∀ h, histograms[st.histCount]? = some h → ∀ (j : Nat) (rec : StepRecord),
    st.steps[j]? = some rec →
    (∀ g ∈ st.fills, g.hist + 1 = st.histCount → g.step < j) → rec.time < h.Time)

/-! ## RunManager (`RunManager.cpp`) -/

/-- The reference scales of the absent `UnitsSystem`. -/
structure UnitsSystem where
  RefTime : ℚ
  RefEField : ℚ
  RefLength : ℚ
  RefEnergy : ℚ
  RefMomentum : ℚ
  deriving DecidableEq, Repr

/-- `vector / scalar`, componentwise. -/
def ThreeVector.div (v : ThreeVector) (a : ℚ) : ThreeVector :=
  ⟨v.x / a, v.y / a, v.z / a⟩

/-- The data members of `RunManager`.  A pointer member is `none` when null and
otherwise holds the object it was last assigned; `delete` does not change the
pointer.  `m_fieldDeleted`, `m_pusherDeleted` and `m_generatorDeleted` are not
members: each says that the object its pointer holds has been deleted and the
pointer has not been assigned since (the pointer dangles). -/
structure RunManager where
  m_units : UnitsSystem
  m_timeStep : ℚ
  m_timeEnd : ℚ
  m_field : Option EMField
  m_pusher : Option ParticlePusher
  m_generator : Option SourceGenerator
  m_fieldDeleted : Bool
  m_pusherDeleted : Bool
  m_generatorDeleted : Bool
  m_processList : List Process
  m_fieldSet : Bool
  m_physSet : Bool
  m_genSet : Bool
  m_sampleFrac : ℚ
  m_useBW : Bool
  m_fieldType : String
  m_maxField : ℚ
  m_wavelength : ℚ
  m_fieldDuration : ℚ
  m_waist : ℚ
  m_polarisation : ℚ
  m_start : ThreeVector
  m_focus : ThreeVector
  m_physics : String
  m_particleType : String
  m_energyDist : String
  m_energyParam1 : ℚ
  m_energyParam2 : ℚ
  m_radius : ℚ
  m_particleDuration : ℚ
  m_divergence : ℚ
  m_position : ThreeVector
  m_direction : ThreeVector
  m_input_P_X : List (List ℚ)
  m_electron_P_X : List (List ℚ)
  m_positron_P_X : List (List ℚ)
  m_photon_P_X : List (List ℚ)
  deriving DecidableEq, Repr

namespace RunManager

/-- `RunManager::RunManager()`.  `raw` is the storage the object is built in:
the members that the constructor does not initialise keep what `raw` holds;
strings, vectors and the process list are default-constructed empty.  The
three pointers are null, so none of them dangles. -/
def ctor (SI : UnitsSystem) (raw : RunManager) : RunManager :=
  { raw with
    m_timeStep := 0, m_timeEnd := 0, m_field := none, m_pusher := none,
    m_generator := none, m_fieldDeleted := false, m_pusherDeleted := false,
    m_generatorDeleted := false, m_fieldSet := false, m_physSet := false, m_genSet := false,
    m_sampleFrac := 1, m_useBW := false, m_units := SI,
    m_processList := [], m_fieldType := "", m_physics := "", m_particleType := "",
    m_energyDist := "", m_input_P_X := [], m_electron_P_X := [], m_positron_P_X := [],
    m_photon_P_X := [] }

/-- `RunManager::setTime`. -/
def setTime (rm : RunManager) (timeStep timeEnd : ℚ) : RunManager :=
  { rm with
    m_timeStep := timeStep / rm.m_units.RefTime
    m_timeEnd := timeEnd / rm.m_units.RefTime }

/-- `RunManager::setField`. -/
def setField (rm : RunManager) (fieldType : String) (maxField wavelength duration waist
    polarisation : ℚ) (start focus : ThreeVector) : RunManager :=
  if fieldType = "gaussian" ∨ fieldType = "Gaussian" ∨
      fieldType = "focusing" ∨ fieldType = "Focusing" then
    { rm with
      m_fieldSet := true
      m_fieldType := fieldType
      m_maxField := maxField / rm.m_units.RefEField
      m_wavelength := wavelength / rm.m_units.RefLength
      m_fieldDuration := duration / rm.m_units.RefTime
      m_waist := waist / rm.m_units.RefLength
      m_polarisation := polarisation
      m_start := start.div rm.m_units.RefLength
      m_focus := focus.div rm.m_units.RefLength }
  else
    { rm with m_fieldSet := false }

/-- `RunManager::setPhysics`. -/
def setPhysics (rm : RunManager) (physics : String) : RunManager :=
  if physics = "Classical" ∨ physics = "clasical" ∨
      physics = "Semiclassical" ∨ physics = "semiclassical" ∨
      physics = "Quantum" ∨ physics = "quantum" then
    { rm with m_physSet := true, m_physics := physics }
  else
    { rm with m_physSet := false }

/-- `RunManager::setGenerator`. -/
def setGenerator (rm : RunManager) (particleType energyDist : String)
    (energyParam1 energyParam2 radius duration divergence : ℚ)
    (position direction : ThreeVector) : RunManager :=
  { rm with
    m_genSet := true
    m_particleType := particleType
    m_energyDist := energyDist
    m_energyParam1 := energyParam1 / rm.m_units.RefEnergy
    m_energyParam2 := energyParam2 / rm.m_units.RefEnergy
    m_radius := radius / rm.m_units.RefLength
    m_particleDuration := duration / rm.m_units.RefTime
    m_divergence := divergence
    m_position := position.div rm.m_units.RefLength
    m_direction := direction }

/-- `RunManager::setSampleFraction`. -/
def setSampleFraction (rm : RunManager) (sampleFrac : ℚ) : RunManager :=
  if sampleFrac ≥ 0 ∧ sampleFrac ≤ 1 then { rm with m_sampleFrac := sampleFrac } else rm

/-- `RunManager::usePairProduction`. -/
def usePairProduction (rm : RunManager) (useBW : Bool) : RunManager :=
  { rm with m_useBW := useBW }

/-- `beamOn`, "Set the field" (lines 147-156). -/
def buildField (rm : RunManager) : EMField :=
  if rm.m_fieldType = "gaussian" ∨ rm.m_fieldType = "Gaussian" then
    EMField.GaussianEMField rm.m_maxField rm.m_wavelength rm.m_fieldDuration rm.m_waist
      rm.m_polarisation rm.m_start rm.m_focus
  else
    EMField.FocusingField rm.m_maxField rm.m_wavelength rm.m_fieldDuration rm.m_waist
      rm.m_polarisation rm.m_start rm.m_focus

/-- `beamOn`, "Set the physics" (lines 158-177): the pusher and the emission
process chosen from `m_physics`, for the field `field`. -/
def buildPhysics (rm : RunManager) (field : EMField) : ParticlePusher × Process :=
  if rm.m_physics = "Classical" ∨ rm.m_physics = "classical" then
    (ParticlePusher.LandauPusher field rm.m_timeStep,
     Process.ContinuousEmission field rm.m_timeStep true rm.m_sampleFrac false 0)
  else if rm.m_physics = "Semiclassical" ∨ rm.m_physics = "semiclassical" then
    (ParticlePusher.ModifiedLandauPusher field rm.m_timeStep,
     Process.ContinuousEmission field rm.m_timeStep false rm.m_sampleFrac false 0)
  else
    (ParticlePusher.LorentzPusher field rm.m_timeStep,
     Process.StochasticEmission field rm.m_timeStep rm.m_sampleFrac false 0)

/-- `beamOn`, lines 147-195, entered with an empty process list: the field, the
pusher, the process list and the generator are built (the three pointers are
assigned new objects) and the four result arrays are replaced by `threads`
empty vectors. -/
def configure (rm : RunManager) (events : Int) (threads : Nat) : RunManager :=
  let field := buildField rm
  let physics := buildPhysics rm field
  let processList := rm.m_processList ++ [physics.2]
  let processList :=
    if rm.m_useBW = true then
      processList ++ [Process.NonLinearBreitWheeler field rm.m_timeStep false]
    else processList
  { rm with
    m_field := some field
    m_pusher := some physics.1
    m_fieldDeleted := false
    m_pusherDeleted := false
    m_generatorDeleted := false
    m_processList := processList
    m_generator := some (SourceGenerator.ofRunManager rm.m_particleType rm.m_energyDist events
      rm.m_energyParam1 rm.m_energyParam2 rm.m_radius rm.m_particleDuration rm.m_divergence
      rm.m_position rm.m_direction)
    m_input_P_X := List.replicate threads []
    m_electron_P_X := List.replicate threads []
    m_positron_P_X := List.replicate threads []
    m_photon_P_X := List.replicate threads [] }

/-- `array[tid].push_back(v)` for each `v` of `values`, in order. -/
def pushBackAll (array : List (List ℚ)) (tid : Nat) (values : List ℚ) :
    Except Fault (List (List ℚ)) :=
  match array[tid]? with
  | none => if values = [] then Except.ok array else Except.error Fault.outOfBounds
  | some row => Except.ok (array.set tid (row ++ values))

/-- The six numbers stored for a particle at the start of an event. -/
def inputRow (units : UnitsSystem) (p : Particle) : List ℚ :=
  [p.GetMomentum.get 0 * units.RefMomentum, p.GetMomentum.get 1 * units.RefMomentum,
   p.GetMomentum.get 2 * units.RefMomentum, p.GetPosition.get 0 * units.RefLength,
   p.GetPosition.get 1 * units.RefLength, p.GetPosition.get 2 * units.RefLength]

/-- The seven numbers stored for a particle at the end of an event. -/
def finalRow (eng : Engine) (units : UnitsSystem) (p : Particle) : List ℚ :=
  inputRow units p ++ [eng.GetWeight p]

/-- The numbers that the loop "Store final particle properties" appends to the
array that collects the particles of charge `charge`. -/
def finalRows (eng : Engine) (units : UnitsSystem) (charge : ℚ) (event : ParticleList) :
    List ℚ :=
  (event.filter (fun p => decide (p.GetCharge = charge))).flatMap (finalRow eng units)

/-- The result of a call of `beamOn`: the manager after the call and, for the
record, the final state of the time loop of every event that was generated and
simulated, in order. -/
structure BeamOnRun where
  rm : RunManager
  simulated : List Stepping
  deriving DecidableEq, Repr

/-- The body of the event loop of `beamOn` (lines 205-293) for event `i` on
thread `tid`. -/
def beamOnEvent (eng : Engine) (fuelT fuelP : Nat) (pusher : ParticlePusher)
    (generator : SourceGenerator) (tid i : Nat) (run : BeamOnRun) : Except Fault BeamOnRun :=
  let rm := run.rm
  let event := eng.GenerateList generator i
  match pushBackAll rm.m_input_P_X tid (event.flatMap (inputRow rm.m_units)) with
  | Except.error e => Except.error e
  | Except.ok input =>
    match beamOnTimeLoop eng pusher rm.m_processList rm.m_timeStep rm.m_timeEnd fuelP fuelT
        { time := 0, event := event, steps := [] } with
    | Except.error e => Except.error e
    | Except.ok fin =>
      match pushBackAll rm.m_electron_P_X tid (finalRows eng rm.m_units (-1) fin.event),
            pushBackAll rm.m_photon_P_X tid (finalRows eng rm.m_units 0 fin.event),
            pushBackAll rm.m_positron_P_X tid (finalRows eng rm.m_units 1 fin.event) with
      | Except.ok electron, Except.ok photon, Except.ok positron =>
        Except.ok
          { rm := { rm with m_input_P_X := input, m_electron_P_X := electron,
                            m_photon_P_X := photon, m_positron_P_X := positron }
            simulated := run.simulated ++ [fin] }
      | _, _, _ => Except.error Fault.outOfBounds

/-- The event loop `for (i = 0; i < nEvents; i++)` of `beamOn`, from event `i`
on, with `n` events left.  `threadOf i` is the thread that runs event `i`
(always 0 in the build without OpenMP); the events are taken one after the
other. -/
def beamOnEvents (eng : Engine) (fuelT fuelP : Nat) (pusher : ParticlePusher)
    (generator : SourceGenerator) (threadOf : Nat → Nat) :
    Nat → Nat → BeamOnRun → Except Fault BeamOnRun
  | 0, _, run => Except.ok run
  | n + 1, i, run =>
    match beamOnEvent eng fuelT fuelP pusher generator (threadOf i) i run with
    | Except.error e => Except.error e
    | Except.ok run1 => beamOnEvents eng fuelT fuelP pusher generator threadOf n (i + 1) run1

/-- `beamOn`, lines 132-134: `delete m_pusher; delete m_generator; delete
m_field;`.  Deleting a null pointer does nothing; deleting a live object
leaves the pointer dangling; deleting through a dangling pointer deletes the
object a second time. -/
def deletePointers (rm : RunManager) : Except Fault RunManager :=
  if rm.m_pusherDeleted = true ∨ rm.m_generatorDeleted = true ∨ rm.m_fieldDeleted = true then
    Except.error Fault.doubleDelete
  else
    Except.ok { rm with
      m_pusherDeleted := rm.m_pusher.isSome
      m_generatorDeleted := rm.m_generator.isSome
      m_fieldDeleted := rm.m_field.isSome }

/-- `RunManager::beamOn(events, threads)`.  `USEOPENMP` says which build it is
and `threadOf` is the thread that OpenMP gives to each event. -/
def beamOn (USEOPENMP : Bool) (threadOf : Nat → Nat) (eng : Engine) (fuelT fuelP : Nat)
    (rm : RunManager) (events threads : Int) : Except Fault BeamOnRun :=
  if USEOPENMP = false ∧ threads ≠ 1 then Except.ok { rm := rm, simulated := [] }
  else
    match deletePointers rm with
    | Except.error e => Except.error e
    | Except.ok rm =>
      let rm := { rm with m_processList := [] }
      if rm.m_timeStep = 0 ∨ rm.m_fieldSet = false ∨ rm.m_physSet = false ∨
          rm.m_genSet = false then
        Except.ok { rm := rm, simulated := [] }
      else if threads < 0 then Except.error Fault.uncaughtException
      else
        let rm := configure rm events threads.toNat
        match rm.m_pusher, rm.m_generator with
        | some pusher, some generator =>
          beamOnEvents eng fuelT fuelP pusher generator
            (fun i => if USEOPENMP = true then threadOf i else 0)
            (eng.GetSourceNumber generator) 0 { rm := rm, simulated := [] }
        | _, _ => Except.error Fault.outOfBounds

end RunManager

/-- The manager with its four result arrays emptied: what is left are the
settings. -/
def RunManager.settings (rm : RunManager) : RunManager :=
  { rm with m_input_P_X := [], m_electron_P_X := [], m_positron_P_X := [], m_photon_P_X := [] }

/-! ## Sequences of calls on a RunManager -/

/-- A call of a member function of `RunManager`, with its arguments.  For
`beamOn` the two iteration bounds of the embedding are part of the record. -/
inductive Call where
  | setTime (timeStep timeEnd : ℚ)
  | setField (fieldType : String) (maxField wavelength duration waist polarisation : ℚ)
      (start focus : ThreeVector)
  | setPhysics (physics : String)
  | setGenerator (particleType energyDist : String)
      (energyParam1 energyParam2 radius duration divergence : ℚ)
      (position direction : ThreeVector)
  | setSampleFraction (sampleFrac : ℚ)
  | usePairProduction (useBW : Bool)
  | beamOn (events threads : Int) (fuelT fuelP : Nat)
  deriving DecidableEq, Repr

/-- The manager after the call `c`. -/
def Call.apply (USEOPENMP : Bool) (threadOf : Nat → Nat) (eng : Engine) (rm : RunManager) :
    Call → Except Fault RunManager
  | Call.setTime timeStep timeEnd => Except.ok (rm.setTime timeStep timeEnd)
  | Call.setField fieldType maxField wavelength duration waist polarisation start focus =>
    Except.ok (rm.setField fieldType maxField wavelength duration waist polarisation start focus)
  | Call.setPhysics physics => Except.ok (rm.setPhysics physics)
  | Call.setGenerator particleType energyDist energyParam1 energyParam2 radius duration
      divergence position direction =>
    Except.ok (rm.setGenerator particleType energyDist energyParam1 energyParam2 radius duration
      divergence position direction)
  | Call.setSampleFraction sampleFrac => Except.ok (rm.setSampleFraction sampleFrac)
  | Call.usePairProduction useBW => Except.ok (rm.usePairProduction useBW)
  | Call.beamOn events threads fuelT fuelP =>
    match RunManager.beamOn USEOPENMP threadOf eng fuelT fuelP rm events threads with
    | Except.error e => Except.error e
    | Except.ok run => Except.ok run.rm

/-- The manager after the calls `calls`, made in order on `rm`. -/
def runCalls (USEOPENMP : Bool) (threadOf : Nat → Nat) (eng : Engine) :
    RunManager → List Call → Except Fault RunManager
  | rm, [] => Except.ok rm
  | rm, c :: rest =>
    match c.apply USEOPENMP threadOf eng rm with
    | Except.error e => Except.error e
    | Except.ok rm1 => runCalls USEOPENMP threadOf eng rm1 rest

/-- The field type given to the most recent `setField` call of `calls`, if
there is one. -/
def lastSetField : List Call → Option String
  | [] => none
  | c :: rest =>
    match lastSetField rest with
    | some fieldType => some fieldType
    | none =>
      match c with
      | Call.setField fieldType _ _ _ _ _ _ _ => some fieldType
      | _ => none

/-- The physics name given to the most recent `setPhysics` call of `calls`, if
there is one. -/
def lastSetPhysics : List Call → Option String
  | [] => none
  | c :: rest =>
    match lastSetPhysics rest with
    | some physics => some physics
    | none =>
      match c with
      | Call.setPhysics physics => some physics
      | _ => none

/-- Whether `calls` contains a `setGenerator` call. -/
def generatorCalled : List Call → Bool
  | [] => false
  | c :: rest =>
    match c with
    | Call.setGenerator _ _ _ _ _ _ _ _ _ => true
    | _ => generatorCalled rest

/-- Whether `setField` accepts the field type (otherwise it prints "Error:
Unknown field type." and returns). -/
def fieldAccepted (fieldType : String) : Bool :=
  decide (fieldType = "gaussian" ∨ fieldType = "Gaussian" ∨
    fieldType = "focusing" ∨ fieldType = "Focusing")

/-- Whether `setPhysics` accepts the name (otherwise it prints "Error: Unkown
physics type." and returns). -/
def physicsAccepted (physics : String) : Bool :=
  decide (physics = "Classical" ∨ physics = "clasical" ∨
    physics = "Semiclassical" ∨ physics = "semiclassical" ∨
    physics = "Quantum" ∨ physics = "quantum")

/-- The most recent `setField` call of `calls` was rejected, or there is none. -/
def fieldMissing (calls : List Call) : Prop :=
  match lastSetField calls with
  | none => True
  | some fieldType => fieldAccepted fieldType = false

/-- The most recent `setPhysics` call of `calls` was rejected, or there is
none. -/
def physicsMissing (calls : List Call) : Prop :=
  match lastSetPhysics calls with
  | none => True
  | some physics => physicsAccepted physics = false

/-! ## The arithmetic of `double`

The sum of two `double` values is the exact sum rounded to the nearest number
with a significand of 53 binary digits, a tie going to the one whose
significand is even (IEEE 754 binary64, the default rounding).  The exponent
is not bounded here: this is the `double` result wherever that result is a
normal number, which leaves out overflow and the subnormal numbers. -/

/-- The position of the leading binary digit of `n`: the `e` with
`2^e ≤ n < 2^(e+1)` for `n > 0`; `fuel` bounds the number of halvings. -/
def leadingBit : Nat → Nat → Nat
  | 0, _ => 0
  | fuel + 1, n => if n < 2 then 0 else leadingBit fuel (n / 2) + 1

/-- The power `2^e` for an integer exponent. -/
def twoToThe (e : Int) : ℚ :=
  if 0 ≤ e then ((2 ^ e.toNat : Nat) : ℚ) else 1 / ((2 ^ (-e).toNat : Nat) : ℚ)

/-- The binary exponent of a positive number `a`: the `e` with
`2^e ≤ a < 2^(e+1)`. -/
def binade (a : ℚ) : Int :=
  let e0 : Int :=
    (leadingBit a.num.natAbs a.num.natAbs : Int) - (leadingBit a.den a.den : Int)
  if twoToThe e0 ≤ a then e0 else e0 - 1

/-- The number `q` rounded to a `double`: to the nearest multiple of
`2^(e-52)`, where `2^e ≤ |q| < 2^(e+1)`, a tie going to the even multiple. -/
def binary64Round (q : ℚ) : ℚ :=
  if q = 0 then 0
  else
    let a := |q|
    let ulp := twoToThe (binade a - 52)
    let m := a / ulp
    let f : Int := m.floor
    let r := m - f
    let n : Int :=
      if r < 1 / 2 then f
      else if 1 / 2 < r then f + 1
      else if f % 2 = 0 then f else f + 1
    (if q < 0 then -1 else 1) * (n : ℚ) * ulp

/-- The sum of two `double` values, as a `double`. -/
def binary64Add (a b : ℚ) : ℚ := binary64Round (a + b)

/-! ## Sample collaborators, used to run the definitions on concrete inputs -/

/-- An engine whose pusher advances the particle's time by the pusher's
timestep, whose processes never touch the particle list, and whose addition of
the elapsed time is exact. -/
def idleEngine : Engine :=
  { PushParticle := fun pusher p =>
      match pusher with
      | ParticlePusher.LorentzPusher _ dt => { p with m_time := p.m_time + dt }
      | ParticlePusher.LandauPusher _ dt => { p with m_time := p.m_time + dt }
      | ParticlePusher.ModifiedLandauPusher _ dt => { p with m_time := p.m_time + dt }
    Interact := fun _ _ event => event
    GenerateList := fun _ _ => [Photon.ctorMomentum 1 ⟨0, 0, 0⟩ ⟨1, 0, 0⟩ 0 false]
    GetSourceNumber := fun generator =>
      match generator with
      | SourceGenerator.ofInput _ _ number _ _ _ _ _ _ _ => number
      | SourceGenerator.ofRunManager _ _ events _ _ _ _ _ _ _ => events.toNat
    GetWeight := fun _ => 1
    plus := fun a b => a + b }

/-- An engine like `idleEngine` that adds the elapsed time as the machine does,
in `double` arithmetic. -/
def doubleEngine : Engine := { idleEngine with plus := binary64Add }

/-- An engine like `idleEngine`, except that every process, offered a particle
that is not a photon, appends one photon at that particle's position. -/
def emittingEngine : Engine :=
  { idleEngine with
    Interact := fun _ k event =>
      match event[k]? with
      | some p =>
        if p.dyn = DynType.Photon then event
        else event ++ [Photon.ctorMomentum 1 p.m_position ⟨1, 0, 0⟩ p.m_time false]
      | none => event }

/-- An electron at rest at the origin. -/
def sampleElectron : Particle :=
  Particle.ctor (DynType.Other "Electron") 1 1 (-1) ⟨0, 0, 0⟩ ⟨0, 0, 0⟩ 0 false

/-- A static field that is zero everywhere. -/
def zeroField : EMField := EMField.StaticEMField ⟨0, 0, 0⟩ ⟨0, 0, 0⟩

/-- Reference scales that are all 1. -/
def unitScales : UnitsSystem :=
  { RefTime := 1, RefEField := 1, RefLength := 1, RefEnergy := 1, RefMomentum := 1 }

/-- A block of storage for a `RunManager`, before its constructor has run. -/
def rawManager : RunManager :=
  { m_units := unitScales, m_timeStep := 7, m_timeEnd := 7, m_field := none, m_pusher := none,
    m_generator := none, m_fieldDeleted := true, m_pusherDeleted := true,
    m_generatorDeleted := true, m_processList := [], m_fieldSet := true, m_physSet := true,
    m_genSet := true, m_sampleFrac := 7, m_useBW := true, m_fieldType := "", m_maxField := 7,
    m_wavelength := 7, m_fieldDuration := 7, m_waist := 7, m_polarisation := 7,
    m_start := ⟨7, 7, 7⟩, m_focus := ⟨7, 7, 7⟩, m_physics := "", m_particleType := "",
    m_energyDist := "", m_energyParam1 := 7, m_energyParam2 := 7, m_radius := 7,
    m_particleDuration := 7, m_divergence := 7, m_position := ⟨7, 7, 7⟩,
    m_direction := ⟨7, 7, 7⟩, m_input_P_X := [], m_electron_P_X := [], m_positron_P_X := [],
    m_photon_P_X := [] }

/-- A photon of momentum 1/2 along x, at the origin. -/
def softPhoton : Particle := Photon.ctorMomentum 1 ⟨0, 0, 0⟩ ⟨1 / 2, 0, 0⟩ 0 false

/-- A photon of momentum 5 along x, at the origin. -/
def hardPhoton : Particle := Photon.ctorMomentum 1 ⟨0, 0, 0⟩ ⟨5, 0, 0⟩ 0 false

/-- Vector operations that are exact on vectors along a coordinate axis: the
magnitude of such a vector is the sum of the absolute values of its components,
and `Norm` is applied to unit vectors only. -/
def axisOps : VectorOps :=
  { Mag := fun v => |v.x| + |v.y| + |v.z|
    Norm := fun v => v }

/-- The virtual `GetEnergy()` with `axisOps`; particles other than photons are
given energy 0. -/
def axisEnergy : Particle → ℚ := Particle.GetEnergy axisOps (fun _ => 0)

/-- An `ArrayIndex` that returns the position of the last entry of the array
that is not above the value. -/
def floorIndex : Numerics :=
  { ArrayIndex := fun array _ value => (array.takeWhile (fun c => decide (c ≤ value))).length - 1 }

/-- A histogram with bin centres 0, 1, 2 and one entry, in the first bin. -/
def histogramA : Histogram :=
  { m_name := "A", m_nBins := 3, m_binCentres := [0, 1, 2], m_binValues := [1, 0, 0],
    m_entries := 1 }

/-- A histogram with bin centres 0, 1, 2 and two entries, in the second and
third bin. -/
def histogramB : Histogram :=
  { m_name := "B", m_nBins := 3, m_binCentres := [0, 1, 2], m_binValues := [0, 1 / 2, 1 / 2],
    m_entries := 2 }

/-- A histogram with bin centres 0, 1, 2 and four entries, in the third bin. -/
def histogramC : Histogram :=
  { m_name := "C", m_nBins := 3, m_binCentres := [0, 1, 2], m_binValues := [0, 0, 1],
    m_entries := 4 }

/-- A histogram with bin centres 0, 1, 2 and ten entries, one of them in the
first bin: its bin values are the `double` values of 1/10, 0 and 0. -/
def histogramTenth : Histogram :=
  { m_name := "tenth", m_nBins := 3, m_binCentres := [0, 1, 2],
    m_binValues := [binary64Round (1 / 10), 0, 0], m_entries := 10 }

/-- A histogram with bin centres 0, 1, 2 and ten entries, two of them in the
first bin: its bin values are the `double` values of 2/10, 0 and 0. -/
def histogramFifth : Histogram :=
  { m_name := "fifth", m_nBins := 3, m_binCentres := [0, 1, 2],
    m_binValues := [binary64Round (2 / 10), 0, 0], m_entries := 10 }

/-- A histogram with bin centres 0, 1, 2 and ten entries, three of them in the
first bin: its bin values are the `double` values of 3/10, 0 and 0. -/
def histogramThreeTenths : Histogram :=
  { m_name := "threeTenths", m_nBins := 3, m_binCentres := [0, 1, 2],
    m_binValues := [binary64Round (3 / 10), 0, 0], m_entries := 10 }

/-- A histogram with bin centres 0, 2. -/
def histogramD : Histogram :=
  { m_name := "D", m_nBins := 2, m_binCentres := [0, 2], m_binValues := [0, 0], m_entries := 0 }

/-- Two histograms of photons, both configured for time 0. -/
def twoHistogramsAtZero : List HistogramParameters :=
  [{ Name := "first", Particle := "Phton", Type_ := "energy", Time := 0, MinBin := 0,
     MaxBin := 2, Bins := 3 },
   { Name := "second", Particle := "Phton", Type_ := "energy", Time := 0, MinBin := 0,
     MaxBin := 2, Bins := 3 }]

/-- One histogram of photons, configured for time 5/2. -/
def histogramAtFiveHalves : List HistogramParameters :=
  [{ Name := "late", Particle := "Phton", Type_ := "energy", Time := 5 / 2, MinBin := 0,
     MaxBin := 2, Bins := 3 }]

/-- One histogram of photons, configured for time 2^53 + 2. -/
def histogramBeyondStall : List HistogramParameters :=
  [{ Name := "beyond", Particle := "Phton", Type_ := "energy", Time := 9007199254740994,
     MinBin := 0, MaxBin := 2, Bins := 3 }]

/-- A parsed input file whose field label is "dipole". -/
def dipoleInput : InputFile :=
  { inGeneral := { pusher := "Lorentz", timeStep := 1, timeEnd := 2, tracking := false,
                   fileName := "out.h5" }
    inField := { Type_ := "dipole", E := ⟨0, 0, 0⟩, B := ⟨0, 0, 0⟩, MaxE := 1, Wavelength := 1,
                 Polerisation := 0, Direction := ⟨0, 0, 1⟩, Duration := 1, Waist := 1,
                 Start := ⟨0, 0, 0⟩, Focus := ⟨0, 0, 0⟩ }
    inProcess := { NonLinearCompton := true, NonLinearBreitWheeler := false }
    inParticles := [{ Type_ := "electron", Distro := "mono", Number := 3, EnergyMin := 1,
                      EnergyMax := 1, Radius := 0, Duration := 0, Position := ⟨0, 0, 0⟩,
                      Direction := ⟨0, 0, 1⟩, Output := false }]
    inHistogram := [] }

/-- A manager on which `setTime`, `setField` and `setGenerator` have been
called with accepted arguments. -/
def configuredManager : RunManager :=
  (((RunManager.ctor unitScales rawManager).setTime 1 2).setField "gaussian" 1 1 1 1 0
      ⟨0, 0, 0⟩ ⟨0, 0, 0⟩).setGenerator "electron" "mono" 1 1 0 0 0 ⟨0, 0, 0⟩ ⟨0, 0, 1⟩

/-- A full configuration, a run of one event, and then a `setPhysics` call with
the name "classical". -/
def sampleCalls : List Call :=
  [Call.setTime 1 2,
   Call.setField "gaussian" 1 1 1 1 0 ⟨0, 0, 0⟩ ⟨0, 0, 0⟩,
   Call.setPhysics "Quantum",
   Call.setGenerator "electron" "mono" 1 1 0 0 0 ⟨0, 0, 0⟩ ⟨0, 0, 1⟩,
   Call.beamOn 1 1 2 1,
   Call.setPhysics "classical"]

/-- The value of a call that returned, and `fallback` otherwise. -/
def valueOr {α : Type} (fallback : α) : Except Fault α → α
  | Except.ok a => a
  | Except.error _ => fallback

/-- The sweep that `emittingEngine` makes of one timestep over a single
electron, with one process. -/
def emittedSweep : Sweep :=
  (timestep emittingEngine (ParticlePusher.LorentzPusher zeroField 1)
    [Process.NonLinearCompton zeroField 1 false] 2 [sampleElectron]).getD
    { event := [], trace := [] }

/-- The manager after `sampleCalls`, made on a freshly constructed manager in
the build without OpenMP. -/
def managerAfterCalls : RunManager :=
  valueOr rawManager
    (runCalls false (fun _ => 0) idleEngine (RunManager.ctor unitScales rawManager) sampleCalls)

/-- The manager after `sampleCalls` and a call `beamOn(3, 1)`, made on a
freshly constructed manager in the build without OpenMP. -/
def managerAfterAbort : RunManager :=
  valueOr rawManager
    (runCalls false (fun _ => 0) idleEngine (RunManager.ctor unitScales rawManager)
      (sampleCalls ++ [Call.beamOn 3 1 5 5]))

/-- The run of `beamOn(0, 1)` on `configuredManager` after
`setPhysics("clasical")`. -/
def clasicalRun : RunManager.BeamOnRun :=
  valueOr { rm := rawManager, simulated := [] }
    (RunManager.beamOn false (fun _ => 0) idleEngine 0 0
      (configuredManager.setPhysics "clasical") 0 1)

/-- A process only appends: a call of `Interact` for the particle at position
`k` may change that particle and may add particles at the end of the list, and
does nothing else to the list. -/
def OnlyAppends (eng : Engine) : Prop :=
  ∀ (p : Process) (k : Nat) (event : ParticleList),
    ∃ (q : Particle) (extra : ParticleList), eng.Interact p k event = event.set k q ++ extra

/-! # Theorems -/

/-! ## The particle loop of one timestep -/

/-- A push leaves the number of particles as it is. -/
theorem pushAt_length (eng : Engine) (pusher : ParticlePusher) (k : Nat) (event : ParticleList) :
    (pushAt eng pusher k event).length = event.length := by
  unfold pushAt
  cases event[k]? <;> simp

/-- A process that only appends does not shorten the particle list. -/
theorem interact_length (eng : Engine) (happ : OnlyAppends eng) (p : Process) (k : Nat)
    (event : ParticleList) : event.length ≤ (eng.Interact p k event).length := by
  obtain ⟨q, extra, h⟩ := happ p k event
  rw [h]
  simp

/-- The process loop for particle `k` records one offer to each process, in the
order of the process list. -/
theorem processLoop_trace (eng : Engine) (k : Nat) (procs : List Process) :
    ∀ (proc : Nat) (s : Sweep),
      (processLoop eng k procs proc s).trace
        = s.trace ++ (List.range' proc procs.length).map (fun i => Action.Offer i k) := by
  induction procs with
  | nil => intro proc s; simp [processLoop]
  | cons p rest ih =>
    intro proc s
    simp [processLoop, ih, List.range'_succ]

/-- The process loop for particle `k` hands the particle list from one process
to the next, in the order of the process list. -/
theorem processLoop_event (eng : Engine) (k : Nat) (procs : List Process) :
    ∀ (proc : Nat) (s : Sweep),
      (processLoop eng k procs proc s).event
        = procs.foldl (fun list p => eng.Interact p k list) s.event := by
  induction procs with
  | nil => intro proc s; rfl
  | cons p rest ih =>
    intro proc s
    simp only [processLoop, List.foldl_cons]
    rw [ih]

/-- With processes that only append, the process loop does not shorten the
particle list. -/
theorem processLoop_length (eng : Engine) (happ : OnlyAppends eng) (k : Nat)
    (procs : List Process) :
    ∀ (proc : Nat) (s : Sweep), s.event.length ≤ (processLoop eng k procs proc s).event.length := by
  induction procs with
  | nil => intro proc s; simp [processLoop]
  | cons p rest ih =>
    intro proc s
    simp only [processLoop]
    exact le_trans (interact_length eng happ p k s.event)
      (ih (proc + 1) { event := eng.Interact p k s.event, trace := s.trace ++ [Action.Offer proc k] })

/-- The body of the particle loop for particle `k` records the push of `k` and
then the offers of `k`. -/
theorem particleBody_trace (eng : Engine) (pusher : ParticlePusher) (procs : List Process)
    (k : Nat) (s : Sweep) :
    (particleBody eng pusher procs k s).trace
      = s.trace ++ Action.Push k :: (List.range procs.length).map (fun i => Action.Offer i k) := by
  simp [particleBody, processLoop_trace, List.range_eq_range']

/-- The body of the particle loop for particle `k` does to the particle list
what the specification says: it pushes particle `k` once and then offers it
once to every process, in order. -/
theorem particleBody_event (eng : Engine) (pusher : ParticlePusher) (procs : List Process)
    (k : Nat) (s : Sweep) :
    (particleBody eng pusher procs k s).event = pushedThenOffered eng pusher procs k s.event := by
  unfold particleBody pushedThenOffered
  rw [processLoop_event]
  rfl

/-- With processes that only append, the body of the particle loop does not
shorten the particle list. -/
theorem particleBody_length (eng : Engine) (happ : OnlyAppends eng) (pusher : ParticlePusher)
    (procs : List Process) (k : Nat) (s : Sweep) :
    s.event.length ≤ (particleBody eng pusher procs k s).event.length := by
  unfold particleBody
  refine le_trans ?_ (processLoop_length eng happ k procs 0 _)
  simp [pushAt_length]

/-- The particle loop from position `k` on, when it ends: the record grows by
the pushes and offers of positions `k .. n-1`, `n` the final particle count. -/
theorem particleLoop_trace (eng : Engine) (happ : OnlyAppends eng) (pusher : ParticlePusher)
    (procs : List Process) :
    ∀ (fuel k : Nat) (s s' : Sweep), k ≤ s.event.length →
      particleLoop eng pusher procs fuel k s = some s' →
      s.event.length ≤ s'.event.length ∧
      s'.trace = s.trace ++ (List.range' k (s'.event.length - k)).flatMap
        (fun j => Action.Push j :: (List.range procs.length).map (fun i => Action.Offer i j)) := by
  intro fuel
  induction fuel with
  | zero =>
    intro k s s' hk h
    simp only [particleLoop] at h
    split at h
    · exact absurd h (by simp)
    · have hs : s = s' := by simpa using h
      subst hs
      have : s.event.length - k = 0 := by omega
      simp [this]
  | succ fuel ih =>
    intro k s s' hk h
    simp only [particleLoop] at h
    split at h
    · rename_i hlt
      have hlen := particleBody_length eng happ pusher procs k s
      obtain ⟨h1, h2⟩ := ih (k + 1) _ s' (by omega) h
      refine ⟨le_trans hlen h1, ?_⟩
      have hn : s'.event.length - k = (s'.event.length - (k + 1)) + 1 := by omega
      rw [h2, particleBody_trace, hn, List.range'_succ, List.flatMap_cons]
      simp [List.append_assoc]
    · have hs : s = s' := by simpa using h
      subst hs
      have : s.event.length - k = 0 := by omega
      simp [this]

/-- The particle loop is monotone in its iteration bound. -/
theorem particleLoop_mono (eng : Engine) (pusher : ParticlePusher) (procs : List Process) :
    ∀ (fuel fuel' k : Nat) (s s' : Sweep), fuel ≤ fuel' →
      particleLoop eng pusher procs fuel k s = some s' →
      particleLoop eng pusher procs fuel' k s = some s' := by
  intro fuel
  induction fuel with
  | zero =>
    intro fuel' k s s' _ h
    simp only [particleLoop] at h
    split at h
    · exact absurd h (by simp)
    · rename_i hk
      cases fuel' <;> simp [particleLoop, hk, h]
  | succ fuel ih =>
    intro fuel' k s s' hle h
    obtain ⟨f, rfl⟩ : ∃ f, fuel' = f + 1 := ⟨fuel' - 1, by omega⟩
    simp only [particleLoop] at h ⊢
    split
    · rename_i hk
      rw [if_pos hk] at h
      exact ih f (k + 1) _ s' (by omega) h
    · rename_i hk
      rw [if_neg hk] at h
      exact h

/-- The turns of the positions `0 .. n` are the turns of `0 .. n-1` followed by
the turn of position `n`. -/
theorem turnsUpTo_succ (eng : Engine) (pusher : ParticlePusher) (procs : List Process)
    (n : Nat) (event : ParticleList) :
    turnsUpTo eng pusher procs (n + 1) event
      = pushedThenOffered eng pusher procs n (turnsUpTo eng pusher procs n event) := by
  simp [turnsUpTo, List.range_succ, List.foldl_append]

/-- With processes that only append, a turn does not shorten the particle
list. -/
theorem pushedThenOffered_length (eng : Engine) (happ : OnlyAppends eng)
    (pusher : ParticlePusher) (procs : List Process) (k : Nat) (event : ParticleList) :
    event.length ≤ (pushedThenOffered eng pusher procs k event).length := by
  have h := particleBody_length eng happ pusher procs k { event := event, trace := [] }
  rw [particleBody_event] at h
  exact h

/-- With processes that only append, the turn of the particle at position `k`
changes the list at position `k` and at its end, and nowhere else. -/
theorem pushedThenOffered_shape (eng : Engine) (happ : OnlyAppends eng)
    (pusher : ParticlePusher) (procs : List Process) (k : Nat) (event : ParticleList)
    (hk : k < event.length) :
    ∃ (q : Particle) (extra : ParticleList),
      pushedThenOffered eng pusher procs k event = event.set k q ++ extra := by
  have hfold : ∀ (l : List Process) (list : ParticleList),
      (∃ (q : Particle) (extra : ParticleList), list = event.set k q ++ extra) →
      ∃ (q : Particle) (extra : ParticleList),
        l.foldl (fun list p => eng.Interact p k list) list = event.set k q ++ extra := by
    intro l
    induction l with
    | nil => intro list h; exact h
    | cons p rest ih =>
      intro list h
      obtain ⟨q, extra, hq⟩ := h
      obtain ⟨q2, extra2, h2⟩ := happ p k list
      simp only [List.foldl_cons]
      refine ih _ ⟨q2, extra ++ extra2, ?_⟩
      rw [h2, hq, List.set_append_left _ _ (by simpa using hk), List.set_set,
        List.append_assoc]
  unfold pushedThenOffered
  refine hfold procs _ ?_
  rw [List.getElem?_eq_getElem hk]
  exact ⟨eng.PushParticle pusher event[k], [], (List.append_nil _).symm⟩

/-- With processes that only append, the turn of the particle at position `k`
leaves every other particle of the list as it is. -/
theorem pushedThenOffered_other (eng : Engine) (happ : OnlyAppends eng)
    (pusher : ParticlePusher) (procs : List Process) (k j : Nat) (event : ParticleList)
    (hk : k < event.length) (hj : j < event.length) (hjk : j ≠ k) :
    (pushedThenOffered eng pusher procs k event)[j]? = event[j]? := by
  obtain ⟨q, extra, h⟩ := pushedThenOffered_shape eng happ pusher procs k event hk
  rw [h, List.getElem?_append_left (by simpa using hj), List.getElem?_set_ne (Ne.symm hjk)]

/-- With processes that only append, the particle list does not get shorter
from turn to turn. -/
theorem turnsUpTo_length (eng : Engine) (happ : OnlyAppends eng) (pusher : ParticlePusher)
    (procs : List Process) (event : ParticleList) (n m : Nat) (hnm : n ≤ m) :
    (turnsUpTo eng pusher procs n event).length ≤ (turnsUpTo eng pusher procs m event).length := by
  induction m, hnm using Nat.le_induction with
  | base => exact le_refl _
  | succ m _ ih =>
    rw [turnsUpTo_succ]
    exact le_trans ih (pushedThenOffered_length eng happ pusher procs m _)

/-- With processes that only append, a particle is not touched between the
moment it is in the list and its own turn. -/
theorem turnsUpTo_before (eng : Engine) (happ : OnlyAppends eng) (pusher : ParticlePusher)
    (procs : List Process) (event : ParticleList) (k j : Nat) (hkj : k ≤ j)
    (hj : j < (turnsUpTo eng pusher procs k event).length) :
    (turnsUpTo eng pusher procs j event)[j]? = (turnsUpTo eng pusher procs k event)[j]? := by
  have key : ∀ m, k ≤ m → m ≤ j →
      (turnsUpTo eng pusher procs m event)[j]? = (turnsUpTo eng pusher procs k event)[j]? := by
    intro m hkm
    induction m, hkm using Nat.le_induction with
    | base => intro _; rfl
    | succ m hkm ih =>
      intro hmj
      have hlen := turnsUpTo_length eng happ pusher procs event k m hkm
      rw [turnsUpTo_succ, pushedThenOffered_other eng happ pusher procs m j _ (by omega) (by omega)
        (by omega)]
      exact ih (by omega)
  exact key j hkj (le_refl _)

/-- With processes that only append, a particle is not touched after its own
turn, as long as every later turn is the turn of a particle of the list. -/
theorem turnsUpTo_after (eng : Engine) (happ : OnlyAppends eng) (pusher : ParticlePusher)
    (procs : List Process) (event : ParticleList) (n : Nat)
    (hin : ∀ m, m < n → m < (turnsUpTo eng pusher procs m event).length) (j m : Nat)
    (hjm : j + 1 ≤ m) (hmn : m ≤ n) :
    (turnsUpTo eng pusher procs m event)[j]?
      = (turnsUpTo eng pusher procs (j + 1) event)[j]? := by
  induction m, hjm using Nat.le_induction with
  | base => rfl
  | succ m hjm ih =>
    have hm := hin m (by omega)
    rw [turnsUpTo_succ, pushedThenOffered_other eng happ pusher procs m j _ hm (by omega)
      (by omega)]
    exact ih (by omega)

/-- The particle loop from position `k` on, when it ends: if the list it
started on is what the turns of `0 .. k-1` leave of `event`, each of them the
turn of a particle of the list, then the list it returns is what the turns of
all its positions leave of `event`, each of them the turn of a particle of the
list. -/
theorem particleLoop_event (eng : Engine) (happ : OnlyAppends eng) (pusher : ParticlePusher)
    (procs : List Process) (event : ParticleList) :
    ∀ (fuel k : Nat) (s s' : Sweep), k ≤ s.event.length →
      s.event = turnsUpTo eng pusher procs k event →
      (∀ m, m < k → m < (turnsUpTo eng pusher procs m event).length) →
      particleLoop eng pusher procs fuel k s = some s' →
      s'.event = turnsUpTo eng pusher procs s'.event.length event ∧
      (∀ m, m < s'.event.length → m < (turnsUpTo eng pusher procs m event).length) := by
  have hstop : ∀ (k : Nat) (s : Sweep), k ≤ s.event.length → ¬ k < s.event.length →
      s.event = turnsUpTo eng pusher procs k event →
      (∀ m, m < k → m < (turnsUpTo eng pusher procs m event).length) →
      s.event = turnsUpTo eng pusher procs s.event.length event ∧
      (∀ m, m < s.event.length → m < (turnsUpTo eng pusher procs m event).length) := by
    intro k s hk hnk hev hin
    have hkl : k = s.event.length := by omega
    rw [← hkl]
    exact ⟨hev, hin⟩
  intro fuel
  induction fuel with
  | zero =>
    intro k s s' hk hev hin h
    simp only [particleLoop] at h
    split at h
    · exact absurd h (by simp)
    · rename_i hnk
      have hs : s = s' := by simpa using h
      subst hs
      exact hstop k s hk hnk hev hin
  | succ fuel ih =>
    intro k s s' hk hev hin h
    simp only [particleLoop] at h
    split at h
    · rename_i hlt
      have hlen := particleBody_length eng happ pusher procs k s
      refine ih (k + 1) _ s' (by omega) ?_ ?_ h
      · rw [particleBody_event, turnsUpTo_succ, hev]
      · intro m hm
        by_cases hmk : m < k
        · exact hin m hmk
        · have : m = k := by omega
          subst this
          rw [← hev]
          exact hlt
    · rename_i hnk
      have hs : s = s' := by simpa using h
      subst hs
      exact hstop k s hk hnk hev hin

/-- C1. Same-timestep visibility.  For processes that only append, when the
particle loop of a timestep ends, with `n` particles in the list:
* the list contains the initial one, so the particles appended during the step
  are among the `n`;
* the calls made are exactly, for every position `k < n` in order, one push of
  particle `k` followed by one offer of particle `k` to each configured
  process in the configured order;
* the list is what these calls leave of the initial list: the particles at the
  positions `0 .. n-1` have had their turn, one after the other, each pushed
  once and then offered once to every process in order;
* the particle at position `j` of the final list is what its own turn left
  there: it was in the list when its turn came, and no later turn touched it;
* when its turn came, it was as it had entered the list: no earlier turn had
  touched it.
The loop returns before the time loop goes on to the next timestep. -/
theorem timestep_pushes_and_offers_every_particle_once (eng : Engine)
    (happ : OnlyAppends eng) (pusher : ParticlePusher) (processList : List Process)
    (fuel : Nat) (event : ParticleList) (s : Sweep)
    (hfin : timestep eng pusher processList fuel event = some s) :
    event.length ≤ s.event.length ∧
    s.trace = fullTrace processList.length s.event.length ∧
    s.event = turnsUpTo eng pusher processList s.event.length event ∧
    (∀ j, j < s.event.length →
      j < (turnsUpTo eng pusher processList j event).length ∧
      s.event[j]? = (pushedThenOffered eng pusher processList j
        (turnsUpTo eng pusher processList j event))[j]?) ∧
    (∀ k j, k ≤ j → j < (turnsUpTo eng pusher processList k event).length →
      (turnsUpTo eng pusher processList j event)[j]?
        = (turnsUpTo eng pusher processList k event)[j]?) := by
  have h := particleLoop_trace eng happ pusher processList fuel 0 _ s (Nat.zero_le _) hfin
  obtain ⟨hev, hin⟩ := particleLoop_event eng happ pusher processList event fuel 0 _ s
    (Nat.zero_le _) rfl (fun m hm => absurd hm (Nat.not_lt_zero m)) hfin
  refine ⟨h.1, ?_, hev, ?_, ?_⟩
  · rw [h.2]
    simp [fullTrace, List.range_eq_range']
  · intro j hj
    refine ⟨hin j hj, ?_⟩
    rw [← turnsUpTo_succ]
    have := turnsUpTo_after eng happ pusher processList event s.event.length hin j
      s.event.length (by omega) (le_refl _)
    rw [← hev] at this
    exact this
  · intro k j hkj hj
    exact turnsUpTo_before eng happ pusher processList event k j hkj hj

/-! ## Photon -/

/-- C3. A photon built by either constructor has mass 0 and charge 0; its
`GetEnergy` and its `GetGamma` are the magnitude of its momentum and its
`GetBeta` is exactly 1, also through the virtual call, and the three getters
give these values for a photon in any later state. -/
theorem photon_massless_energy_is_momentum_magnitude (ops : VectorOps)
    (otherEnergy : Particle → ℚ) (tau0 energy time : ℚ) (position momentum direction : ThreeVector)
    (tracking : Bool) :
    ((Photon.ctorMomentum tau0 position momentum time tracking).GetMass = 0 ∧
     (Photon.ctorMomentum tau0 position momentum time tracking).GetCharge = 0 ∧
     (Photon.ctorMomentum tau0 position momentum time tracking).GetMomentum = momentum ∧
     Particle.GetEnergy ops otherEnergy
        (Photon.ctorMomentum tau0 position momentum time tracking) = ops.Mag momentum) ∧
    ((Photon.ctorEnergy ops tau0 energy position direction time tracking).GetMass = 0 ∧
     (Photon.ctorEnergy ops tau0 energy position direction time tracking).GetCharge = 0 ∧
     (Photon.ctorEnergy ops tau0 energy position direction time tracking).GetMomentum
        = ThreeVector.scale energy (ops.Norm direction) ∧
     Particle.GetEnergy ops otherEnergy
        (Photon.ctorEnergy ops tau0 energy position direction time tracking)
        = ops.Mag (ThreeVector.scale energy (ops.Norm direction))) ∧
    (∀ p : Particle,
      Photon.GetEnergy ops p = ops.Mag p.GetMomentum ∧
      Photon.GetGamma ops p = ops.Mag p.GetMomentum ∧
      Photon.GetBeta p = 1) := by
  refine ⟨⟨rfl, rfl, rfl, rfl⟩, ⟨rfl, rfl, rfl, rfl⟩, fun p => ⟨rfl, rfl, rfl⟩⟩

/-! ## Histogram -/

/-- For a bin count between 1 and 2^32 - 1, `m_nBins - 1` does not wrap around. -/
theorem lastIndex_of_pos {n : Nat} (h0 : 0 < n) (hn : n < 2 ^ 32) : lastIndex n = n - 1 := by
  unfold lastIndex
  have h1 : n + 2 ^ 32 - 1 = (n - 1) + 2 ^ 32 := by omega
  rw [h1, Nat.add_mod_right]
  exact Nat.mod_eq_of_lt (by omega)

/-- Adding bin values cell by cell is commutative. -/
theorem addBinValues_comm (a b : List ℚ) :
    Histogram.addBinValues a b = Histogram.addBinValues b a := by
  unfold Histogram.addBinValues
  exact List.zipWith_comm_of_comm _ (fun x y => add_comm x y) a b

/-- Adding bin values cell by cell is associative. -/
theorem addBinValues_assoc (a : List ℚ) :
    ∀ b c : List ℚ, Histogram.addBinValues (Histogram.addBinValues a b) c
      = Histogram.addBinValues a (Histogram.addBinValues b c) := by
  unfold Histogram.addBinValues
  induction a with
  | nil => intro b c; simp
  | cons x xs ih =>
    intro b c
    cases b with
    | nil => simp
    | cons y ys =>
      cases c with
      | nil => simp
      | cons z zs => simp [ih, add_assoc]

/-- Adding two arrays of bin values of the same length gives that length. -/
theorem addBinValues_length (a b : List ℚ) (h : a.length = b.length) :
    (Histogram.addBinValues a b).length = a.length := by
  simp [Histogram.addBinValues, h]

/-- The reads of the first and the last bin centre of a histogram that has at
least one bin. -/
theorem centres_reads {h : Histogram} (hw : h.WellFormed) (h0 : 0 < h.m_nBins) :
    ∃ a0 a1, h.m_binCentres[0]? = some a0 ∧ h.m_binCentres[lastIndex h.m_nBins]? = some a1 ∧
      h.m_binCentres.head? = some a0 ∧ h.m_binCentres.getLast? = some a1 := by
  obtain ⟨hc, _, hn⟩ := hw
  have hl : lastIndex h.m_nBins = h.m_binCentres.length - 1 := by
    rw [lastIndex_of_pos h0 hn, hc]
  have hpos : 0 < h.m_binCentres.length := by rw [hc]; exact h0
  clear hn
  have hlast : h.m_binCentres.length - 1 < h.m_binCentres.length := by omega
  refine ⟨h.m_binCentres.get ⟨0, hpos⟩, h.m_binCentres.get ⟨_, hlast⟩, ?_, ?_, ?_, ?_⟩
  · exact List.getElem?_eq_getElem hpos
  · rw [hl]; exact List.getElem?_eq_getElem hlast
  · rw [List.head?_eq_getElem?]; exact List.getElem?_eq_getElem hpos
  · rw [List.getLast?_eq_getElem?]; exact List.getElem?_eq_getElem hlast

/-- `Merge` on two histograms with identical bin edges and at least one bin:
the entry counts are added and the bin values are added cell by cell. -/
theorem Merge_of_sameBins {a b : Histogram} (ha : a.WellFormed) (hs : a.SameBins b)
    (h0 : 0 < a.m_nBins) :
    a.Merge b = Except.ok { a with
      m_entries := a.m_entries + b.m_entries
      m_binValues := Histogram.addBinValues a.m_binValues b.m_binValues } := by
  obtain ⟨a0, a1, r0, r1, _, _⟩ := centres_reads ha h0
  obtain ⟨hn, hc⟩ := hs
  unfold Histogram.Merge
  rw [if_pos hn, ← hc, r0, r1]
  simp

/-- The merged histogram still has arrays of `m_nBins` cells. -/
theorem Merge_wellFormed {a b : Histogram} (ha : a.WellFormed) (hb : b.WellFormed)
    (hs : a.SameBins b) :
    Histogram.WellFormed { a with
      m_entries := a.m_entries + b.m_entries
      m_binValues := Histogram.addBinValues a.m_binValues b.m_binValues } := by
  obtain ⟨hc, hv, hn⟩ := ha
  refine ⟨hc, ?_, hn⟩
  show (Histogram.addBinValues a.m_binValues b.m_binValues).length = a.m_nBins
  rw [addBinValues_length _ _ (by rw [hv, hb.2.1, hs.1]), hv]

/-- C7. Merging an incompatible histogram is skipped: when the two histograms
differ in the number of bins, in the first bin centre or in the last bin
centre, `Merge` returns (it neither exits nor leaves the arrays) and the
receiver is exactly what it was: same entry count, same bin centres, same bin
values. -/
theorem merge_incompatible_leaves_receiver (h hist : Histogram)
    (hw : h.WellFormed) (hw' : hist.WellFormed)
    (hdiff : h.m_nBins ≠ hist.m_nBins ∨
      h.m_binCentres.head? ≠ hist.m_binCentres.head? ∨
      h.m_binCentres.getLast? ≠ hist.m_binCentres.getLast?) :
    h.Merge hist = Except.ok h := by
  by_cases hn : h.m_nBins = hist.m_nBins
  · by_cases h0 : 0 < h.m_nBins
    · obtain ⟨a0, a1, r0, r1, e0, e1⟩ := centres_reads hw h0
      obtain ⟨b0, b1, s0, s1, f0, f1⟩ := centres_reads hw' (hn ▸ h0)
      rw [← hn] at s1
      unfold Histogram.Merge
      rw [if_pos hn, r0, s0]
      simp only []
      by_cases h00 : a0 = b0
      · rw [if_pos h00, r1, s1]
        simp only []
        by_cases h11 : a1 = b1
        · exfalso
          rcases hdiff with hd | hd | hd
          · exact hd hn
          · exact hd (by rw [e0, f0, h00])
          · exact hd (by rw [e1, f1, h11])
        · rw [if_neg h11]
      · rw [if_neg h00]
    · exfalso
      have hz : h.m_nBins = 0 := by omega
      have hc : h.m_binCentres = [] := List.length_eq_zero.mp (by rw [hw.1, hz])
      have hc' : hist.m_binCentres = [] := List.length_eq_zero.mp (by rw [hw'.1, ← hn, hz])
      rcases hdiff with hd | hd | hd
      · exact hd hn
      · exact hd (by rw [hc, hc'])
      · exact hd (by rw [hc, hc'])
  · unfold Histogram.Merge
    rw [if_neg hn]

/-- The loop of `Merge` leaves as many bin values as there were. -/
theorem addBinValuesWith_length (add : ℚ → ℚ → ℚ) (a b : List ℚ) (h : a.length = b.length) :
    (Histogram.addBinValuesWith add a b).length = a.length := by
  simp [Histogram.addBinValuesWith, h]

/-- `MergeWith` on two histograms with identical bin edges and at least one
bin: the entry counts are added and the bin values are added cell by cell. -/
theorem MergeWith_of_sameBins (add : ℚ → ℚ → ℚ) {a b : Histogram} (ha : a.WellFormed)
    (hs : a.SameBins b) (h0 : 0 < a.m_nBins) :
    a.MergeWith add b = Except.ok { a with
      m_entries := a.m_entries + b.m_entries
      m_binValues := Histogram.addBinValuesWith add a.m_binValues b.m_binValues } := by
  obtain ⟨a0, a1, r0, r1, _, _⟩ := centres_reads ha h0
  obtain ⟨hn, hc⟩ := hs
  unfold Histogram.MergeWith
  rw [if_pos hn, ← hc, r0, r1]
  simp

/-- The histogram that `MergeWith` returns still has arrays of `m_nBins`
cells. -/
theorem MergeWith_wellFormed (add : ℚ → ℚ → ℚ) {a b : Histogram} (ha : a.WellFormed)
    (hb : b.WellFormed) (hs : a.SameBins b) :
    Histogram.WellFormed { a with
      m_entries := a.m_entries + b.m_entries
      m_binValues := Histogram.addBinValuesWith add a.m_binValues b.m_binValues } := by
  obtain ⟨hc, hv, hn⟩ := ha
  refine ⟨hc, ?_, hn⟩
  show (Histogram.addBinValuesWith add a.m_binValues b.m_binValues).length = a.m_nBins
  rw [addBinValuesWith_length add _ _ (by rw [hv, hb.2.1, hs.1]), hv]

/-- Adding the cells of three arrays of the same length gives the same array
in both groupings exactly when it does so in every cell. -/
theorem addBinValuesWith_assoc_iff (add : ℚ → ℚ → ℚ) :
    ∀ (u v w : List ℚ), u.length = v.length → v.length = w.length →
      (Histogram.addBinValuesWith add u (Histogram.addBinValuesWith add v w)
          = Histogram.addBinValuesWith add (Histogram.addBinValuesWith add u v) w ↔
        ∀ (i : Nat) (x y z : ℚ), u[i]? = some x → v[i]? = some y → w[i]? = some z →
          add x (add y z) = add (add x y) z) := by
  intro u
  induction u with
  | nil =>
    intro v w _ _
    simp [Histogram.addBinValuesWith]
  | cons x u ih =>
    intro v w hab hbc
    cases v with
    | nil => simp at hab
    | cons y v =>
      cases w with
      | nil => simp at hbc
      | cons z w =>
        have hab1 : u.length = v.length := by simpa using hab
        have hbc1 : v.length = w.length := by simpa using hbc
        have ih1 := ih v w hab1 hbc1
        simp only [Histogram.addBinValuesWith] at ih1 ⊢
        simp only [List.zipWith_cons_cons, List.cons.injEq]
        constructor
        · rintro ⟨h0, ht⟩ i x1 y1 z1 hx hy hz
          cases i with
          | zero =>
            simp only [List.getElem?_cons_zero, Option.some.injEq] at hx hy hz
            subst hx; subst hy; subst hz
            exact h0
          | succ i =>
            simp only [List.getElem?_cons_succ] at hx hy hz
            exact (ih1.mp ht) i x1 y1 z1 hx hy hz
        · intro h
          refine ⟨h 0 x y z (by simp) (by simp) (by simp), ih1.mpr (fun i x1 y1 z1 hx hy hz => ?_)⟩
          exact h (i + 1) x1 y1 z1 (by simpa using hx) (by simpa using hy) (by simpa using hz)

/-- C9 (as amended).  `add x y` is the `double` that `x += y` leaves.  For an
addition that is commutative, as the addition of two `double` values is, and
histograms with identical bin edges and at least two bins:
* merging `B` into `A` and merging `A` into `B` both return, with the same
  entry count and the same bin values;
* merging (`B` merged with `C`) into `A` and merging `C` into (`A` merged with
  `B`) both return, with the same entry count; their bin values are the same
  exactly when `x + (y + z)` and `(x + y) + z` are the same `double` for the
  values `x`, `y`, `z` of every cell, as they are when the sums are exact. -/
theorem merge_commutative_and_associative_up_to_rounding (add : ℚ → ℚ → ℚ)
    (A B C : Histogram) (hadd : ∀ x y : ℚ, add x y = add y x)
    (hA : A.WellFormed) (hB : B.WellFormed) (hC : C.WellFormed)
    (hAB : A.SameBins B) (hBC : B.SameBins C) (h2 : 2 ≤ A.m_nBins) :
    (∃ X Y, A.MergeWith add B = Except.ok X ∧ B.MergeWith add A = Except.ok Y ∧
      X.m_entries = Y.m_entries ∧ X.m_binValues = Y.m_binValues) ∧
    (∃ BC L AB R, B.MergeWith add C = Except.ok BC ∧ A.MergeWith add BC = Except.ok L ∧
      A.MergeWith add B = Except.ok AB ∧ AB.MergeWith add C = Except.ok R ∧
      L.m_entries = R.m_entries ∧
      (L.m_binValues = R.m_binValues ↔
        ∀ (i : Nat) (x y z : ℚ), A.m_binValues[i]? = some x → B.m_binValues[i]? = some y →
          C.m_binValues[i]? = some z → add x (add y z) = add (add x y) z) ∧
      ((∀ x y : ℚ, add x y = x + y) → L.m_binValues = R.m_binValues)) := by
  have h0 : 0 < A.m_nBins := by omega
  have hBA : B.SameBins A := ⟨hAB.1.symm, hAB.2.symm⟩
  have h0B : 0 < B.m_nBins := hAB.1 ▸ h0
  have hlenAB : A.m_binValues.length = B.m_binValues.length := by
    rw [hA.2.1, hB.2.1, hAB.1]
  have hlenBC : B.m_binValues.length = C.m_binValues.length := by
    rw [hB.2.1, hC.2.1, hBC.1]
  have hiff := addBinValuesWith_assoc_iff add A.m_binValues B.m_binValues C.m_binValues
    hlenAB hlenBC
  constructor
  · refine ⟨_, _, MergeWith_of_sameBins add hA hAB h0, MergeWith_of_sameBins add hB hBA h0B, ?_, ?_⟩
    · exact Nat.add_comm _ _
    · show List.zipWith add A.m_binValues B.m_binValues
        = List.zipWith add B.m_binValues A.m_binValues
      rw [List.zipWith_comm]
      congr 1
      funext x y
      exact hadd y x
  · have hABw := MergeWith_wellFormed add hA hB hAB
    refine ⟨_, _, _, _, MergeWith_of_sameBins add hB hBC h0B,
      MergeWith_of_sameBins add hA (b := { B with
        m_entries := B.m_entries + C.m_entries
        m_binValues := Histogram.addBinValuesWith add B.m_binValues C.m_binValues }) hAB h0,
      MergeWith_of_sameBins add hA hAB h0,
      MergeWith_of_sameBins add hABw (b := C) ⟨hAB.1.trans hBC.1, hAB.2.trans hBC.2⟩ h0,
      ?_, hiff, ?_⟩
    · exact (Nat.add_assoc _ _ _).symm
    · intro hexact
      refine hiff.mpr (fun i x y z _ _ _ => ?_)
      rw [hexact, hexact, hexact, hexact, add_assoc]

/-- C9 (as stated) fails.  Three histograms with the bin centres 0, 1, 2 and
ten entries each, of which one, two and three are in the first bin, so that
the first bin values are the `double` values of 0.1, 0.2 and 0.3: merging
(the second merged with the third) into the first leaves the first bin value
5404319552844595 / 2^53, which is the `double` 0.6, and merging the third into
(the first merged with the second) leaves 5404319552844596 / 2^53, which is
the `double` 0.6000000000000001. -/
theorem merge_is_not_associative_on_doubles :
    ((histogramFifth.MergeWith binary64Add histogramThreeTenths).bind
        (fun bc => histogramTenth.MergeWith binary64Add bc)).toOption.map Histogram.m_binValues
      = some [5404319552844595 / 9007199254740992, 0, 0] ∧
    ((histogramTenth.MergeWith binary64Add histogramFifth).bind
        (fun ab => ab.MergeWith binary64Add histogramThreeTenths)).toOption.map
        Histogram.m_binValues
      = some [5404319552844596 / 9007199254740992, 0, 0] ∧
    (5404319552844595 / 9007199254740992 : ℚ) ≠ 5404319552844596 / 9007199254740992 := by
  refine ⟨?_, ?_, by norm_num⟩
  · set_option maxRecDepth 100000 in with_unfolding_all rfl
  · set_option maxRecDepth 100000 in with_unfolding_all rfl

/-- One iteration of a loop of `Fill` for a value outside the range of the bin
centres: only the entry count changes. -/
theorem fillOne_outside (num : Numerics) (h : Histogram) (v lo hi : ℚ)
    (hlo : h.m_binCentres[0]? = some lo) (hhi : h.m_binCentres[lastIndex h.m_nBins]? = some hi)
    (hout : ¬ (lo < v ∧ v < hi)) :
    Histogram.fillOne num h v = Except.ok { h with m_entries := h.m_entries + 1 } := by
  unfold Histogram.fillOne
  simp only [hlo, hhi]
  by_cases h1 : v > lo
  · have h2 : ¬ v < hi := fun h2 => hout ⟨h1, h2⟩
    rw [if_pos h1, if_neg h2]
  · rw [if_neg h1]

/-- One iteration of a loop of `Fill` for a value inside the range of the bin
centres: the entry count and the cell that `ArrayIndex` names grow by one. -/
theorem fillOne_within (num : Numerics) (h : Histogram) (v lo hi c : ℚ)
    (hlo : h.m_binCentres[0]? = some lo) (hhi : h.m_binCentres[lastIndex h.m_nBins]? = some hi)
    (h1 : lo < v) (h2 : v < hi)
    (hc : h.m_binValues[num.ArrayIndex h.m_binCentres h.m_nBins v]? = some c) :
    Histogram.fillOne num h v = Except.ok { h with
      m_entries := h.m_entries + 1
      m_binValues := h.m_binValues.set (num.ArrayIndex h.m_binCentres h.m_nBins v) (c + 1) } := by
  unfold Histogram.fillOne
  simp only [hlo, hhi, hc]
  rw [if_pos h1, if_pos h2]

/-- `Fill` on a histogram with at least one bin runs the energy loop, whatever
`dataType` is, and then normalises. -/
theorem Fill_of_fillLoop (num : Numerics) (GetEnergy : Particle → ℚ) (h h1 : Histogram)
    (partList : ParticleList) (dataType : String) (h0 : h.m_nBins ≠ 0)
    (hloop : Histogram.fillLoop num GetEnergy h partList = Except.ok h1) :
    Histogram.Fill num GetEnergy h partList dataType = Except.ok h1.Normalise := by
  unfold Histogram.Fill
  rw [if_neg h0]
  simp only [literalAsCondition, or_true, if_true, hloop]

/-- The histogram with bin centres 0, 1, 2 that `Initialise` builds from an
object made by the default constructor. -/
theorem Initialise_three_bins (name : String) :
    Histogram.Initialise Histogram.ctorDefault name 0 2 3
      = { m_name := name, m_nBins := 3, m_binCentres := [0, 1, 2], m_binValues := [0, 0, 0],
          m_entries := 0 } := by
  simp [Histogram.Initialise, Histogram.ctorDefault, List.range_succ]
  norm_num

/-- The cell `i` of `[a, b, c]` with 1 added, read back. -/
theorem three_cells_set (a b c : ℚ) (i : Nat) (hlt : i < 3) :
    ∃ x, [a, b, c][i]? = some x ∧ ([a, b, c].set i (x + 1))[i]? = some (x + 1) ∧
      ([a, b, c].set i (x + 1)).length = 3 := by
  have h3 : i = 0 ∨ i = 1 ∨ i = 2 := by omega
  rcases h3 with h | h | h <;> subst h
  · exact ⟨a, rfl, rfl, rfl⟩
  · exact ⟨b, rfl, rfl, rfl⟩
  · exact ⟨c, rfl, rfl, rfl⟩

/-- C2 (what the code does).  Two histograms with the bin centres 0, 1, 2 are
filled through `Fill`: the first with one particle of energy 1/2, which
`ArrayIndex` puts in bin `i`, the second with two particles of energy 5, which
is outside the range.  They hold N1 = 1 and N2 = 2 entries, and the counts in
bin `i` are 1 and 0.  After `Merge` the receiver has 3 entries and its value
in bin `i` is 1, the sum of the two normalised values 1/1 and 0/2, and not the
summed count over the summed entries, (1 + 0) / (1 + 2). -/
theorem merge_adds_normalised_values_without_renormalising (num : Numerics)
    (GetEnergy : Particle → ℚ) (p q r : Particle) (i : Nat)
    (hp : GetEnergy p = 1 / 2) (hq : GetEnergy q = 5) (hr : GetEnergy r = 5)
    (hi : num.ArrayIndex [0, 1, 2] 3 (1 / 2) = i) (hlt : i < 3) :
    ∃ A B M : Histogram,
      Histogram.Fill num GetEnergy (Histogram.Initialise Histogram.ctorDefault "A" 0 2 3)
        [p] "Energy" = Except.ok A ∧
      Histogram.Fill num GetEnergy (Histogram.Initialise Histogram.ctorDefault "B" 0 2 3)
        [q, r] "Energy" = Except.ok B ∧
      A.Merge B = Except.ok M ∧
      A.m_entries = 1 ∧ B.m_entries = 2 ∧ M.m_entries = 3 ∧
      A.m_binValues[i]? = some 1 ∧ B.m_binValues[i]? = some 0 ∧
      M.m_binValues[i]? = some 1 ∧ (1 : ℚ) ≠ (1 + 0) / (1 + 2) := by
  rw [Initialise_three_bins, Initialise_three_bins]
  have hl : lastIndex 3 = 2 := rfl
  obtain ⟨x, hx, hset, hlen⟩ := three_cells_set 0 0 0 i hlt
  have hx0 : x = 0 := by
    have h3 : i = 0 ∨ i = 1 ∨ i = 2 := by omega
    rcases h3 with h | h | h <;> subst h <;> simpa using hx.symm
  subst hx0
  have hA : Histogram.fillLoop num GetEnergy ⟨"A", 3, [0, 1, 2], [0, 0, 0], 0⟩ [p]
      = Except.ok ⟨"A", 3, [0, 1, 2], [0, 0, 0].set i (0 + 1), 0 + 1⟩ := by
    have h1 := fillOne_within num ⟨"A", 3, [0, 1, 2], [0, 0, 0], 0⟩ (GetEnergy p) 0 2 0 rfl
      (by rw [show lastIndex (3 : Nat) = 2 from rfl]; rfl) (by rw [hp]; norm_num)
      (by rw [hp]; norm_num) (by rw [hp]; show [0, 0, 0][num.ArrayIndex [0, 1, 2] 3 (1 / 2)]? = _;
                                 rw [hi]; exact hx)
    rw [hp] at h1
    simp only [Histogram.fillLoop, hp, h1]
    rw [show num.ArrayIndex [0, 1, 2] 3 (1 / 2) = i from hi]
  have hB : Histogram.fillLoop num GetEnergy ⟨"B", 3, [0, 1, 2], [0, 0, 0], 0⟩ [q, r]
      = Except.ok ⟨"B", 3, [0, 1, 2], [0, 0, 0], 0 + 1 + 1⟩ := by
    have h1 := fillOne_outside num ⟨"B", 3, [0, 1, 2], [0, 0, 0], 0⟩ (GetEnergy q) 0 2 rfl
      (by rw [show lastIndex (3 : Nat) = 2 from rfl]; rfl) (by rw [hq]; norm_num)
    have h2 := fillOne_outside num ⟨"B", 3, [0, 1, 2], [0, 0, 0], 0 + 1⟩ (GetEnergy r) 0 2 rfl
      (by rw [show lastIndex (3 : Nat) = 2 from rfl]; rfl) (by rw [hr]; norm_num)
    simp only [Histogram.fillLoop, h1, h2]
  have hFA := Fill_of_fillLoop num GetEnergy _ _ [p] "Energy" (by simp) hA
  have hFB := Fill_of_fillLoop num GetEnergy _ _ [q, r] "Energy" (by simp) hB
  have hwA : Histogram.WellFormed
      (Histogram.Normalise ⟨"A", 3, [0, 1, 2], [0, 0, 0].set i (0 + 1), 0 + 1⟩) := by
    refine ⟨rfl, ?_, (by norm_num : (3 : Nat) < 2 ^ 32)⟩
    show (List.map _ ([0, 0, 0].set i (0 + 1))).length = 3
    rw [List.length_map, hlen]
  have hM := Merge_of_sameBins (b := Histogram.Normalise ⟨"B", 3, [0, 1, 2], [0, 0, 0], 0 + 1 + 1⟩)
    hwA ⟨rfl, rfl⟩ (by simp [Histogram.Normalise])
  have hAi : (Histogram.Normalise ⟨"A", 3, [0, 1, 2], [0, 0, 0].set i (0 + 1), 0 + 1⟩).m_binValues[i]?
      = some 1 := by
    simp only [Histogram.Normalise, List.getElem?_map, hset]
    norm_num
  have hBi : (Histogram.Normalise ⟨"B", 3, [0, 1, 2], [0, 0, 0], 0 + 1 + 1⟩).m_binValues[i]?
      = some 0 := by
    simp only [Histogram.Normalise, List.getElem?_map, hx]
    norm_num
  refine ⟨_, _, _, hFA, hFB, hM, rfl, rfl, rfl, hAi, hBi, ?_, by norm_num⟩
  show (Histogram.addBinValues _ _)[i]? = some 1
  unfold Histogram.addBinValues
  rw [List.getElem?_zipWith, hAi, hBi]
  norm_num

/-! ## RunManager -/

/-- The body of the event loop of `beamOn` changes the result arrays only. -/
theorem beamOnEvent_settings (eng : Engine) (fuelT fuelP : Nat) (pusher : ParticlePusher)
    (generator : SourceGenerator) (tid i : Nat) (run run1 : RunManager.BeamOnRun)
    (h : RunManager.beamOnEvent eng fuelT fuelP pusher generator tid i run = Except.ok run1) :
    run1.rm.settings = run.rm.settings := by
  unfold RunManager.beamOnEvent at h
  simp only [] at h
  split at h
  · exact absurd h (by simp)
  · split at h
    · exact absurd h (by simp)
    · split at h
      · injection h with h
        subst h
        rfl
      · exact absurd h (by simp)

/-- The event loop of `beamOn` changes the result arrays only. -/
theorem beamOnEvents_settings (eng : Engine) (fuelT fuelP : Nat) (pusher : ParticlePusher)
    (generator : SourceGenerator) (threadOf : Nat → Nat) :
    ∀ (n i : Nat) (run run1 : RunManager.BeamOnRun),
      RunManager.beamOnEvents eng fuelT fuelP pusher generator threadOf n i run = Except.ok run1 →
      run1.rm.settings = run.rm.settings := by
  intro n
  induction n with
  | zero =>
    intro i run run1 h
    simp only [RunManager.beamOnEvents] at h
    injection h with h
    rw [h]
  | succ n ih =>
    intro i run run1 h
    simp only [RunManager.beamOnEvents] at h
    split at h
    · exact absurd h (by simp)
    · rename_i run2 h2
      rw [ih (i + 1) run2 run1 h, beamOnEvent_settings eng fuelT fuelP pusher generator _ i run run2 h2]

/-- The three `delete` statements, when none of them deletes an object a
second time, change nothing but the record of which pointers dangle. -/
theorem deletePointers_ok (rm rm1 : RunManager)
    (h : RunManager.deletePointers rm = Except.ok rm1) :
    rm1 = { rm with
      m_pusherDeleted := rm.m_pusher.isSome
      m_generatorDeleted := rm.m_generator.isSome
      m_fieldDeleted := rm.m_field.isSome } := by
  unfold RunManager.deletePointers at h
  split at h
  · exact absurd h (by simp)
  · injection h with h
    exact h.symm

/-- A call of `beamOn` that returns leaves the three "has been set" flags as
they were. -/
theorem beamOn_flags (USEOPENMP : Bool) (threadOf : Nat → Nat) (eng : Engine)
    (fuelT fuelP : Nat) (rm : RunManager) (events threads : Int) (run : RunManager.BeamOnRun)
    (h : RunManager.beamOn USEOPENMP threadOf eng fuelT fuelP rm events threads = Except.ok run) :
    run.rm.m_fieldSet = rm.m_fieldSet ∧ run.rm.m_physSet = rm.m_physSet ∧
    run.rm.m_genSet = rm.m_genSet := by
  unfold RunManager.beamOn at h
  split at h
  · injection h with h; subst h; exact ⟨rfl, rfl, rfl⟩
  · split at h
    · exact absurd h (by simp)
    · rename_i rm1 hdel
      have hrm1 := deletePointers_ok rm rm1 hdel
      subst hrm1
      simp only [] at h
      split at h
      · injection h with h; subst h; exact ⟨rfl, rfl, rfl⟩
      · split at h
        · exact absurd h (by simp)
        · split at h
          · have hs := beamOnEvents_settings _ _ _ _ _ _ _ _ _ _ h
            have h1 := congrArg RunManager.m_fieldSet hs
            have h2 := congrArg RunManager.m_physSet hs
            have h3 := congrArg RunManager.m_genSet hs
            exact ⟨h1, h2, h3⟩
          · exact absurd h (by simp)

/-- What a single call does to the three flags. -/
theorem Call.apply_flags (USEOPENMP : Bool) (threadOf : Nat → Nat) (eng : Engine)
    (rm rm1 : RunManager) (c : Call) (h : c.apply USEOPENMP threadOf eng rm = Except.ok rm1) :
    rm1.m_fieldSet = (match lastSetField [c] with
      | none => rm.m_fieldSet
      | some fieldType => fieldAccepted fieldType) ∧
    rm1.m_physSet = (match lastSetPhysics [c] with
      | none => rm.m_physSet
      | some physics => physicsAccepted physics) ∧
    rm1.m_genSet = (generatorCalled [c] || rm.m_genSet) := by
  cases c with
  | setTime a b =>
    simp only [Call.apply] at h; injection h with h; subst h
    exact ⟨rfl, rfl, by simp [generatorCalled, RunManager.setTime]⟩
  | setField t a b c d e f g =>
    simp only [Call.apply] at h; injection h with h; subst h
    refine ⟨?_, ?_, ?_⟩
    · simp only [lastSetField, RunManager.setField, fieldAccepted]
      split <;> simp_all
    · simp only [lastSetPhysics, RunManager.setField]
      split <;> rfl
    · simp only [generatorCalled, RunManager.setField]
      split <;> simp
  | setPhysics t =>
    simp only [Call.apply] at h; injection h with h; subst h
    refine ⟨?_, ?_, ?_⟩
    · simp only [lastSetField, RunManager.setPhysics]
      split <;> rfl
    · simp only [lastSetPhysics, RunManager.setPhysics, physicsAccepted]
      split <;> simp_all
    · simp only [generatorCalled, RunManager.setPhysics]
      split <;> simp
  | setGenerator a b c d e f g i j =>
    simp only [Call.apply] at h; injection h with h; subst h
    exact ⟨rfl, rfl, by simp [generatorCalled, RunManager.setGenerator]⟩
  | setSampleFraction a =>
    simp only [Call.apply] at h; injection h with h; subst h
    simp only [lastSetField, lastSetPhysics, generatorCalled, RunManager.setSampleFraction]
    split <;> simp
  | usePairProduction a =>
    simp only [Call.apply] at h; injection h with h; subst h
    exact ⟨rfl, rfl, by simp [generatorCalled, RunManager.usePairProduction]⟩
  | beamOn ev th fT fP =>
    simp only [Call.apply] at h
    split at h
    · exact absurd h (by simp)
    · rename_i run hrun
      injection h with h; subst h
      obtain ⟨h1, h2, h3⟩ := beamOn_flags _ _ _ _ _ _ _ _ _ hrun
      exact ⟨h1, h2, by simp [generatorCalled, h3]⟩

/-- After a sequence of calls the three flags say what the calls were:
`m_fieldSet` and `m_physSet` hold exactly when the most recent `setField`
(`setPhysics`) call was accepted, `m_genSet` when `setGenerator` was called;
with no such call the flag is what it was at the start. -/
theorem runCalls_flags (USEOPENMP : Bool) (threadOf : Nat → Nat) (eng : Engine) :
    ∀ (calls : List Call) (rm0 rm : RunManager),
      runCalls USEOPENMP threadOf eng rm0 calls = Except.ok rm →
      rm.m_fieldSet = (match lastSetField calls with
        | none => rm0.m_fieldSet
        | some fieldType => fieldAccepted fieldType) ∧
      rm.m_physSet = (match lastSetPhysics calls with
        | none => rm0.m_physSet
        | some physics => physicsAccepted physics) ∧
      rm.m_genSet = (generatorCalled calls || rm0.m_genSet) := by
  intro calls
  induction calls with
  | nil =>
    intro rm0 rm h
    simp only [runCalls] at h
    injection h with h; subst h
    simp [lastSetField, lastSetPhysics, generatorCalled]
  | cons c rest ih =>
    intro rm0 rm h
    simp only [runCalls] at h
    split at h
    · exact absurd h (by simp)
    · rename_i rm1 h1
      obtain ⟨a1, a2, a3⟩ := Call.apply_flags _ _ _ _ _ _ h1
      obtain ⟨b1, b2, b3⟩ := ih rm1 rm h
      refine ⟨?_, ?_, ?_⟩
      · rw [b1]
        simp only [lastSetField] at a1 ⊢
        cases lastSetField rest with
        | some t => rfl
        | none => simpa using a1
      · rw [b2]
        simp only [lastSetPhysics] at a2 ⊢
        cases lastSetPhysics rest with
        | some t => rfl
        | none => simpa using a2
      · rw [b3, a3]
        cases c <;> simp [generatorCalled]

/-- The guard of `beamOn` (line 138) holds whenever the timestep is zero, the
most recent `setField` or `setPhysics` call was rejected or never made, or
`setGenerator` was never called. -/
theorem guard_of_configuration_error (USEOPENMP : Bool) (threadOf : Nat → Nat) (eng : Engine)
    (SI : UnitsSystem) (raw : RunManager) (calls : List Call) (rm : RunManager)
    (hreach : runCalls USEOPENMP threadOf eng (RunManager.ctor SI raw) calls = Except.ok rm)
    (herr : rm.m_timeStep = 0 ∨ fieldMissing calls ∨ physicsMissing calls ∨
      generatorCalled calls = false) :
    rm.m_timeStep = 0 ∨ rm.m_fieldSet = false ∨ rm.m_physSet = false ∨ rm.m_genSet = false := by
  obtain ⟨h1, h2, h3⟩ := runCalls_flags _ _ _ _ _ _ hreach
  rcases herr with h | h | h | h
  · exact Or.inl h
  · refine Or.inr (Or.inl ?_)
    rw [h1]
    unfold fieldMissing at h
    cases hl : lastSetField calls with
    | none => rfl
    | some t => rw [hl] at h; simpa using h
  · refine Or.inr (Or.inr (Or.inl ?_))
    rw [h2]
    unfold physicsMissing at h
    cases hl : lastSetPhysics calls with
    | none => rfl
    | some t => rw [hl] at h; simpa using h
  · refine Or.inr (Or.inr (Or.inr ?_))
    rw [h3, h]
    rfl

/-- On a manager none of whose three pointers dangles, `beamOn` aborts the run
on a configuration error.  For such a manager, reached from its constructor by
any sequence of calls: if its timestep is zero, or the most recent `setField`
call was rejected or never made, or the most recent `setPhysics` call was
rejected or never made, or `setGenerator` was never called, then `beamOn`
returns, no event has been generated or simulated, and the four result arrays
are what they were. -/
theorem beamOn_aborts_when_no_pointer_dangles (USEOPENMP : Bool) (threadOf : Nat → Nat)
    (eng : Engine) (SI : UnitsSystem) (raw : RunManager) (calls : List Call) (rm : RunManager)
    (events threads : Int) (fuelT fuelP : Nat)
    (hreach : runCalls USEOPENMP threadOf eng (RunManager.ctor SI raw) calls = Except.ok rm)
    (hlive : rm.m_pusherDeleted = false ∧ rm.m_generatorDeleted = false ∧
      rm.m_fieldDeleted = false)
    (herr : rm.m_timeStep = 0 ∨ fieldMissing calls ∨ physicsMissing calls ∨
      generatorCalled calls = false) :
    ∃ rm1 : RunManager,
      RunManager.beamOn USEOPENMP threadOf eng fuelT fuelP rm events threads
        = Except.ok { rm := rm1, simulated := [] } ∧
      rm1.m_input_P_X = rm.m_input_P_X ∧ rm1.m_electron_P_X = rm.m_electron_P_X ∧
      rm1.m_positron_P_X = rm.m_positron_P_X ∧ rm1.m_photon_P_X = rm.m_photon_P_X := by
  have hg := guard_of_configuration_error _ _ _ _ _ _ _ hreach herr
  obtain ⟨l1, l2, l3⟩ := hlive
  unfold RunManager.beamOn
  split
  · exact ⟨rm, rfl, rfl, rfl, rfl, rfl⟩
  · have hdel : RunManager.deletePointers rm = Except.ok { rm with
        m_pusherDeleted := rm.m_pusher.isSome
        m_generatorDeleted := rm.m_generator.isSome
        m_fieldDeleted := rm.m_field.isSome } := by
      unfold RunManager.deletePointers
      rw [if_neg (by simp [l1, l2, l3])]
    rw [hdel]
    simp only []
    rw [if_pos hg]
    exact ⟨_, rfl, rfl, rfl, rfl, rfl⟩

/-- C4 (what the code does).  `beamOn` deletes the pusher, the generator and
the field before it checks the configuration, and leaves the three pointers as
they are.  A manager is configured and runs one event; `setPhysics` is then
called with a name it rejects, and `beamOn` is called: this call returns and
leaves the result arrays as they were, but the three pointers now dangle.  In
this state the most recent `setPhysics` call was rejected, and any further
call of `beamOn` deletes the three objects a second time, before it gets to
the check of the configuration. -/
theorem beamOn_after_aborted_run_deletes_twice :
    runCalls false (fun _ => 0) idleEngine (RunManager.ctor unitScales rawManager)
      (sampleCalls ++ [Call.beamOn 3 1 5 5]) = Except.ok managerAfterAbort ∧
    physicsMissing (sampleCalls ++ [Call.beamOn 3 1 5 5]) ∧
    managerAfterAbort.m_physSet = false ∧
    managerAfterAbort.m_input_P_X = managerAfterCalls.m_input_P_X ∧
    managerAfterAbort.m_input_P_X ≠ [] ∧
    (managerAfterAbort.m_pusherDeleted, managerAfterAbort.m_generatorDeleted,
      managerAfterAbort.m_fieldDeleted) = (true, true, true) ∧
    ∀ (events : Int) (fuelT fuelP : Nat),
      RunManager.beamOn false (fun _ => 0) idleEngine fuelT fuelP managerAfterAbort events 1
        = Except.error Fault.doubleDelete := by
  have hflag : managerAfterAbort.m_pusherDeleted = true := by with_unfolding_all rfl
  refine ⟨by with_unfolding_all rfl, ?_, by with_unfolding_all rfl, by with_unfolding_all rfl,
    by with_unfolding_all decide, by with_unfolding_all rfl, ?_⟩
  · show physicsAccepted "classical" = false
    decide
  · intro events fuelT fuelP
    unfold RunManager.beamOn
    rw [if_neg (by simp)]
    have hdel : RunManager.deletePointers managerAfterAbort = Except.error Fault.doubleDelete := by
      unfold RunManager.deletePointers
      rw [if_pos (Or.inl hflag)]
    rw [hdel]

/-- A call of `beamOn` that passes the two checks returns the settings that
`configure` builds. -/
theorem beamOn_settings (USEOPENMP : Bool) (threadOf : Nat → Nat) (eng : Engine)
    (fuelT fuelP : Nat) (rm : RunManager) (events threads : Int) (run : RunManager.BeamOnRun)
    (hth : ¬ (USEOPENMP = false ∧ threads ≠ 1))
    (hg : ¬ (rm.m_timeStep = 0 ∨ rm.m_fieldSet = false ∨ rm.m_physSet = false ∨
      rm.m_genSet = false))
    (h : RunManager.beamOn USEOPENMP threadOf eng fuelT fuelP rm events threads = Except.ok run) :
    run.rm.settings
      = (RunManager.configure { rm with m_processList := [] } events threads.toNat).settings := by
  unfold RunManager.beamOn at h
  rw [if_neg hth] at h
  split at h
  · exact absurd h (by simp)
  · rename_i rm1 hdel
    have hrm1 := deletePointers_ok rm rm1 hdel
    subst hrm1
    simp only [] at h
    rw [if_neg hg] at h
    split at h
    · exact absurd h (by simp)
    · split at h
      · exact beamOnEvents_settings _ _ _ _ _ _ _ _ _ _ h
      · exact absurd h (by simp)

/-- C6 (what the code does).  `setPhysics` rejects the name "classical" and
accepts the name "clasical"; and for a manager that is otherwise configured,
a `beamOn` run after `setPhysics("clasical")` builds the Lorentz pusher with
StochasticEmission, the configuration of the quantum physics type. -/
theorem setPhysics_rejects_classical_accepts_clasical (USEOPENMP : Bool)
    (threadOf : Nat → Nat) (eng : Engine) (fuelT fuelP : Nat) (rm : RunManager) (events : Int)
    (run : RunManager.BeamOnRun)
    (hcfg : rm.m_timeStep ≠ 0 ∧ rm.m_fieldSet = true ∧ rm.m_genSet = true)
    (hrun : RunManager.beamOn USEOPENMP threadOf eng fuelT fuelP (rm.setPhysics "clasical")
      events 1 = Except.ok run) :
    (rm.setPhysics "classical").m_physSet = false ∧
    (rm.setPhysics "clasical").m_physSet = true ∧
    (rm.setPhysics "clasical").m_physics = "clasical" ∧
    run.rm.m_pusher = some (ParticlePusher.LorentzPusher (RunManager.buildField rm) rm.m_timeStep) ∧
    run.rm.m_processList.head? = some (Process.StochasticEmission (RunManager.buildField rm)
      rm.m_timeStep rm.m_sampleFrac false 0) := by
  obtain ⟨ht, hf, hgen⟩ := hcfg
  have hacc : (rm.setPhysics "clasical") = { rm with m_physSet := true, m_physics := "clasical" } := by
    simp [RunManager.setPhysics]
  have hs := beamOn_settings USEOPENMP threadOf eng fuelT fuelP _ events 1 run (by simp)
    (by rw [hacc]; simp [ht, hf, hgen]) hrun
  rw [hacc] at hs
  refine ⟨by simp [RunManager.setPhysics], by rw [hacc], by rw [hacc], ?_, ?_⟩
  · have := congrArg RunManager.m_pusher hs
    simpa [RunManager.settings, RunManager.configure, RunManager.buildPhysics,
      RunManager.buildField] using this
  · have := congrArg RunManager.m_processList hs
    simp only [RunManager.settings] at this
    rw [this]
    simp [RunManager.configure, RunManager.buildPhysics, RunManager.buildField]
    split <;> simp

/-! ## The command-line driver: setup -/

/-- C5. An unrecognised field-type or pusher-type label is fatal in `main`.
When the command line names an input file: if the field label is none of
"static", "plane", "gaussian", "focusing", or the pusher label is neither
"Lorentz" nor "Landau", then `main` returns 1 and no event has been generated
or simulated; with an unrecognised field label no field (and no pusher) has
been constructed, with an unrecognised pusher label no pusher. -/
theorem main_unknown_field_or_pusher_is_fatal (eng : Engine) (parse : String → InputFile)
    (fuelT fuelP : Nat) (argv : List String) (file : String)
    (hargs : checkCommandLine argv = Except.ok (Sum.inl file))
    (hbad : (parse file).inField.Type_ ∉ ["static", "plane", "gaussian", "focusing"] ∨
      (parse file).inGeneral.pusher ∉ ["Lorentz", "Landau"]) :
    ∃ run : MainRun, main eng parse fuelT fuelP argv = Except.ok run ∧
      run.status = 1 ∧ run.simulated = [] ∧
      ((parse file).inField.Type_ ∉ ["static", "plane", "gaussian", "focusing"] →
        run.field = none ∧ run.pusher = none) ∧
      ((parse file).inGeneral.pusher ∉ ["Lorentz", "Landau"] → run.pusher = none) := by
  unfold main
  rw [hargs]
  simp only []
  by_cases hf : (parse file).inField.Type_ ∈ ["static", "plane", "gaussian", "focusing"]
  · have hp : (parse file).inGeneral.pusher ∉ ["Lorentz", "Landau"] := by
      rcases hbad with h | h
      · exact absurd hf h
      · exact h
    have hp' : ∀ field, setupPusher (parse file).inGeneral field = none := by
      intro field
      simp only [List.mem_cons, List.mem_singleton, List.not_mem_nil, or_false, not_or] at hp
      simp [setupPusher, hp.1, hp.2]
    cases hsf : setupField (parse file).inField with
    | none => exact ⟨_, rfl, rfl, rfl, fun _ => ⟨rfl, rfl⟩, fun _ => rfl⟩
    | some field =>
      simp only [hp' field]
      exact ⟨_, rfl, rfl, rfl, fun h => absurd hf h, fun _ => rfl⟩
  · have hsf : setupField (parse file).inField = none := by
      simp only [List.mem_cons, List.mem_singleton, List.not_mem_nil, or_false, not_or] at hf
      simp [setupField, hf.1, hf.2.1, hf.2.2.1, hf.2.2.2]
    rw [hsf]
    exact ⟨_, rfl, rfl, rfl, fun _ => ⟨rfl, rfl⟩, fun _ => rfl⟩

/-! ## The time loop -/

/-- A timestep that ends within an iteration bound ends, with the same result,
within any larger one. -/
theorem timestep_mono (eng : Engine) (pusher : ParticlePusher) (procs : List Process)
    (fuel fuel1 : Nat) (event : ParticleList) (sw : Sweep) (hle : fuel ≤ fuel1)
    (h : timestep eng pusher procs fuel event = some sw) :
    timestep eng pusher procs fuel1 event = some sw :=
  particleLoop_mono eng pusher procs fuel fuel1 0 _ sw hle h

/-- The histogram check touches neither the time, nor the particle list, nor the
record of the timesteps. -/
theorem histogramCheck_stepping (histograms : List HistogramParameters) (st : EventRun) :
    (histogramCheck histograms st).stepping = st.stepping := by
  unfold histogramCheck
  split
  · split <;> rfl
  · rfl

/-- The time loop of `main`, seen through `time`, `event` and `steps`, is the
time loop of `beamOn`. -/
theorem mainTimeLoop_stepping (eng : Engine) (pusher : ParticlePusher) (procs : List Process)
    (histograms : List HistogramParameters) (dt tEnd : ℚ) (fuelP : Nat) :
    ∀ (fuelT : Nat) (st st1 : EventRun),
      mainTimeLoop eng pusher procs histograms dt tEnd fuelP fuelT st = Except.ok st1 →
      beamOnTimeLoop eng pusher procs dt tEnd fuelP fuelT st.stepping = Except.ok st1.stepping := by
  intro fuelT
  induction fuelT with
  | zero =>
    intro st st1 h
    simp only [mainTimeLoop] at h
    simp only [beamOnTimeLoop]
    split at h
    · exact absurd h (by simp)
    · rename_i ht
      injection h with h; subst h
      rw [if_neg (by simpa [EventRun.stepping] using ht)]
  | succ fuelT ih =>
    intro st st1 h
    simp only [mainTimeLoop] at h
    simp only [beamOnTimeLoop]
    split at h
    · rename_i ht
      rw [if_pos (by simpa [EventRun.stepping] using ht)]
      have hc := histogramCheck_stepping histograms st
      have he : (histogramCheck histograms st).event = st.event := congrArg Stepping.event hc
      have htm : (histogramCheck histograms st).time = st.time := congrArg Stepping.time hc
      have hst : (histogramCheck histograms st).steps = st.steps := congrArg Stepping.steps hc
      rw [he] at h
      show (match timestep eng pusher procs fuelP st.event with
        | none => Except.error Fault.unfinished
        | some sw => beamOnTimeLoop eng pusher procs dt tEnd fuelP fuelT
            { time := eng.plus st.time dt, event := sw.event,
              steps := st.steps ++ [{ time := st.time, start := st.event, trace := sw.trace }] })
        = Except.ok st1.stepping
      cases hsw : timestep eng pusher procs fuelP st.event with
      | none => rw [hsw] at h; exact absurd h (by simp)
      | some sw =>
        rw [hsw] at h
        have := ih _ st1 h
        simpa [EventRun.stepping, htm, hst] using this
    · rename_i ht
      injection h with h; subst h
      rw [if_neg (by simpa [EventRun.stepping] using ht)]

/-- When the additions of the elapsed time are exact, the time accumulated
over `n` timesteps is `n` times the timestep. -/
theorem elapsed_exact (plus : ℚ → ℚ → ℚ) (dt : ℚ) (hexact : ∀ a b : ℚ, plus a b = a + b) :
    ∀ n : Nat, elapsed plus dt n = n * dt := by
  intro n
  induction n with
  | zero => simp [elapsed]
  | succ n ih =>
    simp only [elapsed]
    rw [hexact, ih]
    push_cast
    ring

/-- The time loop, when it ends: the elapsed time is the time accumulated over
the steps taken, it is not below the end time, and every step that was taken
started at a time below the end time. -/
theorem beamOnTimeLoop_elapsed (eng : Engine) (pusher : ParticlePusher) (procs : List Process)
    (dt tEnd : ℚ) (fuelP : Nat) :
    ∀ (fuelT : Nat) (st st1 : Stepping),
      st.time = elapsed eng.plus dt st.steps.length →
      beamOnTimeLoop eng pusher procs dt tEnd fuelP fuelT st = Except.ok st1 →
      st1.time = elapsed eng.plus dt st1.steps.length ∧ tEnd ≤ st1.time ∧
      st.steps.length ≤ st1.steps.length ∧
      ∀ k : Nat, st.steps.length ≤ k → k < st1.steps.length → elapsed eng.plus dt k < tEnd := by
  intro fuelT
  induction fuelT with
  | zero =>
    intro st st1 ht h
    simp only [beamOnTimeLoop] at h
    split at h
    · exact absurd h (by simp)
    · rename_i hlt
      injection h with h; subst h
      exact ⟨ht, not_lt.mp hlt, le_refl _, fun k h1 h2 => absurd h1 (by omega)⟩
  | succ fuelT ih =>
    intro st st1 ht h
    simp only [beamOnTimeLoop] at h
    split at h
    · rename_i hlt
      split at h
      · exact absurd h (by simp)
      · obtain ⟨h1, h2, h3, h4⟩ := ih _ st1 (by
          simp only [List.length_append, List.length_singleton, elapsed]
          rw [ht]) h
        simp only [List.length_append, List.length_singleton] at h3 h4
        refine ⟨h1, h2, by omega, fun k hk1 hk2 => ?_⟩
        by_cases hk : k = st.steps.length
        · rw [hk, ← ht]; exact hlt
        · exact h4 k (by omega) hk2
    · rename_i hlt
      injection h with h; subst h
      exact ⟨ht, not_lt.mp hlt, le_refl _, fun k h1 h2 => absurd h1 (by omega)⟩

/-- What holds of the final elapsed time `t` after `n` steps of size `dt`
towards the end time `tEnd`: it is the first multiple of the timestep that is
not below the end time, and it is the end time itself exactly when the end
time is a whole multiple of the timestep. -/
theorem first_multiple_reaching (dt tEnd t : ℚ) (n : Nat) (hdt : 0 < dt)
    (h1 : tEnd ≤ t) (h2 : t < tEnd + dt) (h3 : t = n * dt) :
    t = tEnd ↔ ∃ m : Nat, tEnd = m * dt := by
  constructor
  · intro h
    exact ⟨n, by rw [← h, h3]⟩
  · rintro ⟨m, hm⟩
    have hle : (m : ℚ) * dt ≤ n * dt := by rw [← hm, ← h3]; exact h1
    have hlt : (n : ℚ) * dt < (m + 1) * dt := by
      have : t < tEnd + dt := h2
      rw [h3, hm] at this
      linarith
    have hle1 : (m : ℚ) ≤ n := le_of_mul_le_mul_right hle hdt
    have hlt1 : (n : ℚ) < m + 1 := lt_of_mul_lt_mul_right hlt hdt.le
    have hmn : m ≤ n := by exact_mod_cast hle1
    have hnm : n < m + 1 := by exact_mod_cast hlt1
    have hnm1 : n = m := by omega
    rw [h3, hm, hnm1]

/-- What holds of the elapsed time `t` at which a time loop that started at
time 0 has ended after `n` steps, given what `beamOnTimeLoop_elapsed` says of
it, for a positive timestep and a positive end time. -/
theorem final_time_facts (plus : ℚ → ℚ → ℚ) (dt tEnd t : ℚ) (n : Nat) (hdt : 0 < dt)
    (hEnd : 0 < tEnd) (h1 : t = elapsed plus dt n) (h2 : tEnd ≤ t)
    (h4 : ∀ k : Nat, k < n → elapsed plus dt k < tEnd) :
    t = elapsed plus dt n ∧ tEnd ≤ t ∧ 0 < n ∧
    (∀ k : Nat, k < n → elapsed plus dt k < tEnd) ∧
    ((∀ a b : ℚ, plus a b = a + b) →
      t = n * dt ∧ t < tEnd + dt ∧ (t = tEnd ↔ ∃ m : Nat, tEnd = m * dt)) := by
  have hn : 0 < n := by
    rcases Nat.eq_zero_or_pos n with h0 | h0
    · exfalso
      rw [h0] at h1
      simp only [elapsed] at h1
      rw [h1] at h2
      linarith
    · exact h0
  refine ⟨h1, h2, hn, h4, fun hexact => ?_⟩
  have hmul : t = n * dt := by rw [h1, elapsed_exact plus dt hexact]
  have hlast := h4 (n - 1) (by omega)
  rw [elapsed_exact plus dt hexact] at hlast
  have hcast : ((n - 1 : Nat) : ℚ) = (n : ℚ) - 1 := by
    rw [Nat.cast_sub hn]
    simp
  have hlt : t < tEnd + dt := by
    rw [hmul]
    rw [hcast] at hlast
    linarith
  exact ⟨hmul, hlt, first_multiple_reaching dt tEnd t n hdt h2 hlt hmul⟩

/-- C10 (as amended).  For a positive timestep `dt` and a positive end time
`tEnd`, when the time loop of an event ends (in `beamOn` and in `main`), `n`
being the number of steps taken:
* the final elapsed time `t` is the time accumulated over `n` additions of
  `dt`, as the machine adds, and `t ≥ tEnd`;
* at least one step has been taken, and every step, the last one included,
  started at an accumulated time below `tEnd`: `t` is the first accumulated
  time that is not below the end time;
* if the additions are exact, then `t = n * dt`, `tEnd ≤ t < tEnd + dt`, and
  `t` equals `tEnd` exactly when `tEnd` is a whole multiple of `dt`. -/
theorem final_time_is_first_accumulated_time_not_below_end (eng : Engine)
    (pusher : ParticlePusher) (procs : List Process) (histograms : List HistogramParameters)
    (dt tEnd : ℚ) (fuelT fuelP : Nat) (event : ParticleList) (hdt : 0 < dt) (hEnd : 0 < tEnd) :
    (∀ st : Stepping,
      beamOnTimeLoop eng pusher procs dt tEnd fuelP fuelT
        { time := 0, event := event, steps := [] } = Except.ok st →
      st.time = elapsed eng.plus dt st.steps.length ∧ tEnd ≤ st.time ∧ 0 < st.steps.length ∧
      (∀ k : Nat, k < st.steps.length → elapsed eng.plus dt k < tEnd) ∧
      ((∀ a b : ℚ, eng.plus a b = a + b) →
        st.time = st.steps.length * dt ∧ st.time < tEnd + dt ∧
        (st.time = tEnd ↔ ∃ m : Nat, tEnd = m * dt))) ∧
    (∀ st : EventRun,
      mainTimeLoop eng pusher procs histograms dt tEnd fuelP fuelT
        { time := 0, event := event, histCount := 0, steps := [], fills := [] } = Except.ok st →
      st.time = elapsed eng.plus dt st.steps.length ∧ tEnd ≤ st.time ∧ 0 < st.steps.length ∧
      (∀ k : Nat, k < st.steps.length → elapsed eng.plus dt k < tEnd) ∧
      ((∀ a b : ℚ, eng.plus a b = a + b) →
        st.time = st.steps.length * dt ∧ st.time < tEnd + dt ∧
        (st.time = tEnd ↔ ∃ m : Nat, tEnd = m * dt))) := by
  have key : ∀ st : Stepping,
      beamOnTimeLoop eng pusher procs dt tEnd fuelP fuelT
        { time := 0, event := event, steps := [] } = Except.ok st →
      st.time = elapsed eng.plus dt st.steps.length ∧ tEnd ≤ st.time ∧ 0 < st.steps.length ∧
      (∀ k : Nat, k < st.steps.length → elapsed eng.plus dt k < tEnd) ∧
      ((∀ a b : ℚ, eng.plus a b = a + b) →
        st.time = st.steps.length * dt ∧ st.time < tEnd + dt ∧
        (st.time = tEnd ↔ ∃ m : Nat, tEnd = m * dt)) := by
    intro st h
    obtain ⟨h1, h2, _, h4⟩ :=
      beamOnTimeLoop_elapsed eng pusher procs dt tEnd fuelP fuelT _ st rfl h
    exact final_time_facts eng.plus dt tEnd st.time st.steps.length hdt hEnd h1 h2
      (fun k hk => h4 k (Nat.zero_le _) hk)
  refine ⟨key, ?_⟩
  intro st h
  exact key st.stepping (mainTimeLoop_stepping eng pusher procs histograms dt tEnd fuelP fuelT _ st h)

/-! ## The time loop: termination -/

/-- The time loop of `main` is monotone in the bound on the particle loops. -/
theorem mainTimeLoop_mono (eng : Engine) (pusher : ParticlePusher) (procs : List Process)
    (histograms : List HistogramParameters) (dt tEnd : ℚ) (fuelP fuelP1 : Nat)
    (hle : fuelP ≤ fuelP1) :
    ∀ (fuelT : Nat) (st st1 : EventRun),
      mainTimeLoop eng pusher procs histograms dt tEnd fuelP fuelT st = Except.ok st1 →
      mainTimeLoop eng pusher procs histograms dt tEnd fuelP1 fuelT st = Except.ok st1 := by
  intro fuelT
  induction fuelT with
  | zero =>
    intro st st1 h
    simpa only [mainTimeLoop] using h
  | succ fuelT ih =>
    intro st st1 h
    simp only [mainTimeLoop] at h ⊢
    split
    · rename_i ht
      rw [if_pos ht] at h
      cases hsw : timestep eng pusher procs fuelP (histogramCheck histograms st).event with
      | none => rw [hsw] at h; exact absurd h (by simp)
      | some sw =>
        rw [hsw] at h
        rw [timestep_mono eng pusher procs fuelP fuelP1 _ sw hle hsw]
        exact ih _ st1 h
    · rename_i ht
      rw [if_neg ht] at h
      exact h

/-- With particle loops that end, the time loop of `main` ends: `n` more
timesteps suffice when the time accumulated over `n` more additions of the
timestep is not below the end time. -/
theorem mainTimeLoop_terminates (eng : Engine) (pusher : ParticlePusher) (procs : List Process)
    (histograms : List HistogramParameters) (dt tEnd : ℚ)
    (hsw : SweepsFinish eng pusher procs) :
    ∀ (n : Nat) (st : EventRun), st.time = elapsed eng.plus dt st.steps.length →
      tEnd ≤ elapsed eng.plus dt (st.steps.length + n) →
      ∃ fuelP st1, mainTimeLoop eng pusher procs histograms dt tEnd fuelP n st = Except.ok st1 := by
  intro n
  induction n with
  | zero =>
    intro st ht h
    refine ⟨0, st, ?_⟩
    have : ¬ st.time < tEnd := by
      rw [ht]
      exact not_lt.mpr h
    simp only [mainTimeLoop, if_neg this]
  | succ n ih =>
    intro st ht h
    by_cases hlt : st.time < tEnd
    · obtain ⟨f1, sw, h1⟩ := hsw (histogramCheck histograms st).event
      have htm : (histogramCheck histograms st).time = st.time :=
        congrArg Stepping.time (histogramCheck_stepping histograms st)
      have hst : (histogramCheck histograms st).steps = st.steps :=
        congrArg Stepping.steps (histogramCheck_stepping histograms st)
      obtain ⟨f2, st1, h2⟩ := ih
        { histogramCheck histograms st with
          time := eng.plus (histogramCheck histograms st).time dt, event := sw.event
          steps := (histogramCheck histograms st).steps ++
            [{ time := (histogramCheck histograms st).time,
               start := (histogramCheck histograms st).event, trace := sw.trace }] }
        (by
          simp only [List.length_append, List.length_singleton, elapsed]
          rw [htm, hst, ht])
        (by
          simp only [List.length_append, List.length_singleton]
          rw [hst]
          have : st.steps.length + 1 + n = st.steps.length + (n + 1) := by omega
          rw [this]
          exact h)
      refine ⟨max f1 f2, st1, ?_⟩
      simp only [mainTimeLoop, if_pos hlt]
      rw [timestep_mono eng pusher procs f1 (max f1 f2) _ sw (le_max_left _ _) h1]
      exact mainTimeLoop_mono eng pusher procs histograms dt tEnd f2 (max f1 f2)
        (le_max_right _ _) n _ st1 h2
    · refine ⟨0, st, ?_⟩
      simp only [mainTimeLoop, if_neg hlt]

/-- When the additions of the elapsed time are exact and the timestep is
positive, the accumulated time gets to every end time. -/
theorem elapsed_reaches (plus : ℚ → ℚ → ℚ) (dt tEnd : ℚ)
    (htime : (0 < dt ∧ ∀ a b : ℚ, plus a b = a + b) ∨ ∃ n : Nat, tEnd ≤ elapsed plus dt n) :
    ∃ n : Nat, tEnd ≤ elapsed plus dt n := by
  rcases htime with ⟨hdt, hexact⟩ | h
  · obtain ⟨n, hn⟩ := exists_nat_ge (tEnd / dt)
    refine ⟨n, ?_⟩
    rw [elapsed_exact plus dt hexact]
    exact (div_le_iff₀ hdt).mp hn
  · exact h

/-- With particle loops that end and an accumulated time that gets to the end
time, an event of `main` runs to its end. -/
theorem mainEvent_finishes (eng : Engine) (pusher : ParticlePusher) (procs : List Process)
    (histograms : List HistogramParameters) (dt tEnd : ℚ) (event : ParticleList)
    (hsw : SweepsFinish eng pusher procs) (hreach : ∃ n : Nat, tEnd ≤ elapsed eng.plus dt n) :
    ∃ fuelT fuelP run,
      mainEvent eng pusher procs histograms dt tEnd fuelT fuelP event = Except.ok run := by
  obtain ⟨n, hn⟩ := hreach
  obtain ⟨fuelP, st1, h⟩ := mainTimeLoop_terminates eng pusher procs histograms dt tEnd hsw n
    { time := 0, event := event, histCount := 0, steps := [], fills := [] } rfl
    (by simpa using hn)
  refine ⟨n, fuelP, flushHistograms histograms st1, ?_⟩
  simp only [mainEvent, h]

/-- When the accumulated time never gets to the end time, the time loop is
still running after any number of steps. -/
theorem beamOnTimeLoop_never (eng : Engine) (pusher : ParticlePusher) (procs : List Process)
    (dt tEnd : ℚ) (fuelP : Nat) (hnever : ∀ n : Nat, elapsed eng.plus dt n < tEnd) :
    ∀ (fuelT : Nat) (st st1 : Stepping), st.time = elapsed eng.plus dt st.steps.length →
      beamOnTimeLoop eng pusher procs dt tEnd fuelP fuelT st ≠ Except.ok st1 := by
  intro fuelT
  induction fuelT with
  | zero =>
    intro st st1 ht h
    have hlt : st.time < tEnd := by rw [ht]; exact hnever _
    simp only [beamOnTimeLoop, if_pos hlt] at h
    exact absurd h (by simp)
  | succ fuelT ih =>
    intro st st1 ht h
    have hlt : st.time < tEnd := by rw [ht]; exact hnever _
    simp only [beamOnTimeLoop, if_pos hlt] at h
    split at h
    · exact absurd h (by simp)
    · exact ih _ st1 (by
        simp only [List.length_append, List.length_singleton, elapsed]
        rw [ht]) h

/-! ## The time loop: histogram passes -/

/-- An entry of a record of timesteps that has been extended by one is an old
entry or the new one. -/
theorem steps_getElem?_snoc (steps : List StepRecord) (r : StepRecord) (j : Nat)
    (rec : StepRecord) (h : (steps ++ [r])[j]? = some rec) :
    (j < steps.length ∧ steps[j]? = some rec) ∨ (j = steps.length ∧ rec = r) := by
  by_cases hj : j < steps.length
  · left
    rw [List.getElem?_append_left hj] at h
    exact ⟨hj, h⟩
  · right
    have hlen : j < (steps ++ [r]).length := by
      by_contra hc
      rw [List.getElem?_eq_none (by omega)] at h
      exact absurd h (by simp)
    simp only [List.length_append, List.length_singleton] at hlen
    have hj' : j = steps.length := by omega
    subst hj'
    refine ⟨rfl, ?_⟩
    simpa using h.symm

/-- Past the last recorded timestep, the list at the start of a timestep is
the final list. -/
theorem startOf_ge (steps : List StepRecord) (final : ParticleList) (j : Nat)
    (hj : steps.length ≤ j) : startOf steps final j = final := by
  unfold startOf
  rw [List.getElem?_eq_none hj]

/-- The list at the start of a recorded timestep is the start list of its
record. -/
theorem startOf_rec (steps : List StepRecord) (final : ParticleList) (j : Nat)
    (rec : StepRecord) (h : steps[j]? = some rec) : startOf steps final j = rec.start := by
  unfold startOf
  rw [h]

/-- The list at the start of an old timestep, read from the extended record. -/
theorem startOf_snoc_lt (steps : List StepRecord) (r : StepRecord) (final final1 : ParticleList)
    (j : Nat) (hj : j < steps.length) :
    startOf (steps ++ [r]) final1 j = startOf steps final j := by
  unfold startOf
  rw [List.getElem?_append_left hj, List.getElem?_eq_getElem hj]

/-- The list at the start of the new timestep, read from the extended
record. -/
theorem startOf_snoc_eq (steps : List StepRecord) (r : StepRecord) (final1 : ParticleList) :
    startOf (steps ++ [r]) final1 steps.length = r.start := by
  unfold startOf
  simp

/-- The record of the timesteps stays a record of the event when a timestep is
added to it. -/
theorem StepsOf_snoc (eng : Engine) (pusher : ParticlePusher) (procs : List Process) (dt : ℚ)
    (event cur : ParticleList) (steps : List StepRecord) (r : StepRecord) (fuel : Nat)
    (sw : Sweep) (hsteps : StepsOf eng pusher procs dt event cur steps)
    (htime : r.time = elapsed eng.plus dt steps.length) (hstart : r.start = cur)
    (hsw : timestep eng pusher procs fuel cur = some sw) (htrace : r.trace = sw.trace) :
    StepsOf eng pusher procs dt event sw.event (steps ++ [r]) := by
  obtain ⟨h0, hall⟩ := hsteps
  constructor
  · by_cases hlen : 0 < steps.length
    · rw [startOf_snoc_lt steps r cur sw.event 0 hlen]
      exact h0
    · have hz : steps.length = 0 := by omega
      have := startOf_snoc_eq steps r sw.event
      rw [hz] at this
      rw [this, hstart, ← h0, startOf_ge steps cur 0 (by omega)]
  · intro j rec hj
    rcases steps_getElem?_snoc _ _ _ _ hj with ⟨hlt, h1⟩ | ⟨h1, h2⟩
    · obtain ⟨a1, f, sw1, a2, a3, a4⟩ := hall j rec h1
      refine ⟨a1, f, sw1, a2, a3, ?_⟩
      by_cases hnext : j + 1 < steps.length
      · rw [startOf_snoc_lt steps r cur sw.event (j + 1) hnext]
        exact a4
      · have hj1 : j + 1 = steps.length := by omega
        rw [hj1, startOf_snoc_eq, hstart]
        rw [hj1, startOf_ge steps cur steps.length (le_refl _)] at a4
        exact a4
    · subst h1; subst h2
      refine ⟨htime, fuel, sw, by rw [hstart]; exact hsw, htrace, ?_⟩
      exact startOf_ge _ _ _ (by simp)

/-- The pass of a histogram that is recorded as filled is the pass of a
histogram below `histCount`. -/
theorem fills_hist_lt (fills : List Pass) (count : Nat)
    (hc : fills.map Pass.hist = List.range count) (f : Pass) (hf : f ∈ fills) :
    f.hist < count := by
  have : f.hist ∈ fills.map Pass.hist := List.mem_map.mpr ⟨f, hf, rfl⟩
  rw [hc] at this
  exact List.mem_range.mp this

/-- What is recorded of a pass made inside the time loop stays true when a
timestep is added to the record and passes that are not passes of the
histogram just before it are added to the passes. -/
theorem PassOK_grow (histograms : List HistogramParameters) (steps : List StepRecord)
    (r : StepRecord) (fills more : List Pass) (f : Pass)
    (hok : PassOK histograms steps fills f) (hlt : f.step < steps.length)
    (hmore : ∀ g ∈ more, g.hist + 1 ≠ f.hist) :
    PassOK histograms (steps ++ [r]) (fills ++ more) f := by
  obtain ⟨h, h1, h2, h3, h4, h5⟩ := hok
  have hold : ∀ g ∈ fills ++ more, g.hist + 1 = f.hist → g ∈ fills := by
    intro g hg hgf
    rcases List.mem_append.mp hg with hg | hg
    · exact hg
    · exact absurd hgf (hmore g hg)
  refine ⟨h, h1, h2, ?_, ?_, fun _ => ?_⟩
  · intro g hg hgf
    have := h3 g (hold g hg hgf) hgf
    exact ⟨this.1, fun _ => this.2 hlt⟩
  · intro j rec hj hrec hpred
    rw [List.getElem?_append_left (by omega)] at hrec
    exact h4 j rec hj hrec (fun g hg hgf => hpred g (List.mem_append_left _ hg) hgf)
  · obtain ⟨rec, r1, r2⟩ := h5 hlt
    exact ⟨rec, by rw [List.getElem?_append_left hlt]; exact r1, r2⟩

/-- The invariant survives the body of the time loop. -/
theorem LoopInv_body (eng : Engine) (pusher : ParticlePusher) (procs : List Process)
    (histograms : List HistogramParameters) (dt : ℚ) (event : ParticleList) (st : EventRun)
    (fuel : Nat) (sw : Sweep) (hinv : LoopInv eng pusher procs histograms dt event st)
    (hsw : timestep eng pusher procs fuel (histogramCheck histograms st).event = some sw) :
    LoopInv eng pusher procs histograms dt event
      { histogramCheck histograms st with
        time := eng.plus (histogramCheck histograms st).time dt, event := sw.event
        steps := (histogramCheck histograms st).steps ++
          [{ time := (histogramCheck histograms st).time,
             start := (histogramCheck histograms st).event, trace := sw.trace }] } := by
  obtain ⟨ha, hb, hc, hd, he⟩ := hinv
  have htm : (histogramCheck histograms st).time = st.time :=
    congrArg Stepping.time (histogramCheck_stepping histograms st)
  have hst : (histogramCheck histograms st).steps = st.steps :=
    congrArg Stepping.steps (histogramCheck_stepping histograms st)
  have hev : (histogramCheck histograms st).event = st.event :=
    congrArg Stepping.event (histogramCheck_stepping histograms st)
  rw [hev] at hsw
  have hsteps : StepsOf eng pusher procs dt event sw.event
      (st.steps ++ [{ time := st.time, start := st.event, trace := sw.trace }]) :=
    StepsOf_snoc eng pusher procs dt event st.event st.steps _ fuel sw hb ha rfl hsw rfl
  have hskip : (∀ h, histograms[st.histCount]? = some h → st.time < h.Time) →
      LoopInv eng pusher procs histograms dt event
        { st with
          time := eng.plus st.time dt, event := sw.event
          steps := st.steps ++ [{ time := st.time, start := st.event, trace := sw.trace }] } := by
    intro hnot
    refine ⟨?_, hsteps, hc, ?_, ?_⟩
    · simp only [List.length_append, List.length_singleton, elapsed]
      rw [ha]
    · intro f hf
      obtain ⟨hok, hlt⟩ := hd f hf
      refine ⟨?_, by simp only [List.length_append, List.length_singleton]; omega⟩
      have := PassOK_grow histograms st.steps
        { time := st.time, start := st.event, trace := sw.trace } st.fills [] f hok hlt
        (fun g hg => absurd hg (List.not_mem_nil g))
      simpa using this
    · intro h hh j rec hj hpred
      rcases steps_getElem?_snoc _ _ _ _ hj with ⟨_, h1⟩ | ⟨_, h2⟩
      · exact he h hh j rec h1 hpred
      · subst h2
        exact hnot h hh
  unfold histogramCheck
  cases hh : histograms[st.histCount]? with
  | none => exact hskip (fun h h1 => by rw [hh] at h1; cases h1)
  | some h =>
    by_cases hdue : st.time ≥ h.Time
    · simp only [if_pos hdue]
      refine ⟨?_, hsteps, ?_, ?_, ?_⟩
      · simp only [List.length_append, List.length_singleton, elapsed]
        rw [ha]
      · simp only [List.map_append, List.map_cons, List.map_nil, hc, List.range_succ]
      · intro f hf
        simp only [List.mem_append, List.mem_singleton] at hf
        rcases hf with hf | hf
        · obtain ⟨hok, hlt⟩ := hd f hf
          refine ⟨?_, by simp only [List.length_append, List.length_singleton]; omega⟩
          refine PassOK_grow histograms st.steps _ st.fills _ f hok hlt (fun g hg => ?_)
          have hfl := fills_hist_lt st.fills st.histCount hc f hf
          rw [List.mem_singleton.mp hg]
          simp only []
          omega
        · subst hf
          refine ⟨⟨h, hh, rfl, ?_, ?_, fun _ => ?_⟩, ?_⟩
          · intro g hg hgf
            simp only [List.mem_append, List.mem_singleton] at hg
            simp only [] at hgf ⊢
            rcases hg with hg | hg
            · have := (hd g hg).2
              exact ⟨le_of_lt this, fun _ => this⟩
            · rw [hg] at hgf
              simp only [] at hgf
              omega
          · intro j rec hj hrec hpred
            simp only [] at hj
            rw [List.getElem?_append_left hj] at hrec
            exact he h hh j rec hrec
              (fun g hg hgf => hpred g (List.mem_append_left _ hg) hgf)
          · exact ⟨({ time := st.time, start := st.event, trace := sw.trace } : StepRecord),
              by simp, hdue, rfl⟩
          · simp only [List.length_append, List.length_singleton]; omega
      · intro h' _ j rec hj hpred
        have hjl : j < st.steps.length + 1 := by
          rcases steps_getElem?_snoc _ _ _ _ hj with ⟨h1, _⟩ | ⟨h1, _⟩ <;> omega
        have := hpred { hist := st.histCount, step := st.steps.length,
                        offered := st.event, appended := histogramPass h st.event }
          (List.mem_append_right _ (List.mem_singleton.mpr rfl)) rfl
        simp only [] at this
        omega
    · simp only [if_neg hdue]
      refine hskip (fun h' h1 => ?_)
      rw [hh] at h1
      injection h1 with h1
      subst h1
      exact not_le.mp hdue

/-- The invariant holds when the time loop of `main` ends. -/
theorem mainTimeLoop_inv (eng : Engine) (pusher : ParticlePusher) (procs : List Process)
    (histograms : List HistogramParameters) (dt tEnd : ℚ) (event : ParticleList) (fuelP : Nat) :
    ∀ (fuelT : Nat) (st st1 : EventRun), LoopInv eng pusher procs histograms dt event st →
      mainTimeLoop eng pusher procs histograms dt tEnd fuelP fuelT st = Except.ok st1 →
      LoopInv eng pusher procs histograms dt event st1 := by
  intro fuelT
  induction fuelT with
  | zero =>
    intro st st1 hinv h
    simp only [mainTimeLoop] at h
    split at h
    · exact absurd h (by simp)
    · injection h with h; subst h; exact hinv
  | succ fuelT ih =>
    intro st st1 hinv h
    simp only [mainTimeLoop] at h
    split at h
    · cases hsw : timestep eng pusher procs fuelP (histogramCheck histograms st).event with
      | none => rw [hsw] at h; exact absurd h (by simp)
      | some sw =>
        rw [hsw] at h
        exact ih _ st1 (LoopInv_body eng pusher procs histograms dt event st fuelP sw hinv hsw) h
    · injection h with h; subst h; exact hinv

/-- The invariant holds at the start of an event. -/
theorem LoopInv_start (eng : Engine) (pusher : ParticlePusher) (procs : List Process)
    (histograms : List HistogramParameters) (dt : ℚ) (event : ParticleList) :
    LoopInv eng pusher procs histograms dt event
      { time := 0, event := event, histCount := 0, steps := [], fills := [] } := by
  refine ⟨rfl, ⟨rfl, ?_⟩, rfl, ?_, ?_⟩
  · intro j rec h; simp at h
  · intro f hf; simp at hf
  · intro h _ j rec hj; simp at hj

/-- The flush makes its passes for consecutive histogram indices. -/
theorem flushFrom_hist (step : Nat) (event : ParticleList) :
    ∀ (l : List HistogramParameters) (k : Nat),
      (flushFrom step event l k).map Pass.hist = List.range' k l.length := by
  intro l
  induction l with
  | nil => intro k; rfl
  | cons h rest ih =>
    intro k
    simp only [flushFrom, List.map_cons, List.length_cons, List.range'_succ, ih]

/-- What a pass of the flush is: a pass of a histogram of the remaining list, over
the final particle list. -/
theorem flushFrom_mem (step : Nat) (event : ParticleList) :
    ∀ (l : List HistogramParameters) (k : Nat) (f : Pass), f ∈ flushFrom step event l k →
      ∃ h, l[f.hist - k]? = some h ∧ k ≤ f.hist ∧ f.step = step ∧ f.offered = event ∧
        f.appended = histogramPass h event := by
  intro l
  induction l with
  | nil => intro k f hf; simp [flushFrom] at hf
  | cons h rest ih =>
    intro k f hf
    simp only [flushFrom, List.mem_cons] at hf
    rcases hf with hf | hf
    · subst hf
      exact ⟨h, by simp, le_refl _, rfl, rfl, rfl⟩
    · obtain ⟨h', h1, h2, h3, h4, h5⟩ := ih (k + 1) f hf
      refine ⟨h', ?_, by omega, h3, h4, h5⟩
      have : f.hist - k = (f.hist - (k + 1)) + 1 := by omega
      rw [this, List.getElem?_cons_succ]
      exact h1

/-- The flush has a pass for each remaining histogram index. -/
theorem flushFrom_has (step : Nat) (event : ParticleList) :
    ∀ (l : List HistogramParameters) (k i : Nat), k ≤ i → i < k + l.length →
      ∃ g ∈ flushFrom step event l k, g.hist = i ∧ g.step = step := by
  intro l
  induction l with
  | nil => intro k i h1 h2; simp at h2; omega
  | cons h rest ih =>
    intro k i h1 h2
    by_cases hik : i = k
    · subst hik
      exact ⟨_, List.mem_cons_self _ _, rfl, rfl⟩
    · simp only [List.length_cons] at h2
      obtain ⟨g, hg, h3, h4⟩ := ih (k + 1) i (by omega) (by omega)
      exact ⟨g, List.mem_cons_of_mem _ hg, h3, h4⟩

/-! ## The passes of an event -/

/-- What the record of a finished event of `main` says: its timesteps are the
timesteps of the event; its histogram passes are passes of the histograms
`0 .. size-1`, one each and in this order; each pass is as `PassOK` describes;
each was made in a recorded timestep or, with `step` equal to the number of
timesteps, in the final flush, and went over the particle list as it stood
then. -/
theorem mainEvent_passes (eng : Engine) (pusher : ParticlePusher) (procs : List Process)
    (histograms : List HistogramParameters) (dt tEnd : ℚ) (fuelT fuelP : Nat)
    (event : ParticleList) (run : EventRun)
    (h : mainEvent eng pusher procs histograms dt tEnd fuelT fuelP event = Except.ok run) :
    StepsOf eng pusher procs dt event run.event run.steps ∧
    run.fills.map Pass.hist = List.range histograms.length ∧
    ∀ f ∈ run.fills, PassOK histograms run.steps run.fills f ∧ f.step ≤ run.steps.length ∧
      f.offered = startOf run.steps run.event f.step := by
  unfold mainEvent at h
  split at h
  · exact absurd h (by simp)
  · rename_i st hst
    injection h with h
    subst h
    obtain ⟨ha, hb, hc, hd, he⟩ :=
      mainTimeLoop_inv eng pusher procs histograms dt tEnd event fuelP fuelT _ st
        (LoopInv_start eng pusher procs histograms dt event) hst
    have hcount : st.histCount ≤ histograms.length := by
      by_contra hcon
      have hmem : histograms.length ∈ List.range st.histCount := List.mem_range.mpr (by omega)
      rw [← hc] at hmem
      obtain ⟨f, hf, hfe⟩ := List.mem_map.mp hmem
      obtain ⟨⟨h', h1, _⟩, _⟩ := hd f hf
      rw [hfe, List.getElem?_eq_none (le_refl _)] at h1
      exact absurd h1 (by simp)
    have hdrop : (histograms.drop st.histCount).length = histograms.length - st.histCount :=
      List.length_drop _ _
    refine ⟨hb, ?_, ?_⟩
    · simp only [flushHistograms, List.map_append, hc, flushFrom_hist, hdrop,
        List.range_eq_range']
      have := List.range'_append 0 st.histCount (histograms.length - st.histCount) 1
      simp only [zero_add, one_mul] at this
      rw [this]
      congr 1
      omega
    · intro f hf
      simp only [flushHistograms, List.mem_append] at hf
      rcases hf with hf | hf
      · obtain ⟨⟨h', h1, h2, h3, h4, h5⟩, hlt⟩ := hd f hf
        have hfl := fills_hist_lt st.fills st.histCount hc f hf
        refine ⟨⟨h', h1, h2, ?_, ?_, h5⟩, le_of_lt hlt, ?_⟩
        · intro g hg hgf
          rcases List.mem_append.mp hg with hg | hg
          · exact h3 g hg hgf
          · obtain ⟨_, _, g2, _⟩ := flushFrom_mem _ _ _ _ g hg
            omega
        · intro j rec hj hrec hpred
          exact h4 j rec hj hrec (fun g hg => hpred g (List.mem_append_left _ hg))
        · obtain ⟨rec, r1, _, r3⟩ := h5 hlt
          show f.offered = startOf st.steps st.event f.step
          rw [startOf_rec st.steps st.event f.step rec r1, r3]
      · obtain ⟨h', h1, h2, h3, h4, h5⟩ := flushFrom_mem _ _ _ _ f hf
        have hh : histograms[f.hist]? = some h' := by
          rw [List.getElem?_drop] at h1
          have : st.histCount + (f.hist - st.histCount) = f.hist := by omega
          rw [this] at h1
          exact h1
        refine ⟨⟨h', hh, ?_, ?_, ?_, ?_⟩, le_of_eq h3, ?_⟩
        · rw [h5, h4]; rfl
        · intro g hg hgf
          refine ⟨?_, fun hlt => ?_⟩
          · rcases List.mem_append.mp hg with hg | hg
            · have := (hd g hg).2
              rw [h3]
              exact le_of_lt this
            · obtain ⟨_, _, _, g3, _⟩ := flushFrom_mem _ _ _ _ g hg
              rw [h3, g3]
          · simp only [flushHistograms] at hlt
            omega
        · intro j rec hj hrec hpred
          rw [h3] at hj
          simp only [flushHistograms] at hrec
          by_cases hfc : f.hist = st.histCount
          · rw [hfc] at hh
            refine he h' hh j rec hrec (fun g hg hgh => ?_)
            exact hpred g (List.mem_append_left _ hg) (by rw [hfc]; exact hgh)
          · have hlt : f.hist < histograms.length := by
              by_contra hcon
              rw [List.getElem?_eq_none (by omega)] at hh
              exact absurd hh (by simp)
            obtain ⟨g, hg, hg1, hg2⟩ := flushFrom_has st.steps.length st.event
              (histograms.drop st.histCount) st.histCount (f.hist - 1) (by omega)
              (by rw [hdrop]; omega)
            have := hpred g (List.mem_append_right _ hg) (by omega)
            omega
        · intro hlt
          simp only [flushHistograms] at hlt
          omega
        · show f.offered = startOf st.steps st.event f.step
          rw [h3, h4, startOf_ge st.steps st.event st.steps.length (le_refl _)]

/-- C8 (as amended).  Every configured histogram is filled exactly once per
event that runs to its end.  For any list of histograms, any end time,
particle loops that all end, and a timestep with which the accumulated elapsed
time gets to the end time, as it does with every positive timestep when the
additions of the elapsed time are exact: the event runs to its end, and then
* the recorded timesteps are the timesteps of the event, each with the
  particle list from which its particle loop started;
* the passes made are passes of the histograms `0 .. size-1`, one each;
* every pass was made either at the start of a timestep of the time loop or in
  the final flush, over the event's particle list as it stood then;
* every pass handed to the histogram exactly the particles of that list whose
  `GetName()` equals the histogram's particle label. -/
theorem every_histogram_filled_once_per_event (eng : Engine) (pusher : ParticlePusher)
    (procs : List Process) (histograms : List HistogramParameters) (dt tEnd : ℚ)
    (event : ParticleList) (hsw : SweepsFinish eng pusher procs)
    (htime : (0 < dt ∧ ∀ a b : ℚ, eng.plus a b = a + b) ∨
      ∃ n : Nat, tEnd ≤ elapsed eng.plus dt n) :
    (∃ fuelT fuelP run,
      mainEvent eng pusher procs histograms dt tEnd fuelT fuelP event = Except.ok run) ∧
    (∀ fuelT fuelP run,
      mainEvent eng pusher procs histograms dt tEnd fuelT fuelP event = Except.ok run →
      StepsOf eng pusher procs dt event run.event run.steps ∧
      PassesOf histograms run.steps run.event run.fills) := by
  refine ⟨mainEvent_finishes eng pusher procs histograms dt tEnd event hsw
    (elapsed_reaches eng.plus dt tEnd htime), ?_⟩
  intro fuelT fuelP run h
  obtain ⟨h0, h1, h2⟩ :=
    mainEvent_passes eng pusher procs histograms dt tEnd fuelT fuelP event run h
  refine ⟨h0, h1, fun f hf => ?_⟩
  obtain ⟨⟨h', a1, a2, _⟩, a3, a4⟩ := h2 f hf
  exact ⟨a3, a4, h', a1, a2⟩

/-- C13 (as amended).  For any list of histograms, particle loops that end,
and a timestep with which the accumulated elapsed time gets to the end time,
as it does with every positive timestep when the additions of the elapsed
time are exact: the event runs to its end, and every histogram is filled at
the first timestep, later than the timestep in which the histogram before it
in the list was filled, whose start time `t` (the elapsed time as accumulated
when the step starts) satisfies `t ≥ T`, with the particle list as it stands
before that step's push; when the time loop is over before there is such a
timestep, the histogram is filled in the final flush, with the final particle
list. -/
theorem histogram_filled_at_first_due_timestep_after_predecessor (eng : Engine)
    (pusher : ParticlePusher) (procs : List Process) (histograms : List HistogramParameters)
    (dt tEnd : ℚ) (event : ParticleList) (hsw : SweepsFinish eng pusher procs)
    (htime : (0 < dt ∧ ∀ a b : ℚ, eng.plus a b = a + b) ∨
      ∃ n : Nat, tEnd ≤ elapsed eng.plus dt n) :
    (∃ fuelT fuelP run,
      mainEvent eng pusher procs histograms dt tEnd fuelT fuelP event = Except.ok run) ∧
    (∀ fuelT fuelP run,
      mainEvent eng pusher procs histograms dt tEnd fuelT fuelP event = Except.ok run →
      StepsOf eng pusher procs dt event run.event run.steps ∧
      run.fills.map Pass.hist = List.range histograms.length ∧
      ∀ f ∈ run.fills, PassTiming histograms run.steps run.event run.fills f) := by
  refine ⟨mainEvent_finishes eng pusher procs histograms dt tEnd event hsw
    (elapsed_reaches eng.plus dt tEnd htime), ?_⟩
  intro fuelT fuelP run h
  obtain ⟨h0, h1, h2⟩ :=
    mainEvent_passes eng pusher procs histograms dt tEnd fuelT fuelP event run h
  refine ⟨h0, h1, fun f hf => ?_⟩
  obtain ⟨⟨h', a1, _, a3, a4, a5⟩, a6, a7⟩ := h2 f hf
  refine ⟨h', a1, a6, a7, a3, a4, fun hlt => ?_⟩
  obtain ⟨rec, r1, r2, _⟩ := a5 hlt
  exact ⟨rec, r1, r2⟩

/-! ## Histogram: binning -/

/-- The first and the last bin centre that `Initialise` produces for at least
two bins are `minBin` and `maxBin`. -/
theorem Initialise_reads (h : Histogram) (name : String) (minBin maxBin : ℚ) (nBins : Nat)
    (h2 : 2 ≤ nBins) (hn : nBins < 2 ^ 32) :
    (h.Initialise name minBin maxBin nBins).m_binCentres[0]? = some minBin ∧
    (h.Initialise name minBin maxBin nBins).m_binCentres[lastIndex nBins]? = some maxBin := by
  have hl : lastIndex nBins = nBins - 1 := lastIndex_of_pos (by omega) hn
  have hne : ((nBins : ℚ) - 1) ≠ 0 := by
    have : (2 : ℚ) ≤ (nBins : ℚ) := by exact_mod_cast h2
    linarith
  clear hn
  constructor
  · simp only [Histogram.Initialise, List.getElem?_map]
    rw [List.getElem?_range (by omega)]
    simp
  · simp only [Histogram.Initialise, List.getElem?_map, hl]
    rw [List.getElem?_range (by omega)]
    have hc : ((nBins - 1 : Nat) : ℚ) = (nBins : ℚ) - 1 := by
      rw [Nat.cast_sub (by omega)]; simp
    simp only [Option.map_some', Option.some.injEq, hc]
    field_simp

/-- A loop of `Fill` over values none of which lies strictly between the first
and the last bin centre: every particle is counted as an entry, no bin value
changes. -/
theorem fillLoop_outside (num : Numerics) (sample : Particle → ℚ) (lo hi : ℚ) :
    ∀ (partList : ParticleList) (h : Histogram),
      h.m_binCentres[0]? = some lo → h.m_binCentres[lastIndex h.m_nBins]? = some hi →
      (∀ p ∈ partList, ¬ (lo < sample p ∧ sample p < hi)) →
      Histogram.fillLoop num sample h partList
        = Except.ok { h with m_entries := h.m_entries + partList.length } := by
  intro partList
  induction partList with
  | nil => intro h _ _ _; rfl
  | cons p rest ih =>
    intro h hlo hhi hout
    simp only [Histogram.fillLoop]
    rw [fillOne_outside num h (sample p) lo hi hlo hhi (hout p (List.mem_cons_self _ _))]
    simp only []
    rw [ih { h with m_entries := h.m_entries + 1 } hlo hhi
      (fun q hq => hout q (List.mem_cons_of_mem _ hq))]
    simp only [List.length_cons]
    congr 2
    omega

/-- C11 (as amended).  Of the degenerate cases only zero bins is rejected, and
by the `Fill` that follows: after `Initialise` with zero bins, `Fill` ends the
program with `exit(1)`.  With at least two bins and `maxBin ≤ minBin`,
`Initialise` produces the bin centres `minBin + i * (maxBin - minBin) /
(nBins - 1)` and zero bin values, and a following `Fill` of a non-empty
particle list returns: it counts every particle as an entry, leaves the bin
centres as they are and bins no particle. -/
theorem degenerate_range_is_not_rejected (num : Numerics) (GetEnergy : Particle → ℚ)
    (h : Histogram) (name dataType : String) (minBin maxBin : ℚ) (nBins : Nat)
    (partList : ParticleList) (h2 : 2 ≤ nBins) (hn : nBins < 2 ^ 32) (hdeg : maxBin ≤ minBin)
    (hne : partList ≠ []) :
    Histogram.Fill num GetEnergy (h.Initialise name minBin maxBin 0) partList dataType
      = Except.error (Fault.exit 1) ∧
    (h.Initialise name minBin maxBin nBins).m_binCentres
      = (List.range nBins).map
          (fun (i : Nat) => minBin + (i : ℚ) * ((maxBin - minBin) / ((nBins : ℚ) - 1))) ∧
    (h.Initialise name minBin maxBin nBins).m_binValues = (List.range nBins).map (fun _ => 0) ∧
    ∃ h1, Histogram.Fill num GetEnergy (h.Initialise name minBin maxBin nBins) partList dataType
        = Except.ok h1 ∧
      h1.m_binCentres = (h.Initialise name minBin maxBin nBins).m_binCentres ∧
      h1.m_entries = h.m_entries + partList.length ∧ 0 < h1.m_entries ∧
      h1.m_binValues = (List.range nBins).map (fun _ => 0) := by
  obtain ⟨hlo, hhi⟩ := Initialise_reads h name minBin maxBin nBins h2 hn
  refine ⟨?_, rfl, rfl, ?_⟩
  · simp [Histogram.Fill, Histogram.Initialise]
  · have hloop := fillLoop_outside num GetEnergy minBin maxBin partList
      (h.Initialise name minBin maxBin nBins) hlo hhi
      (fun p _ hp => absurd (lt_trans hp.1 hp.2) (not_lt.mpr hdeg))
    have h0 : (h.Initialise name minBin maxBin nBins).m_nBins ≠ 0 := by
      show nBins ≠ 0
      omega
    have hpos : 0 < partList.length := List.length_pos.mpr hne
    refine ⟨_, Fill_of_fillLoop num GetEnergy _ _ partList dataType h0 hloop, rfl, rfl, ?_, ?_⟩
    · show 0 < (h.Initialise name minBin maxBin nBins).m_entries + partList.length
      omega
    · simp [Histogram.Normalise, Histogram.Initialise]

/-- C12 (what the code does).  `Fill` does not look at `dataType`: for every
`dataType` it does what it does for "Energy".  On a histogram with no bins it
exits; otherwise it runs the energy loop and normalises, also for "X", "Y",
"Z" and for a name of no attribute. -/
theorem Fill_bins_energy_for_every_dataType (num : Numerics) (GetEnergy : Particle → ℚ)
    (h : Histogram) (partList : ParticleList) (dataType : String) :
    Histogram.Fill num GetEnergy h partList dataType
      = Histogram.Fill num GetEnergy h partList "Energy" ∧
    Histogram.Fill num GetEnergy h partList dataType
      = (if h.m_nBins = 0 then Except.error (Fault.exit 1)
         else match Histogram.fillLoop num GetEnergy h partList with
           | Except.error e => Except.error e
           | Except.ok h1 => Except.ok h1.Normalise) := by
  constructor
  · simp [Histogram.Fill, literalAsCondition]
  · unfold Histogram.Fill
    simp only [literalAsCondition, or_true, if_true]

/-- C14. The compatibility check of `Merge` is sufficient for identical
binning: two histograms built by `Initialise` with at least two bins that have
the same number of bins, the same first bin centre and the same last bin
centre have the same bin centres throughout. -/
theorem same_first_and_last_centre_give_same_centres (h1 h2 : Histogram) (name1 name2 : String)
    (min1 max1 min2 max2 : ℚ) (n1 n2 : Nat) (hn1 : 2 ≤ n1) (hn2 : 2 ≤ n2)
    (hb1 : n1 < 2 ^ 32) (hb2 : n2 < 2 ^ 32)
    (hbins : (h1.Initialise name1 min1 max1 n1).m_nBins
      = (h2.Initialise name2 min2 max2 n2).m_nBins)
    (hfirst : (h1.Initialise name1 min1 max1 n1).m_binCentres[0]?
      = (h2.Initialise name2 min2 max2 n2).m_binCentres[0]?)
    (hlast : (h1.Initialise name1 min1 max1 n1).m_binCentres[
        lastIndex (h1.Initialise name1 min1 max1 n1).m_nBins]?
      = (h2.Initialise name2 min2 max2 n2).m_binCentres[
        lastIndex (h1.Initialise name1 min1 max1 n1).m_nBins]?) :
    (h1.Initialise name1 min1 max1 n1).m_binCentres
      = (h2.Initialise name2 min2 max2 n2).m_binCentres := by
  have hn : n1 = n2 := hbins
  subst hn
  obtain ⟨a0, a1⟩ := Initialise_reads h1 name1 min1 max1 n1 hn1 hb1
  obtain ⟨b0, b1⟩ := Initialise_reads h2 name2 min2 max2 n1 hn2 hb2
  have e0 : min1 = min2 := by
    rw [a0, b0] at hfirst
    exact Option.some.inj hfirst
  have e1 : max1 = max2 := by
    have hlast' : (h1.Initialise name1 min1 max1 n1).m_binCentres[lastIndex n1]?
        = (h2.Initialise name2 min2 max2 n1).m_binCentres[lastIndex n1]? := hlast
    rw [a1, b1] at hlast'
    exact Option.some.inj hlast'
  subst e0
  subst e1
  rfl

/-- C16 (what the code does).  A histogram with the bin centres 0, 1, 2 is
filled twice through `Fill`: first with a particle of energy 1/2, which
`ArrayIndex` puts in bin `i`, and a particle of energy 5, which is outside the
range; then with another particle of energy 1/2.  After the first call the
histogram has 2 entries and the value 1/2 in bin `i`.  After the second call it
has 3 entries, 2 of them binned into bin `i`, and its value in bin `i` is
(1/2 + 1) / 3 = 1/2, and not 2/3. -/
theorem second_fill_normalises_normalised_values (num : Numerics)
    (GetEnergy : Particle → ℚ) (p q r : Particle) (i : Nat)
    (hp : GetEnergy p = 1 / 2) (hq : GetEnergy q = 1 / 2) (hr : GetEnergy r = 5)
    (hi : num.ArrayIndex [0, 1, 2] 3 (1 / 2) = i) (hlt : i < 3) :
    ∃ A B : Histogram,
      Histogram.Fill num GetEnergy (Histogram.Initialise Histogram.ctorDefault "A" 0 2 3)
        [p, r] "Energy" = Except.ok A ∧
      Histogram.Fill num GetEnergy A [q] "Energy" = Except.ok B ∧
      A.m_entries = 2 ∧ A.m_binValues[i]? = some (1 / 2) ∧
      B.m_entries = 3 ∧ B.m_binValues[i]? = some (1 / 2) ∧ (1 / 2 : ℚ) ≠ 2 / 3 := by
  rw [Initialise_three_bins]
  obtain ⟨x, hx, hset, hlen⟩ := three_cells_set 0 0 0 i hlt
  have hx0 : x = 0 := by
    have h3 : i = 0 ∨ i = 1 ∨ i = 2 := by omega
    rcases h3 with h | h | h <;> subst h <;> simpa using hx.symm
  subst hx0
  have hlast : ([0, 1, 2] : List ℚ)[lastIndex 3]? = some 2 := by
    rw [show lastIndex (3 : Nat) = 2 from rfl]; rfl
  have hA : Histogram.fillLoop num GetEnergy ⟨"A", 3, [0, 1, 2], [0, 0, 0], 0⟩ [p, r]
      = Except.ok ⟨"A", 3, [0, 1, 2], [0, 0, 0].set i (0 + 1), 0 + 1 + 1⟩ := by
    have h1 := fillOne_within num ⟨"A", 3, [0, 1, 2], [0, 0, 0], 0⟩ (GetEnergy p) 0 2 0 rfl
      hlast (by rw [hp]; norm_num) (by rw [hp]; norm_num)
      (by rw [hp]; show [0, 0, 0][num.ArrayIndex [0, 1, 2] 3 (1 / 2)]? = _; rw [hi]; exact hx)
    rw [hp] at h1
    have h2 := fillOne_outside num ⟨"A", 3, [0, 1, 2], [0, 0, 0].set i (0 + 1), 0 + 1⟩
      (GetEnergy r) 0 2 rfl hlast (by rw [hr]; norm_num)
    simp only [Histogram.fillLoop, hp, h1]
    rw [show num.ArrayIndex [0, 1, 2] 3 (1 / 2) = i from hi]
    simp only [h2]
  have hFA := Fill_of_fillLoop num GetEnergy _ _ [p, r] "Energy" (by simp) hA
  have hAi : (Histogram.Normalise ⟨"A", 3, [0, 1, 2], [0, 0, 0].set i (0 + 1), 0 + 1 + 1⟩
      ).m_binValues[i]? = some (1 / 2) := by
    simp only [Histogram.Normalise, List.getElem?_map, hset]
    norm_num
  have hB : Histogram.fillLoop num GetEnergy
      (Histogram.Normalise ⟨"A", 3, [0, 1, 2], [0, 0, 0].set i (0 + 1), 0 + 1 + 1⟩) [q]
      = Except.ok { Histogram.Normalise ⟨"A", 3, [0, 1, 2], [0, 0, 0].set i (0 + 1), 0 + 1 + 1⟩ with
          m_entries := 0 + 1 + 1 + 1
          m_binValues := (Histogram.Normalise
            ⟨"A", 3, [0, 1, 2], [0, 0, 0].set i (0 + 1), 0 + 1 + 1⟩).m_binValues.set i
              (1 / 2 + 1) } := by
    have h1 := fillOne_within num
      (Histogram.Normalise ⟨"A", 3, [0, 1, 2], [0, 0, 0].set i (0 + 1), 0 + 1 + 1⟩)
      (GetEnergy q) 0 2 (1 / 2) rfl hlast (by rw [hq]; norm_num) (by rw [hq]; norm_num)
      (by rw [hq]
          show (Histogram.Normalise _).m_binValues[num.ArrayIndex [0, 1, 2] 3 (1 / 2)]? = _
          rw [hi]; exact hAi)
    rw [hq] at h1
    simp only [Histogram.fillLoop, hq, h1]
    rw [show num.ArrayIndex (Histogram.Normalise
      ⟨"A", 3, [0, 1, 2], [0, 0, 0].set i (0 + 1), 0 + 1 + 1⟩).m_binCentres
      (Histogram.Normalise ⟨"A", 3, [0, 1, 2], [0, 0, 0].set i (0 + 1), 0 + 1 + 1⟩).m_nBins
      (1 / 2) = i from hi]
    rfl
  have hFB := Fill_of_fillLoop num GetEnergy _ _ [q] "Energy"
    (by show (3 : Nat) ≠ 0; omega) hB
  refine ⟨_, _, hFA, hFB, rfl, hAi, rfl, ?_, by norm_num⟩
  have hlen2 : i < (Histogram.Normalise
      ⟨"A", 3, [0, 1, 2], [0, 0, 0].set i (0 + 1), 0 + 1 + 1⟩).m_binValues.length := by
    show i < (List.map _ ([0, 0, 0].set i (0 + 1))).length
    rw [List.length_map, hlen]
    exact hlt
  show (List.map _ (List.set _ i (1 / 2 + 1)))[i]? = some (1 / 2)
  rw [List.getElem?_map, List.getElem?_set, if_pos rfl, if_pos hlen2]
  show some ((1 / 2 + 1) / ((0 + 1 + 1 + 1 : Nat) : ℚ)) = some (1 / 2)
  norm_num

/-! ## The sample collaborators -/

/-- Writing to a position of a list what is there already leaves the list as
it is. -/
theorem set_of_getElem? {α : Type} :
    ∀ (l : List α) (k : Nat) (a : α), l[k]? = some a → l.set k a = l := by
  intro l
  induction l with
  | nil => intro k a h; simp at h
  | cons x rest ih =>
    intro k a h
    cases k with
    | zero =>
      simp only [List.getElem?_cons_zero, Option.some.injEq] at h
      rw [h]
      rfl
    | succ k =>
      simp only [List.getElem?_cons_succ] at h
      simp only [List.set_cons_succ, ih k a h]

/-- The processes of `emittingEngine` only append. -/
theorem emittingEngine_onlyAppends : OnlyAppends emittingEngine := by
  intro p k event
  show ∃ (q : Particle) (extra : ParticleList), (match event[k]? with
    | some q =>
      if q.dyn = DynType.Photon then event
      else event ++ [Photon.ctorMomentum 1 q.m_position ⟨1, 0, 0⟩ q.m_time false]
    | none => event) = event.set k q ++ extra
  cases hk : event[k]? with
  | some q =>
    simp only []
    split
    · exact ⟨q, [], by rw [set_of_getElem? event k q hk, List.append_nil]⟩
    · exact ⟨q, _, by rw [set_of_getElem? event k q hk]⟩
  | none =>
    simp only []
    refine ⟨sampleElectron, [], ?_⟩
    rw [List.set_eq_of_length_le (List.getElem?_eq_none_iff.mp hk), List.append_nil]

/-- When no process changes the length of the particle list, the particle loop
needs no more iterations than there are particles left. -/
theorem particleLoop_quiet (eng : Engine) (pusher : ParticlePusher) (procs : List Process)
    (hq : ∀ (p : Process) (k : Nat) (event : ParticleList),
      (eng.Interact p k event).length = event.length) :
    ∀ (fuel k : Nat) (s : Sweep), s.event.length ≤ k + fuel →
      ∃ s1, particleLoop eng pusher procs fuel k s = some s1 := by
  have hproc : ∀ (k : Nat) (l : List Process) (proc : Nat) (s : Sweep),
      (processLoop eng k l proc s).event.length = s.event.length := by
    intro k l
    induction l with
    | nil => intro proc s; rfl
    | cons p rest ih =>
      intro proc s
      simp only [processLoop]
      rw [ih]
      exact hq p k s.event
  have hbody : ∀ (k : Nat) (s : Sweep),
      (particleBody eng pusher procs k s).event.length = s.event.length := by
    intro k s
    unfold particleBody
    rw [hproc]
    exact pushAt_length eng pusher k s.event
  intro fuel
  induction fuel with
  | zero =>
    intro k s h
    refine ⟨s, ?_⟩
    simp only [particleLoop]
    rw [if_neg (by omega)]
  | succ fuel ih =>
    intro k s h
    simp only [particleLoop]
    split
    · exact ih (k + 1) _ (by rw [hbody]; omega)
    · exact ⟨s, rfl⟩

/-- When no process changes the length of the particle list, every particle loop
has an end. -/
theorem sweepsFinish_of_quiet (eng : Engine) (pusher : ParticlePusher) (procs : List Process)
    (hq : ∀ (p : Process) (k : Nat) (event : ParticleList),
      (eng.Interact p k event).length = event.length) :
    SweepsFinish eng pusher procs := by
  intro event
  obtain ⟨s1, h⟩ := particleLoop_quiet eng pusher procs hq event.length 0
    { event := event, trace := [] } (by simp)
  exact ⟨event.length, s1, h⟩

/-- Every particle loop of `idleEngine` has an end. -/
theorem idleEngine_sweepsFinish (pusher : ParticlePusher) (procs : List Process) :
    SweepsFinish idleEngine pusher procs :=
  sweepsFinish_of_quiet idleEngine pusher procs (fun _ _ _ => rfl)

/-- Every particle loop of `doubleEngine` has an end. -/
theorem doubleEngine_sweepsFinish (pusher : ParticlePusher) (procs : List Process) :
    SweepsFinish doubleEngine pusher procs :=
  sweepsFinish_of_quiet doubleEngine pusher procs (fun _ _ _ => rfl)

/-! ## The arithmetic of `double` -/

/-- The leading binary digit of a number below `2^(b+1)` is at a position not
above `b`. -/
theorem leadingBit_le : ∀ (fuel n b : Nat), n < 2 ^ (b + 1) → leadingBit fuel n ≤ b := by
  intro fuel
  induction fuel with
  | zero => intro n b _; simp [leadingBit]
  | succ fuel ih =>
    intro n b h
    simp only [leadingBit]
    split
    · exact Nat.zero_le _
    · rename_i hn
      have hb : 1 ≤ b := by
        by_contra hc
        have : b = 0 := by omega
        subst this
        simp at h
        omega
      have h2 : n / 2 < 2 ^ ((b - 1) + 1) := by
        have : b - 1 + 1 = b := by omega
        rw [this]
        have : 2 ^ (b + 1) = 2 * 2 ^ b := by ring
        omega
      have := ih (n / 2) (b - 1) h2
      omega

/-- The power `2^d` for an exponent that is not positive. -/
theorem twoToThe_nonpos (d : Int) (hd : d ≤ 0) :
    twoToThe d = 1 / ((2 ^ (-d).toNat : Nat) : ℚ) := by
  unfold twoToThe
  split
  · have : d = 0 := by omega
    subst this
    simp
  · rfl

/-- The binary exponent of a whole number below `2^53` is at most 52. -/
theorem binade_natCast_le (k : Nat) (hk : k < 2 ^ 53) : binade (k : ℚ) ≤ 52 := by
  have h1 : leadingBit k k ≤ 52 := leadingBit_le k k 52 hk
  have h0 : leadingBit 1 1 = 0 := by rfl
  unfold binade
  simp only [Rat.num_natCast, Rat.den_natCast, Int.natAbs_ofNat, h0]
  split <;> omega

/-- A whole number below `2^53` is a `double`: rounding leaves it as it is. -/
theorem binary64Round_natCast (k : Nat) (hk : k < 2 ^ 53) : binary64Round (k : ℚ) = k := by
  rcases Nat.eq_zero_or_pos k with h0 | hpos
  · subst h0
    simp [binary64Round]
  · have hq : (k : ℚ) ≠ 0 := by exact_mod_cast (by omega : k ≠ 0)
    have hnn : ¬ ((k : ℚ) < 0) := by
      have : (0 : ℚ) ≤ k := Nat.cast_nonneg k
      linarith
    have habs : |(k : ℚ)| = k := abs_of_nonneg (Nat.cast_nonneg k)
    have he := binade_natCast_le k hk
    have hulp := twoToThe_nonpos (binade (k : ℚ) - 52) (by omega)
    have hpow : (0 : ℚ) < ((2 ^ (-(binade (k : ℚ) - 52)).toNat : Nat) : ℚ) := by
      positivity
    have hm : (k : ℚ) / twoToThe (binade (k : ℚ) - 52)
        = ((k * 2 ^ (-(binade (k : ℚ) - 52)).toNat : Nat) : ℚ) := by
      rw [hulp]
      push_cast
      field_simp
    unfold binary64Round
    have hfloor : ∀ N : Nat, ((N : ℚ)).floor = (N : Int) := by
      intro N
      show ⌊(N : ℚ)⌋ = (N : Int)
      exact Int.floor_natCast N
    simp only [if_neg hq, if_neg hnn, habs, hm, hfloor]
    have hzero : ((k * 2 ^ (-(binade (k : ℚ) - 52)).toNat : Nat) : ℚ)
        - (((k * 2 ^ (-(binade (k : ℚ) - 52)).toNat : Nat) : Int) : ℚ) = 0 := by
      push_cast
      ring
    rw [hzero, if_pos (by norm_num), hulp]
    push_cast
    field_simp

/-- With timestep 1 the elapsed time, accumulated in `double` arithmetic,
counts up to 2^53 and stays there: 2^53 + 1 is not a `double`, and the sum
rounds to 2^53. -/
theorem elapsed_stalls : ∀ n : Nat, ∃ m : Nat, m ≤ 2 ^ 53 ∧ elapsed binary64Add 1 n = m := by
  intro n
  induction n with
  | zero => exact ⟨0, Nat.zero_le _, by simp [elapsed]⟩
  | succ n ih =>
    obtain ⟨m, hm, he⟩ := ih
    simp only [elapsed, he, binary64Add]
    by_cases h1 : m + 1 < 2 ^ 53
    · refine ⟨m + 1, by omega, ?_⟩
      have := binary64Round_natCast (m + 1) h1
      push_cast at this ⊢
      exact this
    · by_cases h2 : m + 1 = 2 ^ 53
      · refine ⟨2 ^ 53, le_refl _, ?_⟩
        have hm' : (m : ℚ) + 1 = 9007199254740992 := by
          have : ((m + 1 : Nat) : ℚ) = ((2 ^ 53 : Nat) : ℚ) := by rw [h2]
          push_cast at this
          rw [this]
        rw [hm']
        have : binary64Round 9007199254740992 = 9007199254740992 := by
          set_option maxRecDepth 100000 in with_unfolding_all rfl
        rw [this]; norm_num
      · have h3 : m = 2 ^ 53 := by omega
        refine ⟨2 ^ 53, le_refl _, ?_⟩
        have hm' : (m : ℚ) + 1 = 9007199254740993 := by
          rw [h3]; norm_num
        rw [hm']
        have : binary64Round 9007199254740993 = 9007199254740992 := by
          set_option maxRecDepth 100000 in with_unfolding_all rfl
        rw [this]; norm_num

/-- With timestep 1 the elapsed time, accumulated in `double` arithmetic, never
gets above 2^53. -/
theorem elapsed_stalls_below (n : Nat) : elapsed binary64Add 1 n ≤ 9007199254740992 := by
  obtain ⟨m, hm, he⟩ := elapsed_stalls n
  rw [he]
  have : (m : ℚ) ≤ ((2 ^ 53 : Nat) : ℚ) := by exact_mod_cast hm
  push_cast at this
  linarith

/-- When the accumulated time never gets to the end time, an event of `main`
does not run to its end, whatever the iteration bounds. -/
theorem mainEvent_never (eng : Engine) (pusher : ParticlePusher) (procs : List Process)
    (histograms : List HistogramParameters) (dt tEnd : ℚ) (event : ParticleList)
    (hnever : ∀ n : Nat, elapsed eng.plus dt n < tEnd) (fuelT fuelP : Nat) (run : EventRun) :
    mainEvent eng pusher procs histograms dt tEnd fuelT fuelP event ≠ Except.ok run := by
  intro h
  unfold mainEvent at h
  split at h
  · exact absurd h (by simp)
  · rename_i st hst
    exact beamOnTimeLoop_never eng pusher procs dt tEnd fuelP hnever fuelT _ st.stepping rfl
      (mainTimeLoop_stepping eng pusher procs histograms dt tEnd fuelP fuelT _ st hst)

/-- C8 (as stated) fails: a positive timestep does not make the event end.
With timestep 1, end time 2^53 + 4 and one histogram configured for time
2^53 + 2, the elapsed time, accumulated in `double` arithmetic, counts up to
2^53 and stays there, since 2^53 + 1 rounds to 2^53.  So the elapsed time
never gets to the time of the histogram, the test of the time loop that fills
it never succeeds, and the event never gets to its end, where the flush would
fill it: the histogram is not filled. -/
theorem positive_timestep_event_never_ends_on_doubles :
    (∀ n : Nat, elapsed doubleEngine.plus 1 n ≤ 9007199254740992) ∧
    (9007199254740992 : ℚ) < 9007199254740994 ∧
    (∀ (fuelT fuelP : Nat) (run : EventRun),
      mainEvent doubleEngine (ParticlePusher.LorentzPusher zeroField 1) [] histogramBeyondStall
        1 9007199254740996 fuelT fuelP [softPhoton] ≠ Except.ok run) := by
  refine ⟨elapsed_stalls_below, by norm_num, fun fuelT fuelP run => ?_⟩
  refine mainEvent_never doubleEngine _ [] histogramBeyondStall 1 9007199254740996 [softPhoton]
    (fun n => ?_) fuelT fuelP run
  have := elapsed_stalls_below n
  show elapsed binary64Add 1 n < 9007199254740996
  linarith

/-- C10 (as stated) fails.  With timestep 2 and end time 3 the time loop of
`beamOn` over a single photon ends, after two steps, at elapsed time 4, which
is not the end time (the sums 0 + 2 and 2 + 2 are exact in `double` arithmetic
too).  And in `double` arithmetic, with the timestep 0.1 and the end time 0.8,
which is exactly 8 times the timestep, the loop ends after 9 steps at the
elapsed time 2026619832316723 / 2^51, the `double` 0.8999999999999999, which is
not the end time either. -/
theorem final_time_overshoots_end_time :
    ((beamOnTimeLoop idleEngine (ParticlePusher.LorentzPusher zeroField 2) [] 2 3 1 2
        { time := 0, event := [Photon.ctorMomentum 1 ⟨0, 0, 0⟩ ⟨1, 0, 0⟩ 0 false], steps := [] }
      ).toOption.map Stepping.time = some 4 ∧ (4 : ℚ) ≠ 3) ∧
    ((beamOnTimeLoop doubleEngine
        (ParticlePusher.LorentzPusher zeroField (binary64Round (1 / 10))) []
        (binary64Round (1 / 10)) (binary64Round (8 / 10)) 1 9
        { time := 0, event := [softPhoton], steps := [] }
      ).toOption.map (fun st => (st.steps.length, st.time))
        = some (9, 2026619832316723 / 2251799813685248) ∧
      binary64Round (8 / 10) = 8 * binary64Round (1 / 10) ∧
      (2026619832316723 / 2251799813685248 : ℚ) ≠ binary64Round (8 / 10)) := by
  have h01 : ((0 : ℚ) < 3) := by norm_num
  have h23 : ((0 : ℚ) + 2 < 3) := by norm_num
  have h43 : ¬ ((0 : ℚ) + 2 + 2 < 3) := by norm_num
  refine ⟨⟨?_, by norm_num⟩, ?_, ?_, ?_⟩
  · simp only [beamOnTimeLoop, timestep, particleLoop, particleBody, processLoop, pushAt,
      idleEngine, h01, h23, h43, if_true, if_false, List.length_cons, List.length_nil,
      List.length_set, Nat.lt_irrefl, Nat.zero_lt_one, zero_add, List.getElem?_cons_zero,
      Nat.reduceAdd, Nat.lt_add_one, Except.toOption, Option.map]
    norm_num
  · set_option maxRecDepth 100000 in with_unfolding_all rfl
  · set_option maxRecDepth 100000 in with_unfolding_all rfl
  · set_option maxRecDepth 100000 in with_unfolding_all decide

/-- C1 on a concrete input: one timestep of `emittingEngine` over a single
electron, with one process; the photon that the process appends is pushed and
offered in the same timestep. -/
theorem timestep_pushes_and_offers_every_particle_once_witness :
    [sampleElectron].length ≤ emittedSweep.event.length ∧
    emittedSweep.trace
      = fullTrace [Process.NonLinearCompton zeroField 1 false].length emittedSweep.event.length ∧
    emittedSweep.event
      = turnsUpTo emittingEngine (ParticlePusher.LorentzPusher zeroField 1)
          [Process.NonLinearCompton zeroField 1 false] emittedSweep.event.length
          [sampleElectron] ∧
    (∀ j, j < emittedSweep.event.length →
      j < (turnsUpTo emittingEngine (ParticlePusher.LorentzPusher zeroField 1)
          [Process.NonLinearCompton zeroField 1 false] j [sampleElectron]).length ∧
      emittedSweep.event[j]? = (pushedThenOffered emittingEngine
        (ParticlePusher.LorentzPusher zeroField 1) [Process.NonLinearCompton zeroField 1 false] j
        (turnsUpTo emittingEngine (ParticlePusher.LorentzPusher zeroField 1)
          [Process.NonLinearCompton zeroField 1 false] j [sampleElectron]))[j]?) ∧
    (∀ k j, k ≤ j →
      j < (turnsUpTo emittingEngine (ParticlePusher.LorentzPusher zeroField 1)
          [Process.NonLinearCompton zeroField 1 false] k [sampleElectron]).length →
      (turnsUpTo emittingEngine (ParticlePusher.LorentzPusher zeroField 1)
          [Process.NonLinearCompton zeroField 1 false] j [sampleElectron])[j]?
        = (turnsUpTo emittingEngine (ParticlePusher.LorentzPusher zeroField 1)
          [Process.NonLinearCompton zeroField 1 false] k [sampleElectron])[j]?) :=
  timestep_pushes_and_offers_every_particle_once emittingEngine emittingEngine_onlyAppends
    (ParticlePusher.LorentzPusher zeroField 1) [Process.NonLinearCompton zeroField 1 false] 2
    [sampleElectron] emittedSweep (by rfl)

/-- C2 on a concrete input: photons of energy 1/2 and 5, `floorIndex` as
`ArrayIndex`. -/
theorem merge_adds_normalised_values_without_renormalising_witness :
    ∃ A B M : Histogram,
      Histogram.Fill floorIndex axisEnergy (Histogram.Initialise Histogram.ctorDefault "A" 0 2 3)
        [softPhoton] "Energy" = Except.ok A ∧
      Histogram.Fill floorIndex axisEnergy (Histogram.Initialise Histogram.ctorDefault "B" 0 2 3)
        [hardPhoton, hardPhoton] "Energy" = Except.ok B ∧
      A.Merge B = Except.ok M ∧
      A.m_entries = 1 ∧ B.m_entries = 2 ∧ M.m_entries = 3 ∧
      A.m_binValues[0]? = some 1 ∧ B.m_binValues[0]? = some 0 ∧
      M.m_binValues[0]? = some 1 ∧ (1 : ℚ) ≠ (1 + 0) / (1 + 2) :=
  merge_adds_normalised_values_without_renormalising floorIndex axisEnergy softPhoton hardPhoton
    hardPhoton 0 (by with_unfolding_all decide) (by with_unfolding_all decide)
    (by with_unfolding_all decide) (by with_unfolding_all decide) (by decide)

/-- C5 on a concrete input: an input file with the field label "dipole". -/
theorem main_unknown_field_or_pusher_is_fatal_witness :
    ∃ run : MainRun,
      main idleEngine (fun _ => dipoleInput) 3 3 ["QEDCASC", "run.ini"] = Except.ok run ∧
      run.status = 1 ∧ run.simulated = [] ∧
      (dipoleInput.inField.Type_ ∉ ["static", "plane", "gaussian", "focusing"] →
        run.field = none ∧ run.pusher = none) ∧
      (dipoleInput.inGeneral.pusher ∉ ["Lorentz", "Landau"] → run.pusher = none) :=
  main_unknown_field_or_pusher_is_fatal idleEngine (fun _ => dipoleInput) 3 3
    ["QEDCASC", "run.ini"] "run.ini" (by rfl) (Or.inl (by decide))

/-- C6 on a concrete input: `configuredManager`, in the build without OpenMP. -/
theorem setPhysics_rejects_classical_accepts_clasical_witness :
    (configuredManager.setPhysics "classical").m_physSet = false ∧
    (configuredManager.setPhysics "clasical").m_physSet = true ∧
    (configuredManager.setPhysics "clasical").m_physics = "clasical" ∧
    clasicalRun.rm.m_pusher = some (ParticlePusher.LorentzPusher
      (RunManager.buildField configuredManager) configuredManager.m_timeStep) ∧
    clasicalRun.rm.m_processList.head? = some (Process.StochasticEmission
      (RunManager.buildField configuredManager) configuredManager.m_timeStep
      configuredManager.m_sampleFrac false 0) :=
  setPhysics_rejects_classical_accepts_clasical false (fun _ => 0) idleEngine 0 0
    configuredManager 0 clasicalRun ⟨by with_unfolding_all decide, rfl, rfl⟩
    (by with_unfolding_all rfl)

/-- C7 on a concrete input: a histogram with three bins and one with two. -/
theorem merge_incompatible_leaves_receiver_witness :
    histogramA.Merge histogramD = Except.ok histogramA :=
  merge_incompatible_leaves_receiver histogramA histogramD ⟨rfl, rfl, by decide⟩
    ⟨rfl, rfl, by decide⟩ (Or.inl (by decide))

/-- C9 (as amended) on a concrete input: the addition of `double` values, and
the three histograms whose first bin values are the `double` values of 0.1,
0.2 and 0.3. -/
theorem merge_commutative_and_associative_up_to_rounding_witness :
    (∃ X Y, histogramTenth.MergeWith binary64Add histogramFifth = Except.ok X ∧
      histogramFifth.MergeWith binary64Add histogramTenth = Except.ok Y ∧
      X.m_entries = Y.m_entries ∧ X.m_binValues = Y.m_binValues) ∧
    (∃ BC L AB R, histogramFifth.MergeWith binary64Add histogramThreeTenths = Except.ok BC ∧
      histogramTenth.MergeWith binary64Add BC = Except.ok L ∧
      histogramTenth.MergeWith binary64Add histogramFifth = Except.ok AB ∧
      AB.MergeWith binary64Add histogramThreeTenths = Except.ok R ∧
      L.m_entries = R.m_entries ∧
      (L.m_binValues = R.m_binValues ↔
        ∀ (i : Nat) (x y z : ℚ), histogramTenth.m_binValues[i]? = some x →
          histogramFifth.m_binValues[i]? = some y →
          histogramThreeTenths.m_binValues[i]? = some z →
          binary64Add x (binary64Add y z) = binary64Add (binary64Add x y) z) ∧
      ((∀ x y : ℚ, binary64Add x y = x + y) → L.m_binValues = R.m_binValues)) :=
  merge_commutative_and_associative_up_to_rounding binary64Add histogramTenth histogramFifth
    histogramThreeTenths (fun x y => congrArg binary64Round (add_comm x y))
    ⟨rfl, rfl, by decide⟩ ⟨rfl, rfl, by decide⟩ ⟨rfl, rfl, by decide⟩ ⟨rfl, rfl⟩ ⟨rfl, rfl⟩
    (by decide)

/-- C8 on a concrete input: two histograms, timestep 1, end time 2, one photon. -/
theorem every_histogram_filled_once_per_event_witness :
    (∃ fuelT fuelP run,
      mainEvent idleEngine (ParticlePusher.LorentzPusher zeroField 1) [] twoHistogramsAtZero 1 2
        fuelT fuelP [softPhoton] = Except.ok run) ∧
    (∀ fuelT fuelP run,
      mainEvent idleEngine (ParticlePusher.LorentzPusher zeroField 1) [] twoHistogramsAtZero 1 2
        fuelT fuelP [softPhoton] = Except.ok run →
      StepsOf idleEngine (ParticlePusher.LorentzPusher zeroField 1) [] 1 [softPhoton]
        run.event run.steps ∧
      PassesOf twoHistogramsAtZero run.steps run.event run.fills) :=
  every_histogram_filled_once_per_event idleEngine (ParticlePusher.LorentzPusher zeroField 1) []
    twoHistogramsAtZero 1 2 [softPhoton]
    (idleEngine_sweepsFinish (ParticlePusher.LorentzPusher zeroField 1) [])
    (Or.inl ⟨by decide, fun _ _ => rfl⟩)

/-- C10 (as amended) on a concrete input: timestep 2, end time 3. -/
theorem final_time_is_first_accumulated_time_not_below_end_witness :
    (∀ st : Stepping,
      beamOnTimeLoop idleEngine (ParticlePusher.LorentzPusher zeroField 2) [] 2 3 1 2
        { time := 0, event := [softPhoton], steps := [] } = Except.ok st →
      st.time = elapsed idleEngine.plus 2 st.steps.length ∧ 3 ≤ st.time ∧ 0 < st.steps.length ∧
      (∀ k : Nat, k < st.steps.length → elapsed idleEngine.plus 2 k < 3) ∧
      ((∀ a b : ℚ, idleEngine.plus a b = a + b) →
        st.time = st.steps.length * 2 ∧ st.time < 3 + 2 ∧
        (st.time = 3 ↔ ∃ m : Nat, (3 : ℚ) = m * 2))) ∧
    (∀ st : EventRun,
      mainTimeLoop idleEngine (ParticlePusher.LorentzPusher zeroField 2) [] twoHistogramsAtZero
        2 3 1 2
        { time := 0, event := [softPhoton], histCount := 0, steps := [], fills := [] }
        = Except.ok st →
      st.time = elapsed idleEngine.plus 2 st.steps.length ∧ 3 ≤ st.time ∧ 0 < st.steps.length ∧
      (∀ k : Nat, k < st.steps.length → elapsed idleEngine.plus 2 k < 3) ∧
      ((∀ a b : ℚ, idleEngine.plus a b = a + b) →
        st.time = st.steps.length * 2 ∧ st.time < 3 + 2 ∧
        (st.time = 3 ↔ ∃ m : Nat, (3 : ℚ) = m * 2))) :=
  final_time_is_first_accumulated_time_not_below_end idleEngine
    (ParticlePusher.LorentzPusher zeroField 2)
    [] twoHistogramsAtZero 2 3 2 1 [softPhoton] (by decide) (by decide)

/-- C11 (as stated) fails: `Initialise` with three bins, `minBin = 5` and
`maxBin = 1` does not abort, and neither does the `Fill` that follows; the
histogram then has the bin centres 5, 3, 1, three bin values and one entry. -/
theorem reversed_range_is_not_rejected :
    (Histogram.Fill floorIndex axisEnergy
        (Histogram.Initialise Histogram.ctorDefault "h" 5 1 3) [softPhoton] "Energy"
      ).toOption.map (fun h => (h.m_binCentres, h.m_binValues, h.m_entries))
      = some ([5, 3, 1], [0, 0, 0], 1) := by
  with_unfolding_all decide

/-- C11 (as amended) on a concrete input: three bins, `minBin = 5`,
`maxBin = 1`, one photon. -/
theorem degenerate_range_is_not_rejected_witness :
    Histogram.Fill floorIndex axisEnergy (Histogram.ctorDefault.Initialise "h" 5 1 0)
        [softPhoton] "Energy" = Except.error (Fault.exit 1) ∧
    (Histogram.ctorDefault.Initialise "h" 5 1 3).m_binCentres
      = (List.range 3).map (fun (i : Nat) => (5 : ℚ) + (i : ℚ) * ((1 - 5) / (((3 : Nat) : ℚ) - 1))) ∧
    (Histogram.ctorDefault.Initialise "h" 5 1 3).m_binValues = (List.range 3).map (fun _ => 0) ∧
    ∃ h1, Histogram.Fill floorIndex axisEnergy (Histogram.ctorDefault.Initialise "h" 5 1 3)
        [softPhoton] "Energy" = Except.ok h1 ∧
      h1.m_binCentres = (Histogram.ctorDefault.Initialise "h" 5 1 3).m_binCentres ∧
      h1.m_entries = Histogram.ctorDefault.m_entries + [softPhoton].length ∧ 0 < h1.m_entries ∧
      h1.m_binValues = (List.range 3).map (fun _ => 0) :=
  degenerate_range_is_not_rejected floorIndex axisEnergy Histogram.ctorDefault "h" "Energy" 5 1 3
    [softPhoton] (by decide) (by decide) (by decide) (by simp)

/-- C13 (as stated) fails.  Of two histograms that are both configured for
time 0, with timestep 1 and end time 2, the first is filled in timestep 0 and
the second in timestep 1, which starts at time 1, although timestep 0 starts at
a time `t = 0 ≥ T`.  And a histogram configured for time 5/2, with timestep 2
and end time 3, is not filled inside the time loop although its time is less
than the end time: the two timesteps start at the times 0 and 2, and the
histogram is filled in the final flush. -/
theorem second_histogram_is_filled_a_step_late :
    (mainEvent idleEngine (ParticlePusher.LorentzPusher zeroField 1) [] twoHistogramsAtZero 1 2
        2 1 [softPhoton]
      ).toOption.map (fun run =>
        (run.steps.map StepRecord.time, run.fills.map (fun f => (f.hist, f.step))))
      = some ([0, 1], [(0, 0), (1, 1)]) ∧
    ((mainEvent idleEngine (ParticlePusher.LorentzPusher zeroField 2) [] histogramAtFiveHalves
        2 3 2 1 [softPhoton]
      ).toOption.map (fun run =>
        (run.steps.map StepRecord.time, run.fills.map (fun f => (f.hist, f.step))))
      = some ([0, 2], [(0, 2)]) ∧ (5 / 2 : ℚ) < 3) := by
  refine ⟨?_, ?_, by norm_num⟩
  · with_unfolding_all decide
  · with_unfolding_all decide

/-- C13 (as amended) on a concrete input: two histograms configured for time 0,
timestep 1, end time 2, one photon. -/
theorem histogram_filled_at_first_due_timestep_after_predecessor_witness :
    (∃ fuelT fuelP run,
      mainEvent idleEngine (ParticlePusher.LorentzPusher zeroField 1) [] twoHistogramsAtZero 1 2
        fuelT fuelP [softPhoton] = Except.ok run) ∧
    (∀ fuelT fuelP run,
      mainEvent idleEngine (ParticlePusher.LorentzPusher zeroField 1) [] twoHistogramsAtZero 1 2
        fuelT fuelP [softPhoton] = Except.ok run →
      StepsOf idleEngine (ParticlePusher.LorentzPusher zeroField 1) [] 1 [softPhoton]
        run.event run.steps ∧
      run.fills.map Pass.hist = List.range twoHistogramsAtZero.length ∧
      ∀ f ∈ run.fills, PassTiming twoHistogramsAtZero run.steps run.event run.fills f) :=
  histogram_filled_at_first_due_timestep_after_predecessor idleEngine
    (ParticlePusher.LorentzPusher zeroField 1) [] twoHistogramsAtZero 1 2 [softPhoton]
    (idleEngine_sweepsFinish (ParticlePusher.LorentzPusher zeroField 1) [])
    (Or.inl ⟨by decide, fun _ _ => rfl⟩)

/-- C14 on a concrete input: two histograms initialised with three bins from 0
to 2, one from a default-constructed object and one from a used one. -/
theorem same_first_and_last_centre_give_same_centres_witness :
    (Histogram.ctorDefault.Initialise "a" 0 2 3).m_binCentres
      = (histogramA.Initialise "b" 0 2 3).m_binCentres :=
  same_first_and_last_centre_give_same_centres Histogram.ctorDefault histogramA "a" "b" 0 2 0 2
    3 3 (by decide) (by decide) (by decide) (by decide) rfl rfl rfl

/-- C16 on a concrete input: photons of energy 1/2 and 5, `floorIndex` as
`ArrayIndex`. -/
theorem second_fill_normalises_normalised_values_witness :
    ∃ A B : Histogram,
      Histogram.Fill floorIndex axisEnergy (Histogram.Initialise Histogram.ctorDefault "A" 0 2 3)
        [softPhoton, hardPhoton] "Energy" = Except.ok A ∧
      Histogram.Fill floorIndex axisEnergy A [softPhoton] "Energy" = Except.ok B ∧
      A.m_entries = 2 ∧ A.m_binValues[0]? = some (1 / 2) ∧
      B.m_entries = 3 ∧ B.m_binValues[0]? = some (1 / 2) ∧ (1 / 2 : ℚ) ≠ 2 / 3 :=
  second_fill_normalises_normalised_values floorIndex axisEnergy softPhoton softPhoton hardPhoton
    0 (by with_unfolding_all decide) (by with_unfolding_all decide)
    (by with_unfolding_all decide) (by with_unfolding_all decide) (by decide)

end QEDCascade
